import Mathlib

/-!
Verification of the CPU-scheduling core of `cpu_scheduler_core.py`
(EnergyEfficientCPUScheduler).

The Python core is shallowly embedded below:
* `Process`, `GanttEntry`, `SimulationResult` mirror the three dataclasses
  (the dataclass field `end` is called `stop` here because `end` is a Lean
  keyword; `freq_level` keeps the Python string representation).
* Python integers are `Int`; the float metrics are exact here and are
  modelled by `ℚ` (all arithmetic performed by the source on them is exact
  on the inputs the claims range over: sums and divisions of integers and
  of the power table 10.0 / 18.0 / 30.0).
* `sortK` is a stable insertion sort by an integer key: Python's
  `sorted(..., key=...)` / `list.sort(key=...)` is Timsort, which is stable,
  and a stable sort's output is uniquely determined by the key, so `sortK`
  is extensionally the function computed by the source's sort calls.
* The three non-preemptive schedulers share one `while` loop shape that
  differs only in the sort applied to the ready list before popping; the
  loop is embedded once as `npLoop`, parameterised by that transformation
  (`fun l => l` for FCFS, a sort by burst for SJF, by priority for
  Priority), one fuel unit per `while` iteration.  `rrLoop` embeds the
  round-robin loop the same way.  Fuel exhaustion returns `none`; the
  fuel handed to the loops by the `simulate_*` wrappers is proved
  sufficient for every input the spec admits (and `simulate_rr` with a
  non-positive quantum really loops forever in Python, hence stays `none`).
* The Python dicts `remaining` and the per-process metric dict are
  embedded as functions updated pointwise (`Function.update`), matching
  dict-comprehension initialisation (later binding wins) and item update.
-/

/-! ## Definitions: the shallow embedding of `cpu_scheduler_core.py` -/

/-- `Process` dataclass: `pid`, `arrival_time`, `burst_time`, `priority`
(lower number = higher priority). -/
structure Process where
  pid : String
  arrival_time : Int
  burst_time : Int
  priority : Int
deriving DecidableEq

/-- `GanttEntry` dataclass: occupant (`none` for idle), interval
`[start, stop)` (Python field `end`), and the frequency level string. -/
structure GanttEntry where
  pid : Option String
  start : Int
  stop : Int
  freq_level : String
deriving DecidableEq

/-- `SimulationResult` dataclass. -/
structure SimulationResult where
  algorithm : String
  gantt : List GanttEntry
  avg_waiting_time : ℚ
  avg_turnaround_time : ℚ
  avg_response_time : ℚ
  cpu_utilization : ℚ
  total_energy : ℚ
deriving DecidableEq

/-- `POWER_LEVELS` table (line 40).  In Python this is a dict whose only
keys are the three level strings; a lookup of any other string raises and
is unreachable from the simulators, the default 0 branch here is likewise
unreachable. -/
def POWER_LEVELS (level : String) : ℚ :=
  if level = "low" then 10 else if level = "med" then 18
  else if level = "high" then 30 else 0

/-- `always_high_strategy` (line 46). -/
def always_high_strategy (_queue_len : Nat) (_time : Int) (_algo : String) : String :=
  "high"

/-- `energy_aware_strategy` (line 50). -/
def energy_aware_strategy (queue_len : Nat) (_time : Int) (_algo : String) : String :=
  if queue_len ≤ 2 then "low" else if queue_len ≤ 5 then "med" else "high"

/-- Stable insertion of `a` into `l` by key `k`: `a` goes in front of the
first element whose key is not smaller.  Helper for `sortK`. -/
def insertK (k : Process → Int) (a : Process) : List Process → List Process
  | [] => [a]
  | b :: l => if k a ≤ k b then a :: b :: l else b :: insertK k a l

/-- Stable sort by integer key, the embedding of Python's stable
`sorted(..., key=...)` (see the header comment). -/
def sortK (k : Process → Int) : List Process → List Process
  | [] => []
  | a :: l => insertK k a (sortK k l)

/-- Per-process mutable record built by `compute_metrics` (lines 74-83);
the dict fields `arrival` and `burst` are read back from the `Process`
itself by the source (lines 106-107) and are omitted. -/
structure PState where
  start : Option Int
  completion : Option Int
  response : Option Int
deriving DecidableEq

/-- One step of the Gantt scan of `compute_metrics` (lines 86-95). -/
def applyEntry (st : String → PState) (e : GanttEntry) : String → PState :=
  match e.pid with
  | none => st
  | some pid =>
    let s := st pid
    Function.update st pid
      { start := if s.start = none then some e.start else s.start
        completion := some e.stop
        response := if s.response = none then some e.start else s.response }

/-- The state dict after the Gantt scan of `compute_metrics`. -/
def ganttState (gantt : List GanttEntry) : String → PState :=
  gantt.foldl applyEntry (fun _ => ⟨none, none, none⟩)

/-- One step of the totals loop of `compute_metrics` (lines 100-111):
accumulates (total_wait, total_turn, total_resp). -/
def addTotals (st : String → PState) (acc : ℚ × ℚ × ℚ) (p : Process) : ℚ × ℚ × ℚ :=
  match (st p.pid).completion with
  | none => acc
  | some completion =>
    let turnaround : Int := completion - p.arrival_time
    let waiting : Int := turnaround - p.burst_time
    let response : ℚ :=
      match (st p.pid).response with
      | some r => ((r - p.arrival_time : Int) : ℚ)
      | none => (waiting : ℚ)
    (acc.1 + (waiting : ℚ), acc.2.1 + (turnaround : ℚ), acc.2.2 + response)

/-- `start_time = gantt[0].start` when the gantt is non-empty, else 0
(lines 113-117). -/
def startTimeOf (gantt : List GanttEntry) : Int :=
  match gantt with | [] => 0 | e :: _ => e.start

/-- `end_time = gantt[-1].end` when the gantt is non-empty, else 0
(lines 113-117). -/
def endTimeOf (gantt : List GanttEntry) : Int :=
  match gantt.getLast? with | none => 0 | some e => e.stop

/-- `busy_time = sum(e.end - e.start for e in gantt if e.pid is not None)`
(line 119). -/
def busyTimeOf (gantt : List GanttEntry) : Int :=
  (gantt.filterMap (fun e => e.pid.map (fun _ => e.stop - e.start))).sum

/-- The energy loop of `compute_metrics` (lines 123-128): power times
duration, summed over the non-idle entries. -/
def totalEnergyOf (gantt : List GanttEntry) : ℚ :=
  (gantt.filterMap (fun e =>
    e.pid.map (fun _ => POWER_LEVELS e.freq_level * ((e.stop - e.start : Int) : ℚ)))).sum

/-- `compute_metrics` (lines 68-138). -/
def compute_metrics (processes : List Process) (gantt : List GanttEntry)
    (algo_name : String) : SimulationResult :=
  let st := ganttState gantt
  let n := processes.length
  let totals := processes.foldl (addTotals st) (0, 0, 0)
  let cpu_util : ℚ :=
    if startTimeOf gantt < endTimeOf gantt then
      (busyTimeOf gantt : ℚ) / ((endTimeOf gantt - startTimeOf gantt : Int) : ℚ) * 100
    else 0
  let total_energy : ℚ := totalEnergyOf gantt
  { algorithm := algo_name
    gantt := gantt
    avg_waiting_time := if n = 0 then 0 else totals.1 / (n : ℚ)
    avg_turnaround_time := if n = 0 then 0 else totals.2.1 / (n : ℚ)
    avg_response_time := if n = 0 then 0 else totals.2.2 / (n : ℚ)
    cpu_utilization := cpu_util
    total_energy := total_energy }

/-- The shared `while i < len(procs) or ready:` loop of `simulate_fcfs`
(lines 153-172), `simulate_sjf` (189-208) and `simulate_priority`
(226-245).  `pick` is the transformation applied to the ready list right
before `ready.pop(0)`: the identity for FCFS, the stable sort by burst
time for SJF, by priority for Priority.  One fuel unit per iteration of
the `while` loop; `none` on fuel exhaustion (the wrappers pass provably
sufficient fuel). -/
def npLoop (pick : List Process → List Process)
    (freq_strategy : Nat → Int → String → String) (algo_name : String) :
    Nat → List Process → List Process → Int → Option (List GanttEntry)
  | 0, _, _, _ => none
  | fuel + 1, pending, ready, time =>
    if pending.isEmpty && ready.isEmpty then some []
    else
      let pending1 := pending.dropWhile (fun p => p.arrival_time ≤ time)
      match ready ++ pending.takeWhile (fun p => p.arrival_time ≤ time) with
      | [] =>
        match pending1 with
        | [] => some []
        | q :: _ =>
          (npLoop pick freq_strategy algo_name fuel pending1 [] q.arrival_time).map
            (fun g => GanttEntry.mk none time q.arrival_time "low" :: g)
      | r :: rs =>
        match pick (r :: rs) with
        | [] => some []
        | current :: rest =>
          let start := max time current.arrival_time
          let stop := start + current.burst_time
          let freq := freq_strategy (rest.length + 1) time algo_name
          (npLoop pick freq_strategy algo_name fuel pending1 rest stop).map
            (fun g => GanttEntry.mk (some current.pid) start stop freq :: g)

/-- Fuel that the non-preemptive wrappers hand to `npLoop`; proved
sufficient for every input. -/
def npFuel (processes : List Process) : Nat :=
  2 * processes.length + 2

/-- `simulate_fcfs` (lines 145-174).  The Python default for
`freq_strategy` is `always_high_strategy`; the argument is explicit here. -/
def simulate_fcfs (processes : List Process)
    (freq_strategy : Nat → Int → String → String) : SimulationResult :=
  let procs := sortK (fun p => p.arrival_time) processes
  let time0 : Int := match procs with | [] => 0 | p :: _ => p.arrival_time
  let gantt :=
    (npLoop (fun l => l) freq_strategy "FCFS" (npFuel processes) procs [] time0).getD []
  compute_metrics processes gantt "FCFS"

/-- `simulate_sjf` (lines 181-210): `ready.sort(key=lambda p: p.burst_time)`
then pop the head. -/
def simulate_sjf (processes : List Process)
    (freq_strategy : Nat → Int → String → String) : SimulationResult :=
  let procs := sortK (fun p => p.arrival_time) processes
  let time0 : Int := match procs with | [] => 0 | p :: _ => p.arrival_time
  let gantt :=
    (npLoop (sortK (fun p => p.burst_time)) freq_strategy "SJF (Non-preemptive)"
      (npFuel processes) procs [] time0).getD []
  compute_metrics processes gantt "SJF (Non-preemptive)"

/-- `simulate_priority` (lines 217-247): `ready.sort(key=lambda p: p.priority)`
then pop the head. -/
def simulate_priority (processes : List Process)
    (freq_strategy : Nat → Int → String → String) : SimulationResult :=
  let procs := sortK (fun p => p.arrival_time) processes
  let time0 : Int := match procs with | [] => 0 | p :: _ => p.arrival_time
  let gantt :=
    (npLoop (sortK (fun p => p.priority)) freq_strategy "Priority (Non-preemptive)"
      (npFuel processes) procs [] time0).getD []
  compute_metrics processes gantt "Priority (Non-preemptive)"

/-- `remaining = {p.pid: p.burst_time for p in processes}` (line 260);
with a duplicated pid the later binding wins, like the comprehension.
The 0 default is unreachable: the loop only looks up pids of `processes`. -/
def initRemaining (processes : List Process) : String → Int :=
  processes.foldl (fun m p => Function.update m p.pid p.burst_time) (fun _ => 0)

/-- The `while len(completed) < n_total:` loop of `simulate_rr`
(lines 269-302).  `completed` is the Python set, kept as a duplicate-free
list (`List.insert` = `set.add` for membership and size).  One fuel unit
per iteration; `none` on fuel exhaustion — with a non-positive quantum and
a process of positive remaining burst the Python loop never terminates,
and this embedding accordingly yields `none` for every fuel. -/
def rrLoop (freq_strategy : Nat → Int → String → String) (quantum : Int)
    (algo_name : String) (n_total : Nat) :
    Nat → List Process → List Process → (String → Int) → List String → Int →
      Option (List GanttEntry)
  | 0, _, _, _, _, _ => none
  | fuel + 1, pending, ready, remaining, completed, time =>
    if completed.length < n_total then
      let pending1 := pending.dropWhile (fun p => p.arrival_time ≤ time)
      match ready ++ pending.takeWhile (fun p => p.arrival_time ≤ time) with
      | [] =>
        match pending1 with
        | [] => some []
        | q :: _ =>
          (rrLoop freq_strategy quantum algo_name n_total fuel
              pending1 [] remaining completed q.arrival_time).map
            (fun g => GanttEntry.mk none time q.arrival_time "low" :: g)
      | current :: rest =>
        let pid := current.pid
        let exec_time := min quantum (remaining pid)
        let freq := freq_strategy (rest.length + 1) time algo_name
        let stop := time + exec_time
        let remaining1 := Function.update remaining pid (remaining pid - exec_time)
        let pending2 := pending1.dropWhile (fun p => p.arrival_time ≤ stop)
        let ready2 := rest ++ pending1.takeWhile (fun p => p.arrival_time ≤ stop)
        let next :=
          if remaining1 pid > 0 then
            rrLoop freq_strategy quantum algo_name n_total fuel
              pending2 (ready2 ++ [current]) remaining1 completed stop
          else
            rrLoop freq_strategy quantum algo_name n_total fuel
              pending2 ready2 remaining1 (completed.insert pid) stop
        next.map (fun g => GanttEntry.mk (some pid) time stop freq :: g)
    else some []

/-- Fuel handed to `rrLoop` by `simulate_rr`; proved sufficient whenever
every burst and the quantum are positive. -/
def rrFuel (processes : List Process) : Nat :=
  2 * (processes.map (fun p => p.burst_time.toNat)).sum + 2 * processes.length + 4

/-- `simulate_rr` (lines 254-304).  `none` models non-termination of the
Python loop (fuel-insufficiency never occurs on inputs with positive
bursts and positive quantum, as proved below).  The Python defaults
`quantum=2`, `freq_strategy=always_high_strategy`,
`algo_name="Round Robin"` are explicit arguments here. -/
def simulate_rr (processes : List Process) (quantum : Int)
    (freq_strategy : Nat → Int → String → String) (algo_name : String) :
    Option SimulationResult :=
  let procs := sortK (fun p => p.arrival_time) processes
  let time0 : Int := match procs with | [] => 0 | p :: _ => p.arrival_time
  (rrLoop freq_strategy quantum algo_name processes.length (rrFuel processes)
      procs [] (initRemaining processes) [] time0).map
    (fun g => compute_metrics processes g algo_name)

/-- `simulate_energy_efficient` (lines 311-321). -/
def simulate_energy_efficient (processes : List Process) (quantum : Int) :
    Option SimulationResult :=
  simulate_rr processes quantum energy_aware_strategy "Energy-Efficient RR"

/-- The demo process set of `run_cli_demo` (lines 329-334), which is also
the concrete scenario of the spec. -/
def demoProcs : List Process :=
  [⟨"P1", 0, 7, 2⟩, ⟨"P2", 2, 4, 1⟩, ⟨"P3", 4, 1, 3⟩, ⟨"P4", 5, 4, 2⟩]

/-- 1 iff the next iteration will emit an idle entry (empty ready list and
a pending head that has not arrived yet). -/
def npFlag (pending ready : List Process) (time : Int) : Nat :=
  match ready, pending with
  | [], p :: _ => if p.arrival_time ≤ time then 0 else 1
  | _, _ => 0

/-- The FCFS timeline of the demo scenario, computed by the embedding. -/
def fcfsDemoGantt : List GanttEntry :=
  [⟨some "P1", 0, 7, "high"⟩, ⟨some "P2", 7, 11, "high"⟩,
   ⟨some "P3", 11, 12, "high"⟩, ⟨some "P4", 12, 16, "high"⟩]

/-- The timing skeleton of a timeline entry: everything except the
frequency level. -/
def skel (e : GanttEntry) : Option String × Int × Int :=
  (e.pid, e.start, e.stop)

/-- `applyEntry` reads only the skeleton of its entry. -/
def applyEntryS (st : String → PState) (es : Option String × Int × Int) :
    String → PState :=
  match es.1 with
  | none => st
  | some pid =>
    let s := st pid
    Function.update st pid
      { start := if s.start = none then some es.2.1 else s.start
        completion := some es.2.2
        response := if s.response = none then some es.2.1 else s.response }

/-- Total remaining burst, in `Nat`, of a list of processes. -/
def sumRem (l : List Process) (rem : String → Int) : Nat :=
  (l.map (fun p => (rem p.pid).toNat)).sum

/-- The entries of the timeline occupied by `pid`. -/
def entriesOf (g : List GanttEntry) (pid : String) : List GanttEntry :=
  g.filter (fun e => e.pid = some pid)

/-- Total duration `pid` occupies the CPU in the timeline. -/
def execOf (g : List GanttEntry) (pid : String) : Int :=
  ((entriesOf g pid).map (fun e => e.stop - e.start)).sum

/-- Number of non-idle entries of a timeline. -/
def nonIdleCount (g : List GanttEntry) : Nat :=
  g.countP (fun e => e.pid.isSome)

/-- Execution total of `pid` in the first `j` entries of the timeline. -/
def execBefore (g : List GanttEntry) (j : Nat) (pid : String) : Int :=
  execOf (g.take j) pid

/-- `ceil(b / q)` on the `Nat` shadows of two positive integers: the
number of round-robin slices a remaining burst `b` still needs. -/
def sliceCount (b q : Int) : Nat :=
  (b.toNat + q.toNat - 1) / q.toNat

/-- Total number of slices still owed to a list of processes. -/
def sumSlices (l : List Process) (rem : String → Int) (q : Int) : Nat :=
  (l.map (fun p => sliceCount (rem p.pid) q)).sum

/-- `simulate_rr(demo_procs, quantum=2)` timeline under the baseline
strategy: nine slices, all at high frequency. -/
def rrDemoGanttHigh : List GanttEntry :=
  [⟨some "P1", 0, 2, "high"⟩, ⟨some "P2", 2, 4, "high"⟩,
   ⟨some "P1", 4, 6, "high"⟩, ⟨some "P3", 6, 7, "high"⟩,
   ⟨some "P2", 7, 9, "high"⟩, ⟨some "P4", 9, 11, "high"⟩,
   ⟨some "P1", 11, 13, "high"⟩, ⟨some "P4", 13, 15, "high"⟩,
   ⟨some "P1", 15, 16, "high"⟩]

/-- `simulate_energy_efficient(demo_procs, quantum=2)` timeline: the same
nine slices, frequencies picked from the queue length. -/
def rrDemoGanttEE : List GanttEntry :=
  [⟨some "P1", 0, 2, "low"⟩, ⟨some "P2", 2, 4, "low"⟩,
   ⟨some "P1", 4, 6, "med"⟩, ⟨some "P3", 6, 7, "med"⟩,
   ⟨some "P2", 7, 9, "med"⟩, ⟨some "P4", 9, 11, "low"⟩,
   ⟨some "P1", 11, 13, "low"⟩, ⟨some "P4", 13, 15, "low"⟩,
   ⟨some "P1", 15, 16, "low"⟩]

/-- Spec-side: the start of the first timeline entry occupied by `pid`
(0 when there is none). -/
def specFirstStart (g : List GanttEntry) (pid : String) : Int :=
  match entriesOf g pid with
  | [] => 0
  | e :: _ => e.start

/-- Spec-side: the end of the last timeline entry occupied by `pid`
(0 when there is none). -/
def specLastEnd (g : List GanttEntry) (pid : String) : Int :=
  match (entriesOf g pid).getLast? with
  | none => 0
  | some e => e.stop

/-- Spec-side turnaround time of a process. -/
def specTurnaround (g : List GanttEntry) (p : Process) : Int :=
  specLastEnd g p.pid - p.arrival_time

/-- Spec-side waiting time of a process. -/
def specWaiting (g : List GanttEntry) (p : Process) : Int :=
  specTurnaround g p - p.burst_time

/-- Spec-side response time of a process. -/
def specResponse (g : List GanttEntry) (p : Process) : Int :=
  specFirstStart g p.pid - p.arrival_time

/-- A two-process workload with an arrival gap, so every policy emits an
idle entry. -/
def gapProcs : List Process :=
  [⟨"A", 0, 2, 0⟩, ⟨"B", 5, 3, 0⟩]

/-- `simulate_rr(gapProcs, 2)` under the baseline strategy: slice, idle
gap, two slices. -/
def gapGantt : List GanttEntry :=
  [⟨some "A", 0, 2, "high"⟩, ⟨none, 2, 5, "low"⟩,
   ⟨some "B", 5, 7, "high"⟩, ⟨some "B", 7, 8, "high"⟩]

/-! ## Theorems -/

/-! ### Basic list facts used throughout -/

theorem dropWhile_of_takeWhile_nil (p : α → Bool) (l : List α)
    (h : l.takeWhile p = []) : l.dropWhile p = l := by
  cases l with
  | nil => rfl
  | cons a t =>
    by_cases hpa : p a
    · simp [List.takeWhile_cons, hpa] at h
    · simp [List.dropWhile_cons, hpa]

theorem takeWhile_nil_head (p : α → Bool) (a : α) (t : List α)
    (h : (a :: t).takeWhile p = []) : p a = false := by
  by_cases hpa : p a
  · simp [List.takeWhile_cons, hpa] at h
  · simpa using hpa

theorem length_takeWhile_add_dropWhile (p : α → Bool) (l : List α) :
    (l.takeWhile p).length + (l.dropWhile p).length = l.length := by
  conv_rhs => rw [← List.takeWhile_append_dropWhile p l]
  exact (List.length_append _ _).symm

theorem isSome_opt_map (f : α → β) (o : Option α) :
    (Option.map f o).isSome = o.isSome := by
  cases o <;> rfl

theorem pair_sublist_of_mem {l : List α} {x y : α} (hx : x ∈ l) (hy : y ∈ l)
    (hne : x ≠ y) : [x, y].Sublist l ∨ [y, x].Sublist l := by
  induction l with
  | nil => cases hx
  | cons a t ih =>
    rcases List.mem_cons.mp hx with rfl | hx'
    · rcases List.mem_cons.mp hy with rfl | hy'
      · exact absurd rfl hne
      · exact Or.inl (List.cons_sublist_cons.mpr (List.singleton_sublist.mpr hy'))
    · rcases List.mem_cons.mp hy with rfl | hy'
      · exact Or.inr (List.cons_sublist_cons.mpr (List.singleton_sublist.mpr hx'))
      · rcases ih hx' hy' with h | h
        · exact Or.inl (h.trans (List.sublist_cons_self a t))
        · exact Or.inr (h.trans (List.sublist_cons_self a t))

theorem pair_sublist_antisymm {l : List α} {x y : α} (hnd : l.Nodup)
    (h1 : [x, y].Sublist l) (h2 : [y, x].Sublist l) : x = y := by
  induction l with
  | nil => simp at h1
  | cons a t ih =>
    rcases List.nodup_cons.mp hnd with ⟨hat, hndt⟩
    rcases List.sublist_cons_iff.mp h1 with h1' | ⟨r, hr, hrs⟩
    · rcases List.sublist_cons_iff.mp h2 with h2' | ⟨r', hr', hrs'⟩
      · exact ih hndt h1' h2'
      · injection hr' with ha hr'
        subst ha
        exact absurd (h1'.subset (by simp)) hat
    · injection hr with ha hr
      subst ha
      rcases List.sublist_cons_iff.mp h2 with h2' | ⟨r', hr', hrs'⟩
      · exact absurd (h2'.subset (by simp)) hat
      · injection hr' with ha' hr'
        exact ha'.symm

/-! ### The stable sort `sortK` -/

theorem length_insertK (k : Process → Int) (a : Process) (l : List Process) :
    (insertK k a l).length = l.length + 1 := by
  induction l with
  | nil => rfl
  | cons b t ih =>
    by_cases h : k a ≤ k b
    · simp [insertK, h]
    · simp [insertK, h, ih]

theorem insertK_perm (k : Process → Int) (a : Process) (l : List Process) :
    (insertK k a l).Perm (a :: l) := by
  induction l with
  | nil => exact List.Perm.refl _
  | cons b t ih =>
    by_cases h : k a ≤ k b
    · simp [insertK, h]
    · simpa [insertK, h] using ((ih.cons b).trans (List.Perm.swap a b t))

theorem sortK_perm (k : Process → Int) (l : List Process) :
    (sortK k l).Perm l := by
  induction l with
  | nil => exact List.Perm.refl _
  | cons a t ih => exact (insertK_perm k a (sortK k t)).trans (ih.cons a)

theorem length_sortK (k : Process → Int) (l : List Process) :
    (sortK k l).length = l.length :=
  (sortK_perm k l).length_eq

theorem insertK_pairwise (k : Process → Int) (a : Process) {l : List Process}
    (h : l.Pairwise (fun x y => k x ≤ k y)) :
    (insertK k a l).Pairwise (fun x y => k x ≤ k y) := by
  induction l with
  | nil => simp [insertK]
  | cons b t ih =>
    rcases List.pairwise_cons.mp h with ⟨hb, ht⟩
    by_cases hab : k a ≤ k b
    · simp only [insertK, if_pos hab]
      refine List.pairwise_cons.mpr ⟨?_, h⟩
      intro y hy
      rcases List.mem_cons.mp hy with rfl | hy'
      · exact hab
      · exact le_trans hab (hb y hy')
    · simp only [insertK, if_neg hab]
      refine List.pairwise_cons.mpr ⟨?_, ih ht⟩
      intro y hy
      have := (insertK_perm k a t).mem_iff.mp hy
      rcases List.mem_cons.mp this with rfl | hy'
      · exact le_of_not_le hab
      · exact hb y hy'

theorem sortK_pairwise (k : Process → Int) (l : List Process) :
    (sortK k l).Pairwise (fun x y => k x ≤ k y) := by
  induction l with
  | nil => simp [sortK]
  | cons a t ih => exact insertK_pairwise k a ih

theorem sublist_insertK (k : Process → Int) (a : Process) (l : List Process) :
    l.Sublist (insertK k a l) := by
  induction l with
  | nil => simp [insertK]
  | cons b t ih =>
    by_cases h : k a ≤ k b
    · simp only [insertK, if_pos h]
      exact List.sublist_cons_self a (b :: t)
    · simp only [insertK, if_neg h]
      exact List.cons_sublist_cons.mpr ih

theorem cons_sublist_insertK (k : Process → Int) (a : Process)
    {c m : List Process} (hc : c.Sublist m) (hall : ∀ y ∈ c, k a ≤ k y) :
    (a :: c).Sublist (insertK k a m) := by
  induction m generalizing c with
  | nil =>
    have : c = [] := List.sublist_nil.mp hc
    subst this
    simp [insertK]
  | cons b t ih =>
    by_cases hab : k a ≤ k b
    · simp only [insertK, if_pos hab]
      exact List.cons_sublist_cons.mpr hc
    · simp only [insertK, if_neg hab]
      rcases List.sublist_cons_iff.mp hc with hc' | ⟨r, hr, hrs⟩
      · exact (ih hc' hall).trans (List.sublist_cons_self b _)
      · subst hr
        exact absurd (hall b (by simp)) hab

theorem sublist_sortK (k : Process → Int) {c l : List Process}
    (hc : c.Sublist l) (hp : c.Pairwise (fun x y => k x ≤ k y)) :
    c.Sublist (sortK k l) := by
  induction l generalizing c with
  | nil =>
    have : c = [] := List.sublist_nil.mp hc
    subst this
    exact List.nil_sublist _
  | cons a t ih =>
    rcases List.sublist_cons_iff.mp hc with hc' | ⟨r, hr, hrs⟩
    · exact (ih hc' hp).trans (sublist_insertK k a (sortK k t))
    · subst hr
      rcases List.pairwise_cons.mp hp with ⟨ha, hr'⟩
      exact cons_sublist_insertK k a (ih hrs hr')
        (fun y hy => ha y hy)

/-- Stability of `sortK`, reverse direction: a key-equal pair of the sorted
output occurs in that order in the (duplicate-free) input. -/
theorem sortK_pair_rev (k : Process → Int) {l : List Process} {x y : Process}
    (hnd : l.Nodup) (hs : [x, y].Sublist (sortK k l)) (hk : k x = k y) :
    [x, y].Sublist l := by
  have hnds : (sortK k l).Nodup := ((sortK_perm k l).symm).nodup hnd
  by_cases hxy : x = y
  · subst hxy
    have hp : List.Pairwise (fun a b => a ≠ b) [x, x] :=
      List.Pairwise.sublist hs hnds
    exact absurd rfl ((List.pairwise_cons.mp hp).1 x (by simp))
  · have hxl : x ∈ l := (sortK_perm k l).subset (hs.subset (by simp))
    have hyl : y ∈ l := (sortK_perm k l).subset (hs.subset (by simp))
    rcases pair_sublist_of_mem hxl hyl hxy with h | h
    · exact h
    · have : [y, x].Sublist (sortK k l) :=
        sublist_sortK k h (by simp [hk.symm.le])
      exact absurd (pair_sublist_antisymm hnds hs this) hxy

/-! ### Termination (fuel sufficiency) of the non-preemptive loop -/

theorem npFlag_le_one (pending ready : List Process) (time : Int) :
    npFlag pending ready time ≤ 1 := by
  cases ready <;> cases pending <;> simp [npFlag] <;> split <;> simp

/-- `npLoop` answers within `2·(|pending|+|ready|) + flag + 1` iterations,
whenever `pick` preserves length (true of the three instantiations). -/
theorem npLoop_isSome (pick : List Process → List Process)
    (hpick : ∀ l, (pick l).length = l.length)
    (s : Nat → Int → String → String) (a : String) :
    ∀ fuel pending ready time,
      2 * (pending.length + ready.length) + npFlag pending ready time + 1 ≤ fuel →
      (npLoop pick s a fuel pending ready time).isSome := by
  intro fuel
  induction fuel with
  | zero => intro pending ready time h; omega
  | succ fuel ih =>
    intro pending ready time h
    rw [npLoop]
    by_cases hempty : (pending.isEmpty && ready.isEmpty) = true
    · simp [hempty]
    · simp only [hempty, if_false]
      cases hq : ready ++ pending.takeWhile (fun p => p.arrival_time ≤ time) with
      | nil =>
        have hready : ready = [] := by
          cases ready with
          | nil => rfl
          | cons u us => simp at hq
        subst hready
        have htw : pending.takeWhile (fun p => p.arrival_time ≤ time) = [] := by
          simpa using hq
        have hdw : pending.dropWhile (fun p => p.arrival_time ≤ time) = pending :=
          dropWhile_of_takeWhile_nil _ _ htw
        cases hp : pending with
        | nil => simp [hp] at hempty
        | cons q qs =>
          subst hp
          have hfail : (q.arrival_time ≤ time) = False := by
            simpa using takeWhile_nil_head _ _ _ htw
          simp only [hdw, Bool.false_eq_true, if_false]
          rw [isSome_opt_map]
          apply ih
          have hflag : npFlag (q :: qs) [] time = 1 := by
            simp [npFlag, hfail]
          have hflag' : npFlag (q :: qs) [] q.arrival_time = 0 := by
            simp [npFlag]
          omega
      | cons r rs =>
        cases hpk : pick (r :: rs) with
        | nil => simp [hpk]
        | cons current rest =>
          simp only [hpk, Bool.false_eq_true, if_false]
          rw [isSome_opt_map]
          apply ih
          have hlen1 : (pick (r :: rs)).length = rs.length + 1 := by
            rw [hpick]; rfl
          have hlen2 : rest.length = rs.length := by
            rw [hpk] at hlen1
            simpa using hlen1
          have hlen3 : (pending.takeWhile (fun p => p.arrival_time ≤ time)).length +
              (pending.dropWhile (fun p => p.arrival_time ≤ time)).length =
              pending.length :=
            length_takeWhile_add_dropWhile _ _
          have hlen4 : ready.length +
              (pending.takeWhile (fun p => p.arrival_time ≤ time)).length =
              rs.length + 1 := by
            have := congrArg List.length hq
            simpa using this
          have hflag := npFlag_le_one
            (pending.dropWhile (fun p => p.arrival_time ≤ time)) rest
            (max time current.arrival_time + current.burst_time)
          omega

/-! ### Claim C2: the concrete scenario -/

/-- **C2**.  Concrete scenario `P1(0,7,2), P2(2,4,1), P3(4,1,3), P4(5,4,2)`:
`simulate_fcfs` completes the processes in order P1, P2, P3, P4 (its timeline
is exactly P1 on `[0,7)`, P2 on `[7,11)`, P3 on `[11,12)`, P4 on `[12,16)`),
its average waiting time is `(0+5+7+7)/4 = 4.75`, and `simulate_rr` with
quantum 2 gives P3 exactly one slice, of length 1 (the interval `[6,7)`),
never a full quantum of 2. -/
theorem claim_C2 :
    (simulate_fcfs demoProcs always_high_strategy).gantt = fcfsDemoGantt ∧
    (simulate_fcfs demoProcs always_high_strategy).avg_waiting_time = 19 / 4 ∧
    ((simulate_rr demoProcs 2 always_high_strategy "Round Robin").map
      (fun r => r.gantt.filter (fun e => e.pid = some "P3"))) =
        some [⟨some "P3", 6, 7, "high"⟩] := by
  have harg : (npLoop (fun l => l) always_high_strategy "FCFS" (npFuel demoProcs)
      (sortK (fun p => p.arrival_time) demoProcs) []
      (match sortK (fun p => p.arrival_time) demoProcs with
       | [] => 0
       | p :: _ => p.arrival_time)).getD [] = fcfsDemoGantt := by decide
  have hres : simulate_fcfs demoProcs always_high_strategy =
      compute_metrics demoProcs fcfsDemoGantt "FCFS" :=
    congrArg (fun g => compute_metrics demoProcs g "FCFS") harg
  refine ⟨by decide, ?_, by decide⟩
  rw [hres]
  simp +decide [compute_metrics, ganttState, applyEntry, addTotals, demoProcs,
    fcfsDemoGantt, Function.update, startTimeOf, endTimeOf, busyTimeOf, totalEnergyOf]
  norm_num

/-! ### Claim C7: input validation (none exists in the core) -/

/-- With quantum 0 and one unit of remaining burst, every round-robin
iteration runs a zero-length slice and re-queues the process unchanged, so
no amount of fuel produces an answer — the Python loop never terminates. -/
theorem rrLoop_zero_quantum_stuck :
    ∀ (fuel : Nat) (rem : String → Int), rem "P1" = 1 →
      rrLoop always_high_strategy 0 "Round Robin" 1 fuel []
        [⟨"P1", 0, 1, 0⟩] rem [] 0 = none := by
  intro fuel
  induction fuel with
  | zero => intro rem h; rfl
  | succ fuel ih =>
    intro rem h
    rw [rrLoop]
    simp only [List.takeWhile_nil, List.dropWhile_nil, List.append_nil, h,
      List.length_nil, List.length_cons, Function.update_same]
    norm_num
    exact ih _ (by simp [Function.update_same, h])

/-- **C7, counterexample**.  The claim says a call with a non-positive
burst time is rejected before simulation begins and never simulated.  In
fact the core contains no validation at all: `simulate_fcfs` on a process
with `burst_time = -1` happily simulates it and returns a timeline — a
single non-idle entry `[0, -1)` that ends before it starts — instead of
surfacing any validation failure. -/
theorem claim_C7_counterexample :
    (simulate_fcfs [⟨"P1", 0, -1, 0⟩] always_high_strategy).gantt =
      [⟨some "P1", 0, -1, "high"⟩] ∧
    (simulate_fcfs [⟨"P1", 0, -1, 0⟩] always_high_strategy).gantt ≠ [] := by
  exact ⟨by decide, by decide⟩

/-- **C7, amended**.  The core performs no input validation whatsoever:
a non-positive burst time and a negative arrival time are simulated as-is
(the first producing an entry that ends before it starts), and a
non-positive quantum is not rejected either — `simulate_rr` just never
terminates on it (its loop makes no progress for any amount of fuel, so
the embedding yields `none`).  The only input checks in the repository
live in the presentation layer (`app_streamlit.py`): an arrival/burst
count mismatch error and a quantum widget with minimum 1. -/
theorem claim_C7_amended :
    (simulate_fcfs [⟨"P1", 0, -1, 0⟩] always_high_strategy).gantt =
      [⟨some "P1", 0, -1, "high"⟩] ∧
    (simulate_fcfs [⟨"P1", -3, 5, 0⟩] always_high_strategy).gantt =
      [⟨some "P1", -3, 2, "high"⟩] ∧
    (∀ fuel : Nat,
      rrLoop always_high_strategy 0 "Round Robin" 1 fuel
        [⟨"P1", 0, 1, 0⟩] [] (initRemaining [⟨"P1", 0, 1, 0⟩]) [] 0 = none) ∧
    simulate_rr [⟨"P1", 0, 1, 0⟩] 0 always_high_strategy "Round Robin" = none := by
  refine ⟨by decide, by decide, ?_, by decide⟩
  intro fuel
  cases fuel with
  | zero => rfl
  | succ fuel =>
    rw [rrLoop]
    have h1 : initRemaining [(⟨"P1", 0, 1, 0⟩ : Process)] "P1" = 1 := by decide
    simp only [h1, List.length_nil, List.length_cons, Function.update_same]
    norm_num
    exact rrLoop_zero_quantum_stuck fuel _ (by simp [h1, Function.update_same])

/-! ### Claim C10: the frequency strategy never affects timing -/

theorem ganttState_skel {g1 g2 : List GanttEntry}
    (h : g1.map skel = g2.map skel) : ganttState g1 = ganttState g2 := by
  have e1 : ganttState g1 = (g1.map skel).foldl applyEntryS (fun _ => ⟨none, none, none⟩) := by
    rw [List.foldl_map]
    rfl
  have e2 : ganttState g2 = (g2.map skel).foldl applyEntryS (fun _ => ⟨none, none, none⟩) := by
    rw [List.foldl_map]
    rfl
  rw [e1, e2, h]

theorem busyTimeOf_skel {g1 g2 : List GanttEntry}
    (h : g1.map skel = g2.map skel) : busyTimeOf g1 = busyTimeOf g2 := by
  have e1 : busyTimeOf g1 =
      ((g1.map skel).filterMap (fun es => es.1.map (fun _ => es.2.2 - es.2.1))).sum := by
    rw [List.filterMap_map]
    rfl
  have e2 : busyTimeOf g2 =
      ((g2.map skel).filterMap (fun es => es.1.map (fun _ => es.2.2 - es.2.1))).sum := by
    rw [List.filterMap_map]
    rfl
  rw [e1, e2, h]

theorem startTimeOf_skel {g1 g2 : List GanttEntry}
    (h : g1.map skel = g2.map skel) : startTimeOf g1 = startTimeOf g2 := by
  cases g1 with
  | nil =>
    cases g2 with
    | nil => rfl
    | cons e2 t2 => simp [skel] at h
  | cons e1 t1 =>
    cases g2 with
    | nil => simp [skel] at h
    | cons e2 t2 =>
      simp only [List.map_cons, List.cons.injEq, skel, Prod.mk.injEq] at h
      simp only [startTimeOf]
      exact h.1.2.1

theorem endTimeOf_skel {g1 g2 : List GanttEntry}
    (h : g1.map skel = g2.map skel) : endTimeOf g1 = endTimeOf g2 := by
  have h' : (g1.map skel).getLast? = (g2.map skel).getLast? := by rw [h]
  rw [List.getLast?_map, List.getLast?_map] at h'
  simp only [endTimeOf]
  cases hg1 : g1.getLast? with
  | none =>
    cases hg2 : g2.getLast? with
    | none => rfl
    | some e2 => rw [hg1, hg2] at h'; simp at h'
  | some e1 =>
    cases hg2 : g2.getLast? with
    | none => rw [hg1, hg2] at h'; simp at h'
    | some e2 =>
      rw [hg1, hg2] at h'
      simp [skel, Prod.ext_iff] at h'
      exact h'.2.2

/-- All `compute_metrics` outputs except `total_energy` (and the copied
algorithm name and raw gantt) depend only on the timing skeleton. -/
theorem compute_metrics_skel (processes : List Process)
    {g1 g2 : List GanttEntry} (h : g1.map skel = g2.map skel)
    (name1 name2 : String) :
    (compute_metrics processes g1 name1).avg_waiting_time =
      (compute_metrics processes g2 name2).avg_waiting_time ∧
    (compute_metrics processes g1 name1).avg_turnaround_time =
      (compute_metrics processes g2 name2).avg_turnaround_time ∧
    (compute_metrics processes g1 name1).avg_response_time =
      (compute_metrics processes g2 name2).avg_response_time ∧
    (compute_metrics processes g1 name1).cpu_utilization =
      (compute_metrics processes g2 name2).cpu_utilization := by
  have hst : ganttState g1 = ganttState g2 := ganttState_skel h
  have hbusy := busyTimeOf_skel h
  have hstart := startTimeOf_skel h
  have hstop := endTimeOf_skel h
  refine ⟨?_, ?_, ?_, ?_⟩ <;>
    simp only [compute_metrics, hst, hbusy, hstart, hstop]

/-- Appending skeleton-equal head entries preserves skeleton equality of
optional timelines. -/
theorem map_skel_cons {e1 e2 : GanttEntry} (h : skel e1 = skel e2)
    {X1 X2 : Option (List GanttEntry)}
    (hX : Option.map (List.map skel) X1 = Option.map (List.map skel) X2) :
    Option.map (List.map skel) (X1.map (fun g => e1 :: g)) =
    Option.map (List.map skel) (X2.map (fun g => e2 :: g)) := by
  cases X1 with
  | none =>
    cases X2 with
    | none => rfl
    | some g2 => simp at hX
  | some g1 =>
    cases X2 with
    | none => simp at hX
    | some g2 =>
      simp at hX ⊢
      simp [hX, h]

/-- The round-robin loop state never depends on the frequency strategy or
the algorithm name: two runs from the same state produce timelines with
the same skeleton, slice for slice. -/
theorem rrLoop_skel (s1 s2 : Nat → Int → String → String) (q : Int)
    (a1 a2 : String) (n : Nat) :
    ∀ (fuel : Nat) pending ready rem completed time,
      Option.map (List.map skel)
        (rrLoop s1 q a1 n fuel pending ready rem completed time) =
      Option.map (List.map skel)
        (rrLoop s2 q a2 n fuel pending ready rem completed time) := by
  intro fuel
  induction fuel with
  | zero => intro _ _ _ _ _; rfl
  | succ fuel ih =>
    intro pending ready rem completed time
    rw [rrLoop, rrLoop]
    by_cases hc : completed.length < n
    · simp only [if_pos hc]
      cases hq : ready ++ pending.takeWhile (fun p => p.arrival_time ≤ time) with
      | nil =>
        cases hp : pending.dropWhile (fun p => p.arrival_time ≤ time) with
        | nil => rfl
        | cons qq qs =>
          apply map_skel_cons
          · rfl
          · exact ih _ _ _ _ _
      | cons current rest =>
        by_cases hr : Function.update rem current.pid
            (rem current.pid - min q (rem current.pid)) current.pid > 0
        · simp only [if_pos hr]
          apply map_skel_cons
          · rfl
          · exact ih _ _ _ _ _
        · simp only [if_neg hr]
          apply map_skel_cons
          · rfl
          · exact ih _ _ _ _ _
    · simp only [if_neg hc]

/-- **C10**.  The frequency strategy never affects timing: for every
process list and every quantum, `simulate_rr` with the baseline strategy
and `simulate_energy_efficient` (round-robin with the load-aware strategy)
produce timelines of the same length whose entries agree on occupant,
start and end (they differ at most in `freq_level`), and their
`avg_waiting_time`, `avg_turnaround_time`, `avg_response_time` and
`cpu_utilization` coincide; only `total_energy` may differ. -/
theorem claim_C10 (processes : List Process) (quantum : Int) :
    (simulate_rr processes quantum always_high_strategy "Round Robin").map
      (fun r => (r.gantt.map skel, r.avg_waiting_time, r.avg_turnaround_time,
                 r.avg_response_time, r.cpu_utilization)) =
    (simulate_energy_efficient processes quantum).map
      (fun r => (r.gantt.map skel, r.avg_waiting_time, r.avg_turnaround_time,
                 r.avg_response_time, r.cpu_utilization)) := by
  simp only [simulate_energy_efficient, simulate_rr]
  have hskel := rrLoop_skel always_high_strategy energy_aware_strategy quantum
    "Round Robin" "Energy-Efficient RR" processes.length (rrFuel processes)
    (sortK (fun p => p.arrival_time) processes) [] (initRemaining processes) []
    (match sortK (fun p => p.arrival_time) processes with
     | [] => 0
     | p :: _ => p.arrival_time)
  cases h1 : rrLoop always_high_strategy quantum "Round Robin" processes.length
      (rrFuel processes) (sortK (fun p => p.arrival_time) processes) []
      (initRemaining processes) []
      (match sortK (fun p => p.arrival_time) processes with
       | [] => 0
       | p :: _ => p.arrival_time) with
  | none =>
    cases h2 : rrLoop energy_aware_strategy quantum "Energy-Efficient RR"
        processes.length (rrFuel processes)
        (sortK (fun p => p.arrival_time) processes) [] (initRemaining processes) []
        (match sortK (fun p => p.arrival_time) processes with
         | [] => 0
         | p :: _ => p.arrival_time) with
    | none => rfl
    | some g2 => rw [h1, h2] at hskel; simp at hskel
  | some g1 =>
    cases h2 : rrLoop energy_aware_strategy quantum "Energy-Efficient RR"
        processes.length (rrFuel processes)
        (sortK (fun p => p.arrival_time) processes) [] (initRemaining processes) []
        (match sortK (fun p => p.arrival_time) processes with
         | [] => 0
         | p :: _ => p.arrival_time) with
    | none => rw [h1, h2] at hskel; simp at hskel
    | some g2 =>
      rw [h1, h2] at hskel
      simp at hskel
      obtain ⟨hw, ht, hr, hu⟩ :=
        compute_metrics_skel processes hskel "Round Robin" "Energy-Efficient RR"
      have hg1 : (compute_metrics processes g1 "Round Robin").gantt = g1 := rfl
      have hg2 : (compute_metrics processes g2 "Energy-Efficient RR").gantt = g2 := rfl
      simp [Prod.ext_iff, hg1, hg2, hskel, hw, ht, hr, hu]

/-! ### Termination (fuel sufficiency) of the round-robin loop -/

theorem sumRem_append (l1 l2 : List Process) (rem : String → Int) :
    sumRem (l1 ++ l2) rem = sumRem l1 rem + sumRem l2 rem := by
  simp [sumRem]

theorem sumRem_perm {l1 l2 : List Process} (h : l1.Perm l2) (rem : String → Int) :
    sumRem l1 rem = sumRem l2 rem :=
  (h.map _).sum_eq

theorem sumRem_cons (p : Process) (l : List Process) (rem : String → Int) :
    sumRem (p :: l) rem = (rem p.pid).toNat + sumRem l rem := by
  simp [sumRem]

theorem sumRem_update_notin {l : List Process} {pid : String}
    (h : ∀ p ∈ l, p.pid ≠ pid) (rem : String → Int) (v : Int) :
    sumRem l (Function.update rem pid v) = sumRem l rem := by
  induction l with
  | nil => rfl
  | cons p t ih =>
    rw [sumRem_cons, sumRem_cons, ih (fun x hx => h x (by simp [hx]))]
    rw [Function.update_noteq (h p (by simp))]

theorem append_concat_perm (l1 l2 : List α) (a : α) :
    (l1 ++ (l2 ++ [a])).Perm (a :: (l1 ++ l2)) := by
  have h1 : l1 ++ (l2 ++ [a]) = (l1 ++ l2) ++ [a] := by rw [List.append_assoc]
  rw [h1]
  exact List.perm_append_comm

/-- The multiset of not-yet-finished processes is preserved by one
dispatch step of the loops: the old live set `pending ++ ready`, where
`pending = tw ++ (tw2 ++ pending2)` and `ready ++ tw = current :: rest`,
equals `{current} ∪ pending2 ∪ rest ∪ tw2`. -/
theorem live_perm_step {tw tw2 pending2 ready rest : List Process}
    {current : Process} (hready : ready ++ tw = current :: rest) :
    (current :: (pending2 ++ (rest ++ tw2))).Perm
      ((tw ++ (tw2 ++ pending2)) ++ ready) := by
  have h1 : ((tw ++ (tw2 ++ pending2)) ++ ready).Perm
      ((ready ++ tw) ++ (tw2 ++ pending2)) := by
    have hb : ((tw ++ (tw2 ++ pending2)) ++ ready).Perm
        (ready ++ (tw ++ (tw2 ++ pending2))) := List.perm_append_comm
    have hcc : ready ++ (tw ++ (tw2 ++ pending2)) =
        (ready ++ tw) ++ (tw2 ++ pending2) := by rw [List.append_assoc]
    rw [hcc] at hb
    exact hb
  rw [hready] at h1
  have h2 : (pending2 ++ (rest ++ tw2)).Perm (rest ++ (tw2 ++ pending2)) := by
    have hb : (pending2 ++ (rest ++ tw2)).Perm ((rest ++ tw2) ++ pending2) :=
      List.perm_append_comm
    have hcc : (rest ++ tw2) ++ pending2 = rest ++ (tw2 ++ pending2) := by
      rw [List.append_assoc]
    rw [hcc] at hb
    exact hb
  exact (h2.cons current).trans h1.symm

/-- `rrLoop` answers within
`2·(total remaining burst) + |pending| + flag + 1` iterations, whenever
the quantum is at least 1, every live process has remaining burst at least
1, and the live pids are duplicate-free. -/
theorem rrLoop_isSome (s : Nat → Int → String → String) (q : Int) (a : String)
    (n : Nat) (hq : 1 ≤ q) :
    ∀ (fuel : Nat) pending ready (rem : String → Int) completed time,
      (∀ p ∈ pending ++ ready, 1 ≤ rem p.pid) →
      ((pending ++ ready).map Process.pid).Nodup →
      2 * sumRem (pending ++ ready) rem + pending.length +
        npFlag pending ready time + 1 ≤ fuel →
      (rrLoop s q a n fuel pending ready rem completed time).isSome := by
  intro fuel
  induction fuel with
  | zero => intro _ _ _ _ _ _ _ hf; omega
  | succ fuel ih =>
    intro pending ready rem completed time h4 h3 hf
    rw [rrLoop]
    by_cases hc : completed.length < n
    · simp only [if_pos hc]
      cases hready1 : ready ++ pending.takeWhile (fun p => p.arrival_time ≤ time) with
      | nil =>
        rcases List.append_eq_nil.mp hready1 with ⟨hready, htw⟩
        have hdw : pending.dropWhile (fun p => p.arrival_time ≤ time) = pending :=
          dropWhile_of_takeWhile_nil _ _ htw
        cases hp : pending.dropWhile (fun p => p.arrival_time ≤ time) with
        | nil => simp
        | cons qq qs =>
          rw [hdw] at hp
          subst hp
          subst hready
          rw [isSome_opt_map]
          apply ih
          · intro p hp'
            exact h4 p (by simpa using hp')
          · simpa using h3
          · have hfail : (qq.arrival_time ≤ time) = False := by
              simpa using takeWhile_nil_head _ _ _ htw
            have hflag1 : npFlag (qq :: qs) [] time = 1 := by
              simp [npFlag, hfail]
            have hflag2 : npFlag (qq :: qs) [] qq.arrival_time = 0 := by
              simp [npFlag]
            simp only [List.append_nil] at hf ⊢
            omega
      | cons current rest =>
        have hsplit1 : pending.takeWhile (fun p => p.arrival_time ≤ time) ++
            pending.dropWhile (fun p => p.arrival_time ≤ time) = pending :=
          List.takeWhile_append_dropWhile _ _
        have hsplit2 : (pending.dropWhile (fun p => p.arrival_time ≤ time)).takeWhile
              (fun p => p.arrival_time ≤ time + min q (rem current.pid)) ++
            (pending.dropWhile (fun p => p.arrival_time ≤ time)).dropWhile
              (fun p => p.arrival_time ≤ time + min q (rem current.pid)) =
            pending.dropWhile (fun p => p.arrival_time ≤ time) :=
          List.takeWhile_append_dropWhile _ _
        have hpend : pending =
            pending.takeWhile (fun p => p.arrival_time ≤ time) ++
            ((pending.dropWhile (fun p => p.arrival_time ≤ time)).takeWhile
              (fun p => p.arrival_time ≤ time + min q (rem current.pid)) ++
             (pending.dropWhile (fun p => p.arrival_time ≤ time)).dropWhile
              (fun p => p.arrival_time ≤ time + min q (rem current.pid))) := by
          conv_lhs => rw [← hsplit1, ← hsplit2]
        have hperm : (current ::
            ((pending.dropWhile (fun p => p.arrival_time ≤ time)).dropWhile
                (fun p => p.arrival_time ≤ time + min q (rem current.pid)) ++
              (rest ++ (pending.dropWhile (fun p => p.arrival_time ≤ time)).takeWhile
                (fun p => p.arrival_time ≤ time + min q (rem current.pid))))).Perm
            (pending ++ ready) := by
          have h0 := @live_perm_step
            (pending.takeWhile (fun p => p.arrival_time ≤ time))
            ((pending.dropWhile (fun p => p.arrival_time ≤ time)).takeWhile
              (fun p => p.arrival_time ≤ time + min q (rem current.pid)))
            ((pending.dropWhile (fun p => p.arrival_time ≤ time)).dropWhile
              (fun p => p.arrival_time ≤ time + min q (rem current.pid)))
            ready rest current hready1
          rw [← hpend] at h0
          exact h0
        have hcur : 1 ≤ rem current.pid :=
          h4 current (hperm.subset (by simp))
        have hexec1 : 1 ≤ min q (rem current.pid) := le_min hq hcur
        have hexec2 : min q (rem current.pid) ≤ rem current.pid := min_le_right _ _
        have hnd : ((current :: ((pending.dropWhile (fun p => p.arrival_time ≤ time)).dropWhile
              (fun p => p.arrival_time ≤ time + min q (rem current.pid)) ++
            (rest ++ (pending.dropWhile (fun p => p.arrival_time ≤ time)).takeWhile
              (fun p => p.arrival_time ≤ time + min q (rem current.pid))))).map
              Process.pid).Nodup :=
          ((hperm.map Process.pid).symm).nodup h3
        have hnotin : ∀ p ∈ (pending.dropWhile (fun p => p.arrival_time ≤ time)).dropWhile
              (fun p => p.arrival_time ≤ time + min q (rem current.pid)) ++
            (rest ++ (pending.dropWhile (fun p => p.arrival_time ≤ time)).takeWhile
              (fun p => p.arrival_time ≤ time + min q (rem current.pid))),
            p.pid ≠ current.pid := by
          intro p hp hpe
          have hnd' := hnd
          rw [List.map_cons, List.nodup_cons] at hnd'
          rcases hnd' with ⟨hni, _⟩
          exact hni (by
            have hmem := List.mem_map_of_mem Process.pid hp
            rwa [hpe] at hmem)
        have hsumlive : sumRem (pending ++ ready) rem =
            (rem current.pid).toNat +
            sumRem ((pending.dropWhile (fun p => p.arrival_time ≤ time)).dropWhile
                (fun p => p.arrival_time ≤ time + min q (rem current.pid)) ++
              (rest ++ (pending.dropWhile (fun p => p.arrival_time ≤ time)).takeWhile
                (fun p => p.arrival_time ≤ time + min q (rem current.pid)))) rem := by
          rw [← sumRem_perm hperm rem, sumRem_cons]
        have hlen : ((pending.dropWhile (fun p => p.arrival_time ≤ time)).dropWhile
              (fun p => p.arrival_time ≤ time + min q (rem current.pid))).length ≤
            pending.length :=
          le_trans (List.Sublist.length_le (List.dropWhile_sublist _))
            (List.Sublist.length_le (List.dropWhile_sublist _))
        by_cases hreq : Function.update rem current.pid
            (rem current.pid - min q (rem current.pid)) current.pid > 0
        · simp only [if_pos hreq]
          rw [isSome_opt_map]
          apply ih
          · intro p hp'
            have hp'' := (append_concat_perm _ _ current).subset hp'
            rcases List.mem_cons.mp hp'' with rfl | hpmem
            · rw [Function.update_same] at hreq ⊢
              omega
            · by_cases hpe : p.pid = current.pid
              · exact absurd hpe (hnotin p hpmem)
              · rw [Function.update_noteq hpe]
                exact h4 p (hperm.subset (List.mem_cons_of_mem current hpmem))
          · exact ((((append_concat_perm _ _ current).trans hperm).map
              Process.pid).symm).nodup h3
          · have hupd := sumRem_update_notin hnotin rem
              (rem current.pid - min q (rem current.pid))
            have hsum' : sumRem ((pending.dropWhile (fun p => p.arrival_time ≤ time)).dropWhile
                  (fun p => p.arrival_time ≤ time + min q (rem current.pid)) ++
                ((rest ++ (pending.dropWhile (fun p => p.arrival_time ≤ time)).takeWhile
                  (fun p => p.arrival_time ≤ time + min q (rem current.pid))) ++
                 [current]))
                (Function.update rem current.pid
                  (rem current.pid - min q (rem current.pid))) =
                sumRem ((pending.dropWhile (fun p => p.arrival_time ≤ time)).dropWhile
                  (fun p => p.arrival_time ≤ time + min q (rem current.pid)) ++
                (rest ++ (pending.dropWhile (fun p => p.arrival_time ≤ time)).takeWhile
                  (fun p => p.arrival_time ≤ time + min q (rem current.pid)))) rem +
                (rem current.pid - min q (rem current.pid)).toNat := by
              rw [sumRem_perm (append_concat_perm _ _ current) _, sumRem_cons,
                Function.update_same, hupd]
              omega
            have hflag := npFlag_le_one
              ((pending.dropWhile (fun p => p.arrival_time ≤ time)).dropWhile
                (fun p => p.arrival_time ≤ time + min q (rem current.pid)))
              ((rest ++ (pending.dropWhile (fun p => p.arrival_time ≤ time)).takeWhile
                (fun p => p.arrival_time ≤ time + min q (rem current.pid))) ++ [current])
              (time + min q (rem current.pid))
            rw [hsum']
            omega
        · simp only [if_neg hreq]
          rw [isSome_opt_map]
          apply ih
          · intro p hp'
            by_cases hpe : p.pid = current.pid
            · exact absurd hpe (hnotin p hp')
            · rw [Function.update_noteq hpe]
              exact h4 p (hperm.subset (List.mem_cons_of_mem current hp'))
          · have hnd' := hnd
            rw [List.map_cons, List.nodup_cons] at hnd'
            exact hnd'.2
          · have hupd := sumRem_update_notin hnotin rem
              (rem current.pid - min q (rem current.pid))
            have hflag := npFlag_le_one
              ((pending.dropWhile (fun p => p.arrival_time ≤ time)).dropWhile
                (fun p => p.arrival_time ≤ time + min q (rem current.pid)))
              (rest ++ (pending.dropWhile (fun p => p.arrival_time ≤ time)).takeWhile
                (fun p => p.arrival_time ≤ time + min q (rem current.pid)))
              (time + min q (rem current.pid))
            rw [hupd]
            omega
    · simp [hc]

/-! ### Timeline observables: a process's entries and execution total -/

theorem entriesOf_nil (pid : String) : entriesOf [] pid = [] := rfl

theorem entriesOf_cons_match {e : GanttEntry} {pid : String} (g : List GanttEntry)
    (h : e.pid = some pid) : entriesOf (e :: g) pid = e :: entriesOf g pid := by
  simp [entriesOf, h]

theorem entriesOf_cons_nomatch {e : GanttEntry} {pid : String} (g : List GanttEntry)
    (h : e.pid ≠ some pid) : entriesOf (e :: g) pid = entriesOf g pid := by
  simp [entriesOf, h]

theorem execOf_cons_match {e : GanttEntry} {pid : String} (g : List GanttEntry)
    (h : e.pid = some pid) :
    execOf (e :: g) pid = (e.stop - e.start) + execOf g pid := by
  simp [execOf, entriesOf_cons_match g h]

theorem execOf_cons_nomatch {e : GanttEntry} {pid : String} (g : List GanttEntry)
    (h : e.pid ≠ some pid) : execOf (e :: g) pid = execOf g pid := by
  simp [execOf, entriesOf_cons_nomatch g h]

theorem execOf_of_entriesOf_nil {g : List GanttEntry} {pid : String}
    (h : entriesOf g pid = []) : execOf g pid = 0 := by
  simp [execOf, h]

/-- Live-set multiset identity for one dispatch of the non-preemptive
loop: `pick` permutes the ready list, the head is removed. -/
theorem np_live_perm {pending ready rest : List Process} {current : Process}
    {P : Process → Bool} (pick : List Process → List Process)
    (hpick : ∀ l, (pick l).Perm l)
    (hsel : pick (ready ++ pending.takeWhile P) = current :: rest) :
    (current :: (pending.dropWhile P ++ rest)).Perm (pending ++ ready) := by
  have h1 : (current :: rest).Perm (ready ++ pending.takeWhile P) := by
    rw [← hsel]
    exact hpick _
  have h2 : (pending ++ ready).Perm
      (pending.dropWhile P ++ (ready ++ pending.takeWhile P)) := by
    have h3 : pending ++ ready =
        (pending.takeWhile P ++ pending.dropWhile P) ++ ready := by
      rw [List.takeWhile_append_dropWhile]
    rw [h3]
    have h6 : ((pending.takeWhile P ++ pending.dropWhile P) ++ ready).Perm
        ((pending.dropWhile P ++ pending.takeWhile P) ++ ready) :=
      List.Perm.append_right ready List.perm_append_comm
    have h8 : ((pending.dropWhile P ++ pending.takeWhile P) ++ ready).Perm
        (pending.dropWhile P ++ (pending.takeWhile P ++ ready)) := by
      rw [List.append_assoc]
    refine (h6.trans h8).trans (List.Perm.append_left _ ?_)
    exact List.perm_append_comm
  refine List.Perm.trans ?_ h2.symm
  exact (List.perm_middle.symm).trans (List.Perm.append_left _ h1)

/-- Conservation for the non-preemptive loop: every live process ends up
with exactly one timeline entry, of duration exactly its burst time, and
no other pid ever occupies the timeline. -/
theorem npLoop_conservation (pick : List Process → List Process)
    (hpick : ∀ l, (pick l).Perm l) (s : Nat → Int → String → String) (a : String) :
    ∀ (fuel : Nat) pending ready time g,
      npLoop pick s a fuel pending ready time = some g →
      ((pending ++ ready).map Process.pid).Nodup →
      (∀ p ∈ pending ++ ready,
        execOf g p.pid = p.burst_time ∧ (entriesOf g p.pid).length = 1) ∧
      (∀ pid : String, pid ∉ (pending ++ ready).map Process.pid →
        entriesOf g pid = []) := by
  intro fuel
  induction fuel with
  | zero =>
    intro pending ready time g hsome
    simp [npLoop] at hsome
  | succ fuel ih =>
    intro pending ready time g hsome hnd
    rw [npLoop] at hsome
    by_cases hemp : (pending.isEmpty && ready.isEmpty) = true
    · rw [if_pos hemp] at hsome
      have hg : ([] : List GanttEntry) = g := by
        injection hsome
      subst hg
      rcases Bool.and_eq_true_iff.mp hemp with ⟨hpe, hre⟩
      have hpe' : pending = [] := List.isEmpty_iff.mp hpe
      have hre' : ready = [] := List.isEmpty_iff.mp hre
      subst hpe' hre'
      exact ⟨fun p hp => absurd hp (by simp), fun pid _ => entriesOf_nil pid⟩
    · rw [if_neg hemp] at hsome
      cases hq1 : ready ++ pending.takeWhile (fun p => p.arrival_time ≤ time) with
      | nil =>
        rw [hq1] at hsome
        rcases List.append_eq_nil.mp hq1 with ⟨hready, htw⟩
        have hdw : pending.dropWhile (fun p => p.arrival_time ≤ time) = pending :=
          dropWhile_of_takeWhile_nil _ _ htw
        cases hp1 : pending.dropWhile (fun p => p.arrival_time ≤ time) with
        | nil =>
          rw [hdw] at hp1
          subst hp1
          subst hready
          simp at hemp
        | cons qq qs =>
          rw [hp1] at hsome
          rw [hdw] at hp1
          subst hp1
          subst hready
          obtain ⟨g', hrec, hg⟩ := Option.map_eq_some'.mp hsome
          subst hg
          obtain ⟨hpart1, hpart2⟩ := ih (qq :: qs) [] qq.arrival_time g' hrec hnd
          constructor
          · intro p hp
            have hne : (none : Option String) ≠ some p.pid := by simp
            exact ⟨by rw [execOf_cons_nomatch g' hne]; exact (hpart1 p hp).1,
                   by rw [entriesOf_cons_nomatch g' hne]; exact (hpart1 p hp).2⟩
          · intro pid hpid
            have hne : (none : Option String) ≠ some pid := by simp
            rw [entriesOf_cons_nomatch g' hne]
            exact hpart2 pid hpid
      | cons r rs =>
        rw [hq1] at hsome
        cases hsel : pick (r :: rs) with
        | nil =>
          have hlen := (hpick (r :: rs)).length_eq
          rw [hsel] at hlen
          simp at hlen
        | cons current rest =>
          simp only [hsel] at hsome
          obtain ⟨g', hrec, hg⟩ := Option.map_eq_some'.mp hsome
          subst hg
          rw [← hq1] at hsel
          have hperm := np_live_perm pick hpick hsel
          have hnd0 : ((current ::
              (pending.dropWhile (fun p => p.arrival_time ≤ time) ++ rest)).map
              Process.pid).Nodup := ((hperm.map Process.pid).symm).nodup hnd
          rw [List.map_cons, List.nodup_cons] at hnd0
          obtain ⟨hcurnot, hnd'⟩ := hnd0
          obtain ⟨hpart1, hpart2⟩ := ih
            (pending.dropWhile (fun p => p.arrival_time ≤ time)) rest
            (max time current.arrival_time + current.burst_time) g' hrec hnd'
          constructor
          · intro p hp
            have hp' : p ∈ current ::
                (pending.dropWhile (fun p => p.arrival_time ≤ time) ++ rest) :=
              hperm.symm.subset hp
            rcases List.mem_cons.mp hp' with rfl | hpm
            · have hz : entriesOf g' p.pid = [] := hpart2 p.pid hcurnot
              constructor
              · rw [execOf_cons_match g' rfl, execOf_of_entriesOf_nil hz]
                ring
              · rw [entriesOf_cons_match g' rfl, hz]
                rfl
            · have hne : p.pid ≠ current.pid := by
                intro hh
                apply hcurnot
                have hmem := List.mem_map_of_mem Process.pid hpm
                rwa [hh] at hmem
              have hne' : (some current.pid : Option String) ≠ some p.pid := by
                simpa using Ne.symm hne
              exact ⟨by rw [execOf_cons_nomatch g' hne']; exact (hpart1 p hpm).1,
                     by rw [entriesOf_cons_nomatch g' hne']; exact (hpart1 p hpm).2⟩
          · intro pid hpid
            have hpid' : pid ∉ (current ::
                (pending.dropWhile (fun p => p.arrival_time ≤ time) ++ rest)).map
                Process.pid := fun h => hpid ((hperm.map Process.pid).subset h)
            rw [List.map_cons, List.mem_cons] at hpid'
            push_neg at hpid'
            have hne' : (some current.pid : Option String) ≠ some pid := by
              simpa using Ne.symm hpid'.1
            rw [entriesOf_cons_nomatch g' hne']
            exact hpart2 pid hpid'.2

/-! ### Per-entry observables and slice-count arithmetic -/

theorem execBefore_zero (g : List GanttEntry) (pid : String) :
    execBefore g 0 pid = 0 := rfl

theorem execBefore_cons (e : GanttEntry) (g : List GanttEntry) (j : Nat)
    (pid : String) :
    execBefore (e :: g) (j + 1) pid =
      (if e.pid = some pid then e.stop - e.start else 0) + execBefore g j pid := by
  show execOf (e :: g.take j) pid = _
  by_cases h : e.pid = some pid
  · rw [execOf_cons_match _ h, if_pos h]
    rfl
  · rw [execOf_cons_nomatch _ h, if_neg h]
    simp
    rfl

theorem entriesOf_sublist {g1 g2 : List GanttEntry} (h : g1.Sublist g2)
    (pid : String) : (entriesOf g1 pid).Sublist (entriesOf g2 pid) :=
  List.Sublist.filter _ h

theorem execBefore_of_entriesOf_nil {g : List GanttEntry} {pid : String}
    (h : entriesOf g pid = []) (j : Nat) : execBefore g j pid = 0 := by
  have hsub := entriesOf_sublist (List.take_sublist j g) pid
  rw [h] at hsub
  have : entriesOf (g.take j) pid = [] := List.sublist_nil.mp hsub
  exact execOf_of_entriesOf_nil this

theorem sliceCount_pos {b q : Int} (hq : 1 ≤ q) (hb : 1 ≤ b) :
    1 ≤ sliceCount b q := by
  have hq' : 1 ≤ q.toNat := by omega
  have hb' : 1 ≤ b.toNat := by omega
  rw [sliceCount, Nat.le_div_iff_mul_le (by omega)]
  omega

theorem sliceCount_one {b q : Int} (hq : 1 ≤ q) (hb : 1 ≤ b) (hle : b ≤ q) :
    sliceCount b q = 1 := by
  have h1 : 1 ≤ sliceCount b q := sliceCount_pos hq hb
  have h2 : sliceCount b q < 2 := by
    rw [sliceCount, Nat.div_lt_iff_lt_mul (by omega)]
    omega
  omega

theorem sliceCount_sub {b q : Int} (hq : 1 ≤ q) (hlt : q < b) :
    sliceCount (b - q) q = sliceCount b q - 1 := by
  have h1 : (b - q).toNat + q.toNat - 1 = b.toNat - 1 := by omega
  have h2 : b.toNat + q.toNat - 1 = (b.toNat - 1) + q.toNat := by omega
  rw [sliceCount, sliceCount, h1, h2, Nat.add_div_right _ (by omega)]
  exact (Nat.add_sub_cancel _ _).symm

theorem sumSlices_perm {l1 l2 : List Process} (h : l1.Perm l2)
    (rem : String → Int) (q : Int) : sumSlices l1 rem q = sumSlices l2 rem q :=
  (h.map _).sum_eq

theorem sumSlices_cons (p : Process) (l : List Process) (rem : String → Int)
    (q : Int) :
    sumSlices (p :: l) rem q = sliceCount (rem p.pid) q + sumSlices l rem q := by
  simp [sumSlices]

theorem sumSlices_update_notin {l : List Process} {pid : String}
    (h : ∀ p ∈ l, p.pid ≠ pid) (rem : String → Int) (q v : Int) :
    sumSlices l (Function.update rem pid v) q = sumSlices l rem q := by
  induction l with
  | nil => rfl
  | cons p t ih =>
    rw [sumSlices_cons, sumSlices_cons, ih (fun x hx => h x (by simp [hx]))]
    rw [Function.update_noteq (h p (by simp))]

theorem sliceCount_le {b q : Int} (hq : 1 ≤ q) :
    sliceCount b q ≤ b.toNat / q.toNat + 1 := by
  by_cases hb : 1 ≤ b
  · have h2 : b.toNat + q.toNat - 1 = (b.toNat - 1) + q.toNat := by omega
    rw [sliceCount, h2, Nat.add_div_right _ (by omega)]
    have hmono : (b.toNat - 1) / q.toNat ≤ b.toNat / q.toNat :=
      Nat.div_le_div_right (by omega)
    omega
  · have hb0 : b.toNat = 0 := by omega
    rw [sliceCount, hb0, Nat.zero_div]
    have h0 : (0 + q.toNat - 1) / q.toNat = 0 := Nat.div_eq_of_lt (by omega)
    omega

theorem div_add_div_le (x y Q : Nat) (hQ : 1 ≤ Q) :
    x / Q + y / Q ≤ (x + y) / Q := by
  rw [Nat.le_div_iff_mul_le (by omega)]
  have hx := Nat.div_mul_le_self x Q
  have hy := Nat.div_mul_le_self y Q
  have : (x / Q + y / Q) * Q = x / Q * Q + y / Q * Q := by ring
  omega

/-- The slice total is at most `total_burst / quantum + number of processes`. -/
theorem sumSlices_le (l : List Process) (rem : String → Int) (q : Int)
    (hq : 1 ≤ q) :
    sumSlices l rem q ≤
      (l.map (fun p => (rem p.pid).toNat)).sum / q.toNat + l.length := by
  induction l with
  | nil => simp [sumSlices]
  | cons p t ih =>
    rw [sumSlices_cons]
    have h1 : sliceCount (rem p.pid) q ≤ (rem p.pid).toNat / q.toNat + 1 :=
      sliceCount_le hq
    have h2 := div_add_div_le (rem p.pid).toNat
      ((t.map (fun p => (rem p.pid).toNat)).sum) q.toNat (by omega)
    simp only [List.map_cons, List.sum_cons, List.length_cons]
    omega

/-- Splitting the live set at an admission point: the processes of
`pending ++ ready` are exactly those of `dropWhile ++ (ready ++ takeWhile)`. -/
theorem admit_perm (pending ready : List Process) (P : Process → Bool) :
    (pending ++ ready).Perm
      (pending.dropWhile P ++ (ready ++ pending.takeWhile P)) := by
  have h3 : pending ++ ready =
      (pending.takeWhile P ++ pending.dropWhile P) ++ ready := by
    rw [List.takeWhile_append_dropWhile]
  rw [h3]
  have h6 : ((pending.takeWhile P ++ pending.dropWhile P) ++ ready).Perm
      ((pending.dropWhile P ++ pending.takeWhile P) ++ ready) :=
    List.Perm.append_right ready List.perm_append_comm
  have h8 : ((pending.dropWhile P ++ pending.takeWhile P) ++ ready).Perm
      (pending.dropWhile P ++ (pending.takeWhile P ++ ready)) := by
    rw [List.append_assoc]
  refine (h6.trans h8).trans (List.Perm.append_left _ ?_)
  exact List.perm_append_comm

/-- Conservation, slice count and time bounds for one run of the
round-robin loop, relative to the call state: every live process is
executed for exactly its remaining burst and occupies the timeline, no
other pid occupies it, the number of slices is the total slice count
owed, and all entries lie at or after the current clock. -/
theorem rrLoop_run (s : Nat → Int → String → String) (q : Int) (a : String)
    (n : Nat) (hq : 1 ≤ q) :
    ∀ (fuel : Nat) pending ready (rem : String → Int) completed time g,
      rrLoop s q a n fuel pending ready rem completed time = some g →
      ((pending ++ ready).map Process.pid).Nodup →
      (∀ p ∈ pending ++ ready, 1 ≤ rem p.pid) →
      completed.length + (pending ++ ready).length ≤ n →
      (∀ c ∈ completed, ∀ p ∈ pending ++ ready, p.pid ≠ c) →
      (∀ p ∈ pending ++ ready,
        execOf g p.pid = rem p.pid ∧ entriesOf g p.pid ≠ []) ∧
      (∀ pid : String, pid ∉ (pending ++ ready).map Process.pid →
        entriesOf g pid = []) ∧
      nonIdleCount g = sumSlices (pending ++ ready) rem q ∧
      (∀ e ∈ g, time ≤ e.start ∧ e.start ≤ e.stop) := by
  intro fuel
  induction fuel with
  | zero =>
    intro pending ready rem completed time g hsome
    simp [rrLoop] at hsome
  | succ fuel ih =>
    intro pending ready rem completed time g hsome hnd h4 hcount hdisj
    rw [rrLoop] at hsome
    by_cases hc : completed.length < n
    · rw [if_pos hc] at hsome
      cases hq1 : ready ++ pending.takeWhile (fun p => p.arrival_time ≤ time) with
      | nil =>
        rw [hq1] at hsome
        rcases List.append_eq_nil.mp hq1 with ⟨hready, htw⟩
        have hdw : pending.dropWhile (fun p => p.arrival_time ≤ time) = pending :=
          dropWhile_of_takeWhile_nil _ _ htw
        cases hp1 : pending.dropWhile (fun p => p.arrival_time ≤ time) with
        | nil =>
          rw [hdw] at hp1
          subst hp1
          subst hready
          have hg : ([] : List GanttEntry) = g := by injection hsome
          subst hg
          refine ⟨fun p hp => absurd hp (by simp), fun pid _ => entriesOf_nil pid,
            rfl, fun e he => absurd he (by simp)⟩
        | cons qq qs =>
          rw [hp1] at hsome
          rw [hdw] at hp1
          subst hp1
          subst hready
          obtain ⟨g', hrec, hg⟩ := Option.map_eq_some'.mp hsome
          subst hg
          have hfail : ¬ (qq.arrival_time ≤ time) := by
            have := takeWhile_nil_head _ _ _ htw
            simpa using this
          obtain ⟨hA, hB, hC, hF⟩ := ih (qq :: qs) [] rem completed
            qq.arrival_time g' hrec hnd h4 hcount hdisj
          have hno : ∀ pid : String, (none : Option String) ≠ some pid := by simp
          refine ⟨?_, ?_, ?_, ?_⟩
          · intro p hp
            exact ⟨by rw [execOf_cons_nomatch g' (hno p.pid)]; exact (hA p hp).1,
                   by rw [entriesOf_cons_nomatch g' (hno p.pid)]; exact (hA p hp).2⟩
          · intro pid hpid
            rw [entriesOf_cons_nomatch g' (hno pid)]
            exact hB pid hpid
          · have : nonIdleCount (GanttEntry.mk none time qq.arrival_time "low" :: g') =
                nonIdleCount g' := by
              simp [nonIdleCount]
            rw [this]
            exact hC
          · intro e he
            rcases List.mem_cons.mp he with rfl | he'
            · refine ⟨le_refl _, ?_⟩
              show time ≤ qq.arrival_time
              omega
            · have h1 := (hF e he').1
              refine ⟨?_, (hF e he').2⟩
              omega
      | cons current rest =>
        rw [hq1] at hsome
        simp only [] at hsome
        have hsplit1 : pending.takeWhile (fun p => p.arrival_time ≤ time) ++
            pending.dropWhile (fun p => p.arrival_time ≤ time) = pending :=
          List.takeWhile_append_dropWhile _ _
        have hsplit2 : (pending.dropWhile (fun p => p.arrival_time ≤ time)).takeWhile
              (fun p => p.arrival_time ≤ time + min q (rem current.pid)) ++
            (pending.dropWhile (fun p => p.arrival_time ≤ time)).dropWhile
              (fun p => p.arrival_time ≤ time + min q (rem current.pid)) =
            pending.dropWhile (fun p => p.arrival_time ≤ time) :=
          List.takeWhile_append_dropWhile _ _
        have hpend : pending =
            pending.takeWhile (fun p => p.arrival_time ≤ time) ++
            ((pending.dropWhile (fun p => p.arrival_time ≤ time)).takeWhile
              (fun p => p.arrival_time ≤ time + min q (rem current.pid)) ++
             (pending.dropWhile (fun p => p.arrival_time ≤ time)).dropWhile
              (fun p => p.arrival_time ≤ time + min q (rem current.pid))) := by
          conv_lhs => rw [← hsplit1, ← hsplit2]
        have hperm : (current ::
            ((pending.dropWhile (fun p => p.arrival_time ≤ time)).dropWhile
                (fun p => p.arrival_time ≤ time + min q (rem current.pid)) ++
              (rest ++ (pending.dropWhile (fun p => p.arrival_time ≤ time)).takeWhile
                (fun p => p.arrival_time ≤ time + min q (rem current.pid))))).Perm
            (pending ++ ready) := by
          have h0 := @live_perm_step
            (pending.takeWhile (fun p => p.arrival_time ≤ time))
            ((pending.dropWhile (fun p => p.arrival_time ≤ time)).takeWhile
              (fun p => p.arrival_time ≤ time + min q (rem current.pid)))
            ((pending.dropWhile (fun p => p.arrival_time ≤ time)).dropWhile
              (fun p => p.arrival_time ≤ time + min q (rem current.pid)))
            ready rest current hq1
          rw [← hpend] at h0
          exact h0
        have hcur : 1 ≤ rem current.pid :=
          h4 current (hperm.subset (by simp))
        have hexec1 : 1 ≤ min q (rem current.pid) := le_min hq hcur
        have hexec2 : min q (rem current.pid) ≤ rem current.pid := min_le_right _ _
        have hnd0 := ((hperm.map Process.pid).symm).nodup hnd
        rw [List.map_cons, List.nodup_cons] at hnd0
        obtain ⟨hcurnot, hnd'⟩ := hnd0
        have hnotin : ∀ p ∈ (pending.dropWhile (fun p => p.arrival_time ≤ time)).dropWhile
              (fun p => p.arrival_time ≤ time + min q (rem current.pid)) ++
            (rest ++ (pending.dropWhile (fun p => p.arrival_time ≤ time)).takeWhile
              (fun p => p.arrival_time ≤ time + min q (rem current.pid))),
            p.pid ≠ current.pid := by
          intro p hp hpe
          apply hcurnot
          have hmem := List.mem_map_of_mem Process.pid hp
          rwa [hpe] at hmem
        have hsub : ∀ p ∈ (pending.dropWhile (fun p => p.arrival_time ≤ time)).dropWhile
              (fun p => p.arrival_time ≤ time + min q (rem current.pid)) ++
            (rest ++ (pending.dropWhile (fun p => p.arrival_time ≤ time)).takeWhile
              (fun p => p.arrival_time ≤ time + min q (rem current.pid))),
            p ∈ pending ++ ready :=
          fun p hp => hperm.subset (List.mem_cons_of_mem current hp)
        by_cases hreq : Function.update rem current.pid
            (rem current.pid - min q (rem current.pid)) current.pid > 0
        · rw [if_pos hreq] at hsome
          obtain ⟨g', hrec, hg⟩ := Option.map_eq_some'.mp hsome
          subst hg
          rw [Function.update_same] at hreq
          obtain ⟨hA, hB, hC, hF⟩ := ih _ _ _ _ _ g' hrec
            (((((append_concat_perm _ _ current).trans hperm).map
              Process.pid).symm).nodup hnd)
            (by
              intro p hp'
              have hp'' := (append_concat_perm _ _ current).subset hp'
              rcases List.mem_cons.mp hp'' with rfl | hpmem
              · rw [Function.update_same]
                omega
              · rw [Function.update_noteq (hnotin p hpmem)]
                exact h4 p (hsub p hpmem))
            (by
              have hl := ((append_concat_perm _ _ current).trans hperm).length_eq
              omega)
            (by
              intro c hcm p hp' hpe
              have hp'' := (append_concat_perm _ _ current).subset hp'
              rcases List.mem_cons.mp hp'' with rfl | hpmem
              · exact hdisj c hcm p (hperm.subset (by simp)) hpe
              · exact hdisj c hcm p (hsub p hpmem) hpe)
          have hcurexec : execOf g' current.pid =
              rem current.pid - min q (rem current.pid) := by
            have := (hA current (by
              refine (append_concat_perm _ _ current).symm.subset ?_
              simp)).1
            rwa [Function.update_same] at this
          refine ⟨?_, ?_, ?_, ?_⟩
          · intro p hp
            have hp' := hperm.symm.subset hp
            rcases List.mem_cons.mp hp' with rfl | hpm
            · constructor
              · rw [execOf_cons_match g' rfl, hcurexec]
                ring
              · rw [entriesOf_cons_match g' rfl]
                simp
            · have hne : p.pid ≠ current.pid := hnotin p hpm
              have hne' : (some current.pid : Option String) ≠ some p.pid := by
                simpa using Ne.symm hne
              have hpl' : p ∈ (pending.dropWhile (fun p => p.arrival_time ≤ time)).dropWhile
                    (fun p => p.arrival_time ≤ time + min q (rem current.pid)) ++
                  ((rest ++ (pending.dropWhile (fun p => p.arrival_time ≤ time)).takeWhile
                    (fun p => p.arrival_time ≤ time + min q (rem current.pid))) ++
                   [current]) :=
                (append_concat_perm _ _ current).symm.subset
                  (List.mem_cons_of_mem current hpm)
              constructor
              · rw [execOf_cons_nomatch g' hne']
                have := (hA p hpl').1
                rwa [Function.update_noteq hne] at this
              · rw [entriesOf_cons_nomatch g' hne']
                exact (hA p hpl').2
          · intro pid hpid
            have hpid0 : pid ∉ (current ::
                ((pending.dropWhile (fun p => p.arrival_time ≤ time)).dropWhile
                  (fun p => p.arrival_time ≤ time + min q (rem current.pid)) ++
                (rest ++ (pending.dropWhile (fun p => p.arrival_time ≤ time)).takeWhile
                  (fun p => p.arrival_time ≤ time + min q (rem current.pid))))).map
                Process.pid := fun h => hpid ((hperm.map Process.pid).subset h)
            rw [List.map_cons, List.mem_cons] at hpid0
            push_neg at hpid0
            have hne' : (some current.pid : Option String) ≠ some pid := by
              simpa using Ne.symm hpid0.1
            rw [entriesOf_cons_nomatch g' hne']
            apply hB
            intro hmem
            exact hpid ((((append_concat_perm _ _ current).trans hperm).map
              Process.pid).subset hmem)
          · have hcons : nonIdleCount (GanttEntry.mk (some current.pid) time
                (time + min q (rem current.pid))
                (s (rest.length + 1) time a) :: g') = 1 + nonIdleCount g' := by
              simp [nonIdleCount, Nat.add_comm]
            rw [hcons, hC]
            have hQlt : q < rem current.pid := by
              rcases le_or_lt (rem current.pid) q with hle | hlt
              · have : min q (rem current.pid) = rem current.pid :=
                  min_eq_right hle
                omega
              · exact hlt
            have hminq : min q (rem current.pid) = q := min_eq_left (by omega)
            have hsl : sumSlices (pending ++ ready) rem q =
                sliceCount (rem current.pid) q +
                sumSlices ((pending.dropWhile (fun p => p.arrival_time ≤ time)).dropWhile
                    (fun p => p.arrival_time ≤ time + min q (rem current.pid)) ++
                  (rest ++ (pending.dropWhile (fun p => p.arrival_time ≤ time)).takeWhile
                    (fun p => p.arrival_time ≤ time + min q (rem current.pid)))) rem q := by
              rw [← sumSlices_perm hperm rem q, sumSlices_cons]
            have hsl' : sumSlices ((pending.dropWhile (fun p => p.arrival_time ≤ time)).dropWhile
                  (fun p => p.arrival_time ≤ time + min q (rem current.pid)) ++
                ((rest ++ (pending.dropWhile (fun p => p.arrival_time ≤ time)).takeWhile
                  (fun p => p.arrival_time ≤ time + min q (rem current.pid))) ++
                 [current]))
                (Function.update rem current.pid
                  (rem current.pid - min q (rem current.pid))) q =
                sliceCount (rem current.pid - q) q +
                sumSlices ((pending.dropWhile (fun p => p.arrival_time ≤ time)).dropWhile
                    (fun p => p.arrival_time ≤ time + min q (rem current.pid)) ++
                  (rest ++ (pending.dropWhile (fun p => p.arrival_time ≤ time)).takeWhile
                    (fun p => p.arrival_time ≤ time + min q (rem current.pid)))) rem q := by
              rw [sumSlices_perm (append_concat_perm _ _ current) _ q, sumSlices_cons,
                Function.update_same, sumSlices_update_notin hnotin, hminq]
            rw [hsl', hsl, sliceCount_sub hq hQlt]
            have := sliceCount_pos hq hcur
            omega
          · intro e he
            rcases List.mem_cons.mp he with rfl | he'
            · refine ⟨le_refl _, ?_⟩
              show time ≤ time + min q (rem current.pid)
              omega
            · have h1 := (hF e he').1
              refine ⟨?_, (hF e he').2⟩
              omega
        · rw [if_neg hreq] at hsome
          obtain ⟨g', hrec, hg⟩ := Option.map_eq_some'.mp hsome
          subst hg
          rw [Function.update_same] at hreq
          have hexec : min q (rem current.pid) = rem current.pid := by omega
          obtain ⟨hA, hB, hC, hF⟩ := ih _ _ _ _ _ g' hrec
            hnd'
            (by
              intro p hp'
              rw [Function.update_noteq (hnotin p hp')]
              exact h4 p (hsub p hp'))
            (by
              have hl := hperm.length_eq
              have hlen2 : (List.insert current.pid completed).length =
                  completed.length + 1 := by
                rw [List.length_insert_of_not_mem]
                intro hmem
                exact hdisj current.pid hmem current (hperm.subset (by simp)) rfl
              simp only [List.length_cons, List.length_append] at hl hcount ⊢
              omega)
            (by
              intro c hcm p hp' hpe
              rcases List.mem_insert_iff.mp hcm with rfl | hcm'
              · exact hnotin p hp' hpe
              · exact hdisj c hcm' p (hsub p hp') hpe)
          have hz : entriesOf g' current.pid = [] := by
            apply hB
            intro hmem
            rcases List.mem_map.mp hmem with ⟨p, hpm, hpe⟩
            exact hnotin p hpm hpe
          refine ⟨?_, ?_, ?_, ?_⟩
          · intro p hp
            have hp' := hperm.symm.subset hp
            rcases List.mem_cons.mp hp' with rfl | hpm
            · constructor
              · rw [execOf_cons_match g' rfl, execOf_of_entriesOf_nil hz]
                show (time + min q (rem p.pid)) - time + 0 = rem p.pid
                omega
              · rw [entriesOf_cons_match g' rfl]
                simp
            · have hne : p.pid ≠ current.pid := hnotin p hpm
              have hne' : (some current.pid : Option String) ≠ some p.pid := by
                simpa using Ne.symm hne
              constructor
              · rw [execOf_cons_nomatch g' hne']
                have := (hA p hpm).1
                rwa [Function.update_noteq hne] at this
              · rw [entriesOf_cons_nomatch g' hne']
                exact (hA p hpm).2
          · intro pid hpid
            have hpid0 : pid ∉ (current ::
                ((pending.dropWhile (fun p => p.arrival_time ≤ time)).dropWhile
                  (fun p => p.arrival_time ≤ time + min q (rem current.pid)) ++
                (rest ++ (pending.dropWhile (fun p => p.arrival_time ≤ time)).takeWhile
                  (fun p => p.arrival_time ≤ time + min q (rem current.pid))))).map
                Process.pid := fun h => hpid ((hperm.map Process.pid).subset h)
            rw [List.map_cons, List.mem_cons] at hpid0
            push_neg at hpid0
            have hne' : (some current.pid : Option String) ≠ some pid := by
              simpa using Ne.symm hpid0.1
            rw [entriesOf_cons_nomatch g' hne']
            exact hB pid hpid0.2
          · have hcons : nonIdleCount (GanttEntry.mk (some current.pid) time
                (time + min q (rem current.pid))
                (s (rest.length + 1) time a) :: g') = 1 + nonIdleCount g' := by
              simp [nonIdleCount, Nat.add_comm]
            rw [hcons, hC]
            have hsl : sumSlices (pending ++ ready) rem q =
                sliceCount (rem current.pid) q +
                sumSlices ((pending.dropWhile (fun p => p.arrival_time ≤ time)).dropWhile
                    (fun p => p.arrival_time ≤ time + min q (rem current.pid)) ++
                  (rest ++ (pending.dropWhile (fun p => p.arrival_time ≤ time)).takeWhile
                    (fun p => p.arrival_time ≤ time + min q (rem current.pid)))) rem q := by
              rw [← sumSlices_perm hperm rem q, sumSlices_cons]
            rw [hsl, sumSlices_update_notin hnotin,
              sliceCount_one hq hcur (by omega)]
          · intro e he
            rcases List.mem_cons.mp he with rfl | he'
            · refine ⟨le_refl _, ?_⟩
              show time ≤ time + min q (rem current.pid)
              omega
            · have h1 := (hF e he').1
              refine ⟨?_, (hF e he').2⟩
              omega
    · rw [if_neg hc] at hsome
      have hg : ([] : List GanttEntry) = g := by injection hsome
      subst hg
      have hlive : pending ++ ready = [] := by
        rcases List.eq_nil_or_concat (pending ++ ready) with h | ⟨l, x, hlx⟩
        · exact h
        · exfalso
          have := hcount
          rw [hlx] at this
          simp at this
          omega
      refine ⟨?_, fun pid _ => entriesOf_nil pid, ?_, fun e he => absurd he (by simp)⟩
      · intro p hp
        rw [hlive] at hp
        cases hp
      · rw [hlive]
        rfl

/-- The non-preemptive loop dispatches each live process exactly once:
the number of non-idle entries equals the live count. -/
theorem npLoop_count (pick : List Process → List Process)
    (hpick : ∀ l, (pick l).Perm l) (s : Nat → Int → String → String) (a : String) :
    ∀ (fuel : Nat) pending ready time g,
      npLoop pick s a fuel pending ready time = some g →
      nonIdleCount g = (pending ++ ready).length := by
  intro fuel
  induction fuel with
  | zero =>
    intro pending ready time g hsome
    simp [npLoop] at hsome
  | succ fuel ih =>
    intro pending ready time g hsome
    rw [npLoop] at hsome
    by_cases hemp : (pending.isEmpty && ready.isEmpty) = true
    · rw [if_pos hemp] at hsome
      have hg : ([] : List GanttEntry) = g := by injection hsome
      subst hg
      rcases Bool.and_eq_true_iff.mp hemp with ⟨hpe, hre⟩
      rw [List.isEmpty_iff.mp hpe, List.isEmpty_iff.mp hre]
      rfl
    · rw [if_neg hemp] at hsome
      cases hq1 : ready ++ pending.takeWhile (fun p => p.arrival_time ≤ time) with
      | nil =>
        rw [hq1] at hsome
        rcases List.append_eq_nil.mp hq1 with ⟨hready, htw⟩
        have hdw : pending.dropWhile (fun p => p.arrival_time ≤ time) = pending :=
          dropWhile_of_takeWhile_nil _ _ htw
        cases hp1 : pending.dropWhile (fun p => p.arrival_time ≤ time) with
        | nil =>
          rw [hdw] at hp1
          subst hp1
          subst hready
          simp at hemp
        | cons qq qs =>
          rw [hp1] at hsome
          rw [hdw] at hp1
          subst hp1
          subst hready
          obtain ⟨g', hrec, hg⟩ := Option.map_eq_some'.mp hsome
          subst hg
          have := ih (qq :: qs) [] qq.arrival_time g' hrec
          simpa [nonIdleCount] using this
      | cons r rs =>
        rw [hq1] at hsome
        cases hsel : pick (r :: rs) with
        | nil =>
          have hlen := (hpick (r :: rs)).length_eq
          rw [hsel] at hlen
          simp at hlen
        | cons current rest =>
          simp only [hsel] at hsome
          obtain ⟨g', hrec, hg⟩ := Option.map_eq_some'.mp hsome
          subst hg
          rw [← hq1] at hsel
          have hperm := np_live_perm pick hpick hsel
          have hcnt := ih
            (pending.dropWhile (fun p => p.arrival_time ≤ time)) rest
            (max time current.arrival_time + current.burst_time) g' hrec
          have hlive := hperm.length_eq
          simp only [List.length_cons, List.length_append] at hlive ⊢
          simp only [nonIdleCount, List.countP_cons] at hcnt ⊢
          simp only [List.length_append] at hcnt
          simp
          omega

/-- A pid that never occurs in `l` is untouched by the `remaining`
initialisation fold. -/
theorem foldl_update_notin (l : List Process) (m : String → Int) (pid : String)
    (h : ∀ p ∈ l, p.pid ≠ pid) :
    (l.foldl (fun m p => Function.update m p.pid p.burst_time) m) pid = m pid := by
  induction l generalizing m with
  | nil => rfl
  | cons a t ih =>
    rw [List.foldl_cons, ih _ (fun p hp => h p (by simp [hp]))]
    rw [Function.update_noteq (Ne.symm (h a (by simp)))]

theorem foldl_update_eq (l : List Process) {p : Process}
    (hnd : (l.map Process.pid).Nodup) (hp : p ∈ l) :
    ∀ m : String → Int,
      (l.foldl (fun m p => Function.update m p.pid p.burst_time) m) p.pid =
        p.burst_time := by
  induction l generalizing p with
  | nil => cases hp
  | cons a t ih =>
    intro m
    rw [List.map_cons, List.nodup_cons] at hnd
    rcases List.mem_cons.mp hp with rfl | hpt
    · rw [List.foldl_cons]
      rw [foldl_update_notin t _ p.pid (fun x hx he => hnd.1 (by
        rw [← he]
        exact List.mem_map_of_mem Process.pid hx))]
      rw [Function.update_same]
    · rw [List.foldl_cons]
      exact ih hnd.2 hpt _

/-- With duplicate-free pids, the `remaining` dict initially maps every
process to its burst time. -/
theorem initRemaining_eq {processes : List Process}
    (hnd : (processes.map Process.pid).Nodup) {p : Process}
    (hp : p ∈ processes) : initRemaining processes p.pid = p.burst_time :=
  foldl_update_eq processes hnd hp _

/-! ### Top-level runs of the simulators -/

/-- A full non-preemptive run from `simulate_fcfs` / `simulate_sjf` /
`simulate_priority` produces a timeline: the loop answers within its
fuel, and conservation holds for the original process list. -/
theorem npLoop_top (pick : List Process → List Process)
    (hlen : ∀ l, (pick l).length = l.length)
    (hperm : ∀ l, (pick l).Perm l) (s : Nat → Int → String → String)
    (a : String) (processes : List Process)
    (hnd : (processes.map Process.pid).Nodup) :
    ∃ g, npLoop pick s a (npFuel processes)
        (sortK (fun p => p.arrival_time) processes) []
        (match sortK (fun p => p.arrival_time) processes with
         | [] => 0
         | p :: _ => p.arrival_time) = some g ∧
      (∀ p ∈ processes,
        execOf g p.pid = p.burst_time ∧ (entriesOf g p.pid).length = 1) ∧
      nonIdleCount g = processes.length := by
  have hpermA := sortK_perm (fun p => p.arrival_time) processes
  have hlenA := hpermA.length_eq
  have hsome := npLoop_isSome pick hlen s a (npFuel processes)
    (sortK (fun p => p.arrival_time) processes) []
    (match sortK (fun p => p.arrival_time) processes with
     | [] => 0
     | p :: _ => p.arrival_time)
    (by
      have hflag := npFlag_le_one (sortK (fun p => p.arrival_time) processes) []
        (match sortK (fun p => p.arrival_time) processes with
         | [] => 0
         | p :: _ => p.arrival_time)
      simp only [npFuel, List.length_nil]
      omega)
  obtain ⟨g, hg⟩ := Option.isSome_iff_exists.mp hsome
  have hndA : (((sortK (fun p => p.arrival_time) processes) ++ []).map
      Process.pid).Nodup := by
    rw [List.append_nil]
    exact ((hpermA.map Process.pid).symm).nodup hnd
  obtain ⟨hA, _hB⟩ := npLoop_conservation pick hperm s a (npFuel processes)
    (sortK (fun p => p.arrival_time) processes) []
    (match sortK (fun p => p.arrival_time) processes with
     | [] => 0
     | p :: _ => p.arrival_time) g hg hndA
  have hcnt := npLoop_count pick hperm s a (npFuel processes)
    (sortK (fun p => p.arrival_time) processes) []
    (match sortK (fun p => p.arrival_time) processes with
     | [] => 0
     | p :: _ => p.arrival_time) g hg
  refine ⟨g, hg, ?_, ?_⟩
  · intro p hp
    exact hA p (by
      rw [List.append_nil]
      exact hpermA.symm.subset hp)
  · rw [hcnt, List.length_append, List.length_nil, hlenA]
    omega

/-- A full round-robin run: for positive quantum, positive bursts and
duplicate-free pids, `simulate_rr` terminates with a timeline satisfying
conservation and the slice-count bound. -/
theorem simulate_rr_some (processes : List Process) (q : Int)
    (s : Nat → Int → String → String) (a : String) (hq : 1 ≤ q)
    (hb : ∀ p ∈ processes, 1 ≤ p.burst_time)
    (hnd : (processes.map Process.pid).Nodup) :
    ∃ g, simulate_rr processes q s a = some (compute_metrics processes g a) ∧
      (∀ p ∈ processes, execOf g p.pid = p.burst_time ∧ entriesOf g p.pid ≠ []) ∧
      nonIdleCount g ≤
        (processes.map (fun p => p.burst_time.toNat)).sum / q.toNat +
          processes.length := by
  have hpermA := sortK_perm (fun p => p.arrival_time) processes
  have hlenA := hpermA.length_eq
  have hndA : (((sortK (fun p => p.arrival_time) processes) ++ []).map
      Process.pid).Nodup := by
    rw [List.append_nil]
    exact ((hpermA.map Process.pid).symm).nodup hnd
  have hrem : ∀ p ∈ sortK (fun p => p.arrival_time) processes,
      initRemaining processes p.pid = p.burst_time :=
    fun p hp => initRemaining_eq hnd (hpermA.subset hp)
  have h4 : ∀ p ∈ (sortK (fun p => p.arrival_time) processes) ++ [],
      1 ≤ initRemaining processes p.pid := by
    intro p hp
    rw [List.append_nil] at hp
    rw [hrem p hp]
    exact hb p (hpermA.subset hp)
  have hsum : sumRem ((sortK (fun p => p.arrival_time) processes) ++ [])
      (initRemaining processes) =
      (processes.map (fun p => p.burst_time.toNat)).sum := by
    rw [List.append_nil, sumRem,
      List.map_congr_left (fun p hp => by rw [hrem p hp])]
    exact (hpermA.map (fun p => p.burst_time.toNat)).sum_eq
  have hsome := rrLoop_isSome s q a processes.length hq (rrFuel processes)
    (sortK (fun p => p.arrival_time) processes) [] (initRemaining processes) []
    (match sortK (fun p => p.arrival_time) processes with
     | [] => 0
     | p :: _ => p.arrival_time)
    h4 hndA
    (by
      have hflag := npFlag_le_one (sortK (fun p => p.arrival_time) processes) []
        (match sortK (fun p => p.arrival_time) processes with
         | [] => 0
         | p :: _ => p.arrival_time)
      rw [hsum]
      simp only [rrFuel]
      omega)
  obtain ⟨g, hg⟩ := Option.isSome_iff_exists.mp hsome
  obtain ⟨hA, _hB, hC, _hF⟩ := rrLoop_run s q a processes.length hq
    (rrFuel processes) (sortK (fun p => p.arrival_time) processes) []
    (initRemaining processes) []
    (match sortK (fun p => p.arrival_time) processes with
     | [] => 0
     | p :: _ => p.arrival_time)
    g hg hndA h4
    (by
      rw [List.length_append, List.length_nil, hlenA]
      simp)
    (fun c hc => absurd hc (by simp))
  refine ⟨g, ?_, ?_, ?_⟩
  · show (rrLoop s q a processes.length (rrFuel processes)
        (sortK (fun p => p.arrival_time) processes) [] (initRemaining processes) []
        (match sortK (fun p => p.arrival_time) processes with
         | [] => 0
         | p :: _ => p.arrival_time)).map
      (fun g => compute_metrics processes g a) = some (compute_metrics processes g a)
    rw [hg]
    rfl
  · intro p hp
    have hp2 : p ∈ sortK (fun p => p.arrival_time) processes :=
      hpermA.symm.subset hp
    have hpA : p ∈ (sortK (fun p => p.arrival_time) processes) ++ [] := by
      rw [List.append_nil]
      exact hp2
    have := hA p hpA
    rwa [hrem p hp2] at this
  · have hle := sumSlices_le ((sortK (fun p => p.arrival_time) processes) ++ [])
      (initRemaining processes) q hq
    have h9 : (((sortK (fun p => p.arrival_time) processes) ++ []).map
        (fun (p : Process) => ((initRemaining processes) p.pid).toNat)).sum =
        (processes.map (fun p => p.burst_time.toNat)).sum := hsum
    rw [hC]
    rw [h9] at hle
    have h10 : ((sortK (fun p => p.arrival_time) processes) ++ []).length =
        processes.length := by
      rw [List.length_append, List.length_nil, hlenA]
      omega
    rw [h10] at hle
    exact hle

/-! ### Claims C1 and C9 -/

/-- **C1**.  Conservation: for every list of processes with positive burst
times and duplicate-free pids, and for each of `simulate_fcfs`,
`simulate_sjf`, `simulate_priority` and `simulate_rr` with any quantum ≥ 1,
every process occupies at least one (non-idle) timeline entry, and the sum
of `end - start` over the entries it occupies equals its burst time
exactly. -/
theorem claim_C1 (processes : List Process) (quantum : Int)
    (s : Nat → Int → String → String)
    (hb : ∀ p ∈ processes, 1 ≤ p.burst_time)
    (hnd : (processes.map Process.pid).Nodup) (hquant : 1 ≤ quantum) :
    (∀ p ∈ processes,
      entriesOf (simulate_fcfs processes s).gantt p.pid ≠ [] ∧
      execOf (simulate_fcfs processes s).gantt p.pid = p.burst_time) ∧
    (∀ p ∈ processes,
      entriesOf (simulate_sjf processes s).gantt p.pid ≠ [] ∧
      execOf (simulate_sjf processes s).gantt p.pid = p.burst_time) ∧
    (∀ p ∈ processes,
      entriesOf (simulate_priority processes s).gantt p.pid ≠ [] ∧
      execOf (simulate_priority processes s).gantt p.pid = p.burst_time) ∧
    (∃ r, simulate_rr processes quantum s "Round Robin" = some r ∧
      ∀ p ∈ processes,
        entriesOf r.gantt p.pid ≠ [] ∧ execOf r.gantt p.pid = p.burst_time) := by
  refine ⟨?_, ?_, ?_, ?_⟩
  · obtain ⟨g, hg, hcons, _⟩ := npLoop_top (fun l => l) (fun l => rfl)
      (fun l => List.Perm.refl l) s "FCFS" processes hnd
    have hgantt : (simulate_fcfs processes s).gantt = g := by
      show (npLoop (fun l => l) s "FCFS" (npFuel processes)
          (sortK (fun p => p.arrival_time) processes) []
          (match sortK (fun p => p.arrival_time) processes with
           | [] => 0
           | p :: _ => p.arrival_time)).getD [] = g
      rw [hg]
      rfl
    rw [hgantt]
    intro p hp
    refine ⟨?_, (hcons p hp).1⟩
    intro hnil
    have := (hcons p hp).2
    rw [hnil] at this
    simp at this
  · obtain ⟨g, hg, hcons, _⟩ := npLoop_top (sortK (fun p => p.burst_time))
      (fun l => length_sortK _ l) (fun l => sortK_perm _ l) s
      "SJF (Non-preemptive)" processes hnd
    have hgantt : (simulate_sjf processes s).gantt = g := by
      show (npLoop (sortK (fun p => p.burst_time)) s "SJF (Non-preemptive)"
          (npFuel processes) (sortK (fun p => p.arrival_time) processes) []
          (match sortK (fun p => p.arrival_time) processes with
           | [] => 0
           | p :: _ => p.arrival_time)).getD [] = g
      rw [hg]
      rfl
    rw [hgantt]
    intro p hp
    refine ⟨?_, (hcons p hp).1⟩
    intro hnil
    have := (hcons p hp).2
    rw [hnil] at this
    simp at this
  · obtain ⟨g, hg, hcons, _⟩ := npLoop_top (sortK (fun p => p.priority))
      (fun l => length_sortK _ l) (fun l => sortK_perm _ l) s
      "Priority (Non-preemptive)" processes hnd
    have hgantt : (simulate_priority processes s).gantt = g := by
      show (npLoop (sortK (fun p => p.priority)) s "Priority (Non-preemptive)"
          (npFuel processes) (sortK (fun p => p.arrival_time) processes) []
          (match sortK (fun p => p.arrival_time) processes with
           | [] => 0
           | p :: _ => p.arrival_time)).getD [] = g
      rw [hg]
      rfl
    rw [hgantt]
    intro p hp
    refine ⟨?_, (hcons p hp).1⟩
    intro hnil
    have := (hcons p hp).2
    rw [hnil] at this
    simp at this
  · obtain ⟨g, hsome, hcons, _⟩ := simulate_rr_some processes quantum s
      "Round Robin" hquant hb hnd
    refine ⟨compute_metrics processes g "Round Robin", hsome, ?_⟩
    intro p hp
    exact ⟨(hcons p hp).2, (hcons p hp).1⟩

/-- Witness for C1 at a concrete instance. -/
theorem claim_C1_witness :
    ((∀ p ∈ [(⟨"A", 0, 1, 0⟩ : Process)], 1 ≤ p.burst_time) ∧
     (([(⟨"A", 0, 1, 0⟩ : Process)].map Process.pid).Nodup) ∧
     (1 ≤ (1 : Int))) ∧
    ((∀ p ∈ [(⟨"A", 0, 1, 0⟩ : Process)],
      entriesOf (simulate_fcfs [⟨"A", 0, 1, 0⟩] always_high_strategy).gantt p.pid ≠ [] ∧
      execOf (simulate_fcfs [⟨"A", 0, 1, 0⟩] always_high_strategy).gantt p.pid = p.burst_time) ∧
    (∀ p ∈ [(⟨"A", 0, 1, 0⟩ : Process)],
      entriesOf (simulate_sjf [⟨"A", 0, 1, 0⟩] always_high_strategy).gantt p.pid ≠ [] ∧
      execOf (simulate_sjf [⟨"A", 0, 1, 0⟩] always_high_strategy).gantt p.pid = p.burst_time) ∧
    (∀ p ∈ [(⟨"A", 0, 1, 0⟩ : Process)],
      entriesOf (simulate_priority [⟨"A", 0, 1, 0⟩] always_high_strategy).gantt p.pid ≠ [] ∧
      execOf (simulate_priority [⟨"A", 0, 1, 0⟩] always_high_strategy).gantt p.pid = p.burst_time) ∧
    (∃ r, simulate_rr [⟨"A", 0, 1, 0⟩] 1 always_high_strategy "Round Robin" = some r ∧
      ∀ p ∈ [(⟨"A", 0, 1, 0⟩ : Process)],
        entriesOf r.gantt p.pid ≠ [] ∧ execOf r.gantt p.pid = p.burst_time)) :=
  ⟨⟨by decide, by decide, by decide⟩,
   claim_C1 [⟨"A", 0, 1, 0⟩] 1 always_high_strategy (by decide) (by decide)
     (by decide)⟩

/-- **C9**.  Termination with a step bound: with positive bursts,
duplicate-free pids and quantum ≥ 1, each simulation terminates (the
round-robin family returns `some`), with at most `N` dispatch steps
(non-idle entries) for the three non-preemptive policies and at most
`total_burst_time / quantum + N` for `simulate_rr` and
`simulate_energy_efficient`. -/
theorem claim_C9 (processes : List Process) (quantum : Int)
    (s : Nat → Int → String → String)
    (hb : ∀ p ∈ processes, 1 ≤ p.burst_time)
    (hnd : (processes.map Process.pid).Nodup) (hquant : 1 ≤ quantum) :
    nonIdleCount (simulate_fcfs processes s).gantt ≤ processes.length ∧
    nonIdleCount (simulate_sjf processes s).gantt ≤ processes.length ∧
    nonIdleCount (simulate_priority processes s).gantt ≤ processes.length ∧
    (∃ r, simulate_rr processes quantum s "Round Robin" = some r ∧
      nonIdleCount r.gantt ≤
        (processes.map (fun p => p.burst_time.toNat)).sum / quantum.toNat +
          processes.length) ∧
    (∃ r, simulate_energy_efficient processes quantum = some r ∧
      nonIdleCount r.gantt ≤
        (processes.map (fun p => p.burst_time.toNat)).sum / quantum.toNat +
          processes.length) := by
  refine ⟨?_, ?_, ?_, ?_, ?_⟩
  · obtain ⟨g, hg, _, hcnt⟩ := npLoop_top (fun l => l) (fun l => rfl)
      (fun l => List.Perm.refl l) s "FCFS" processes hnd
    have hgantt : (simulate_fcfs processes s).gantt = g := by
      show (npLoop (fun l => l) s "FCFS" (npFuel processes)
          (sortK (fun p => p.arrival_time) processes) []
          (match sortK (fun p => p.arrival_time) processes with
           | [] => 0
           | p :: _ => p.arrival_time)).getD [] = g
      rw [hg]
      rfl
    rw [hgantt, hcnt]
  · obtain ⟨g, hg, _, hcnt⟩ := npLoop_top (sortK (fun p => p.burst_time))
      (fun l => length_sortK _ l) (fun l => sortK_perm _ l) s
      "SJF (Non-preemptive)" processes hnd
    have hgantt : (simulate_sjf processes s).gantt = g := by
      show (npLoop (sortK (fun p => p.burst_time)) s "SJF (Non-preemptive)"
          (npFuel processes) (sortK (fun p => p.arrival_time) processes) []
          (match sortK (fun p => p.arrival_time) processes with
           | [] => 0
           | p :: _ => p.arrival_time)).getD [] = g
      rw [hg]
      rfl
    rw [hgantt, hcnt]
  · obtain ⟨g, hg, _, hcnt⟩ := npLoop_top (sortK (fun p => p.priority))
      (fun l => length_sortK _ l) (fun l => sortK_perm _ l) s
      "Priority (Non-preemptive)" processes hnd
    have hgantt : (simulate_priority processes s).gantt = g := by
      show (npLoop (sortK (fun p => p.priority)) s "Priority (Non-preemptive)"
          (npFuel processes) (sortK (fun p => p.arrival_time) processes) []
          (match sortK (fun p => p.arrival_time) processes with
           | [] => 0
           | p :: _ => p.arrival_time)).getD [] = g
      rw [hg]
      rfl
    rw [hgantt, hcnt]
  · obtain ⟨g, hsome, _, hcnt⟩ := simulate_rr_some processes quantum s
      "Round Robin" hquant hb hnd
    exact ⟨compute_metrics processes g "Round Robin", hsome, hcnt⟩
  · obtain ⟨g, hsome, _, hcnt⟩ := simulate_rr_some processes quantum
      energy_aware_strategy "Energy-Efficient RR" hquant hb hnd
    exact ⟨compute_metrics processes g "Energy-Efficient RR", hsome, hcnt⟩

/-- Witness for C9 at a concrete instance. -/
theorem claim_C9_witness :
    ((∀ p ∈ [(⟨"A", 0, 3, 0⟩ : Process)], 1 ≤ p.burst_time) ∧
     (([(⟨"A", 0, 3, 0⟩ : Process)].map Process.pid).Nodup) ∧
     (1 ≤ (2 : Int))) ∧
    (nonIdleCount (simulate_fcfs [⟨"A", 0, 3, 0⟩] always_high_strategy).gantt ≤
      [(⟨"A", 0, 3, 0⟩ : Process)].length ∧
    nonIdleCount (simulate_sjf [⟨"A", 0, 3, 0⟩] always_high_strategy).gantt ≤
      [(⟨"A", 0, 3, 0⟩ : Process)].length ∧
    nonIdleCount (simulate_priority [⟨"A", 0, 3, 0⟩] always_high_strategy).gantt ≤
      [(⟨"A", 0, 3, 0⟩ : Process)].length ∧
    (∃ r, simulate_rr [⟨"A", 0, 3, 0⟩] 2 always_high_strategy "Round Robin" = some r ∧
      nonIdleCount r.gantt ≤
        ([(⟨"A", 0, 3, 0⟩ : Process)].map (fun p => p.burst_time.toNat)).sum /
          (2 : Int).toNat + [(⟨"A", 0, 3, 0⟩ : Process)].length) ∧
    (∃ r, simulate_energy_efficient [⟨"A", 0, 3, 0⟩] 2 = some r ∧
      nonIdleCount r.gantt ≤
        ([(⟨"A", 0, 3, 0⟩ : Process)].map (fun p => p.burst_time.toNat)).sum /
          (2 : Int).toNat + [(⟨"A", 0, 3, 0⟩ : Process)].length)) :=
  ⟨⟨by decide, by decide, by decide⟩,
   claim_C9 [⟨"A", 0, 3, 0⟩] 2 always_high_strategy (by decide) (by decide)
     (by decide)⟩

/-! ### Claim C8: energy monotonicity -/

theorem totalEnergyOf_cons_none {e : GanttEntry} (g : List GanttEntry)
    (h : e.pid = none) : totalEnergyOf (e :: g) = totalEnergyOf g := by
  simp [totalEnergyOf, h]

theorem totalEnergyOf_cons_some {e : GanttEntry} (g : List GanttEntry)
    {pid : String} (h : e.pid = some pid) :
    totalEnergyOf (e :: g) =
      POWER_LEVELS e.freq_level * ((e.stop - e.start : Int) : ℚ) +
        totalEnergyOf g := by
  simp [totalEnergyOf, h]

/-- The load-aware strategy never draws more power than the baseline. -/
theorem power_energy_aware_le (k : Nat) (t : Int) (a1 a2 : String) :
    POWER_LEVELS (energy_aware_strategy k t a2) ≤
      POWER_LEVELS (always_high_strategy k t a1) := by
  by_cases h1 : k ≤ 2
  · simp [energy_aware_strategy, always_high_strategy, POWER_LEVELS, h1]
    norm_num
  · by_cases h2 : k ≤ 5 <;>
      simp [energy_aware_strategy, always_high_strategy, POWER_LEVELS, h1, h2] <;>
      norm_num

/-- Slice-for-slice energy comparison of two strategies on the same state:
if the second strategy's power never exceeds the first's, neither does the
total energy of its timeline. -/
theorem rrLoop_energy (s1 s2 : Nat → Int → String → String) (q : Int)
    (a1 a2 : String) (n : Nat) (hq : 1 ≤ q)
    (hpow : ∀ k t, POWER_LEVELS (s2 k t a2) ≤ POWER_LEVELS (s1 k t a1)) :
    ∀ (fuel : Nat) pending ready (rem : String → Int) completed time g1 g2,
      rrLoop s1 q a1 n fuel pending ready rem completed time = some g1 →
      rrLoop s2 q a2 n fuel pending ready rem completed time = some g2 →
      ((pending ++ ready).map Process.pid).Nodup →
      (∀ p ∈ pending ++ ready, 1 ≤ rem p.pid) →
      totalEnergyOf g2 ≤ totalEnergyOf g1 := by
  intro fuel
  induction fuel with
  | zero =>
    intro pending ready rem completed time g1 g2 hsome1
    simp [rrLoop] at hsome1
  | succ fuel ih =>
    intro pending ready rem completed time g1 g2 hsome1 hsome2 hnd h4
    rw [rrLoop] at hsome1 hsome2
    by_cases hc : completed.length < n
    · rw [if_pos hc] at hsome1 hsome2
      cases hq1 : ready ++ pending.takeWhile (fun p => p.arrival_time ≤ time) with
      | nil =>
        rw [hq1] at hsome1 hsome2
        rcases List.append_eq_nil.mp hq1 with ⟨hready, htw⟩
        have hdw : pending.dropWhile (fun p => p.arrival_time ≤ time) = pending :=
          dropWhile_of_takeWhile_nil _ _ htw
        cases hp1 : pending.dropWhile (fun p => p.arrival_time ≤ time) with
        | nil =>
          rw [hp1] at hsome1 hsome2
          have hg1 : ([] : List GanttEntry) = g1 := by injection hsome1
          have hg2 : ([] : List GanttEntry) = g2 := by injection hsome2
          subst hg1
          subst hg2
          exact le_refl _
        | cons qq qs =>
          rw [hp1] at hsome1 hsome2
          rw [hdw] at hp1
          subst hp1
          subst hready
          obtain ⟨g1', hrec1, hg1⟩ := Option.map_eq_some'.mp hsome1
          obtain ⟨g2', hrec2, hg2⟩ := Option.map_eq_some'.mp hsome2
          subst hg1
          subst hg2
          rw [totalEnergyOf_cons_none _ rfl, totalEnergyOf_cons_none _ rfl]
          exact ih _ _ _ _ _ g1' g2' hrec1 hrec2 hnd h4
      | cons current rest =>
        rw [hq1] at hsome1 hsome2
        simp only [] at hsome1 hsome2
        have hperm : (current ::
            ((pending.dropWhile (fun p => p.arrival_time ≤ time)).dropWhile
                (fun p => p.arrival_time ≤ time + min q (rem current.pid)) ++
              (rest ++ (pending.dropWhile (fun p => p.arrival_time ≤ time)).takeWhile
                (fun p => p.arrival_time ≤ time + min q (rem current.pid))))).Perm
            (pending ++ ready) := by
          have hpend : pending =
              pending.takeWhile (fun p => p.arrival_time ≤ time) ++
              ((pending.dropWhile (fun p => p.arrival_time ≤ time)).takeWhile
                (fun p => p.arrival_time ≤ time + min q (rem current.pid)) ++
               (pending.dropWhile (fun p => p.arrival_time ≤ time)).dropWhile
                (fun p => p.arrival_time ≤ time + min q (rem current.pid))) := by
            conv_lhs => rw [← List.takeWhile_append_dropWhile
              (fun p => decide (p.arrival_time ≤ time)) pending,
              ← List.takeWhile_append_dropWhile
              (fun p => decide (p.arrival_time ≤ time + min q (rem current.pid)))
              (pending.dropWhile (fun p => p.arrival_time ≤ time))]
          have h0 := @live_perm_step
            (pending.takeWhile (fun p => p.arrival_time ≤ time))
            ((pending.dropWhile (fun p => p.arrival_time ≤ time)).takeWhile
              (fun p => p.arrival_time ≤ time + min q (rem current.pid)))
            ((pending.dropWhile (fun p => p.arrival_time ≤ time)).dropWhile
              (fun p => p.arrival_time ≤ time + min q (rem current.pid)))
            ready rest current hq1
          rw [← hpend] at h0
          exact h0
        have hcur : 1 ≤ rem current.pid :=
          h4 current (hperm.subset (by simp))
        have hexec1 : 1 ≤ min q (rem current.pid) := le_min hq hcur
        have hnd0 := ((hperm.map Process.pid).symm).nodup hnd
        rw [List.map_cons, List.nodup_cons] at hnd0
        obtain ⟨hcurnot, hnd'⟩ := hnd0
        have hnotin : ∀ p ∈ (pending.dropWhile (fun p => p.arrival_time ≤ time)).dropWhile
              (fun p => p.arrival_time ≤ time + min q (rem current.pid)) ++
            (rest ++ (pending.dropWhile (fun p => p.arrival_time ≤ time)).takeWhile
              (fun p => p.arrival_time ≤ time + min q (rem current.pid))),
            p.pid ≠ current.pid := by
          intro p hp hpe
          apply hcurnot
          have hmem := List.mem_map_of_mem Process.pid hp
          rwa [hpe] at hmem
        have hsub : ∀ p ∈ (pending.dropWhile (fun p => p.arrival_time ≤ time)).dropWhile
              (fun p => p.arrival_time ≤ time + min q (rem current.pid)) ++
            (rest ++ (pending.dropWhile (fun p => p.arrival_time ≤ time)).takeWhile
              (fun p => p.arrival_time ≤ time + min q (rem current.pid))),
            p ∈ pending ++ ready :=
          fun p hp => hperm.subset (List.mem_cons_of_mem current hp)
        have hdur : (0 : ℚ) ≤ (((time + min q (rem current.pid)) - time : Int) : ℚ) := by
          have : (0 : Int) ≤ (time + min q (rem current.pid)) - time := by omega
          exact_mod_cast this
        have hstep : POWER_LEVELS (s2 (rest.length + 1) time a2) *
              (((time + min q (rem current.pid)) - time : Int) : ℚ) ≤
            POWER_LEVELS (s1 (rest.length + 1) time a1) *
              (((time + min q (rem current.pid)) - time : Int) : ℚ) :=
          mul_le_mul_of_nonneg_right (hpow _ _) hdur
        by_cases hreq : Function.update rem current.pid
            (rem current.pid - min q (rem current.pid)) current.pid > 0
        · rw [if_pos hreq] at hsome1 hsome2
          obtain ⟨g1', hrec1, hg1⟩ := Option.map_eq_some'.mp hsome1
          obtain ⟨g2', hrec2, hg2⟩ := Option.map_eq_some'.mp hsome2
          subst hg1
          subst hg2
          rw [Function.update_same] at hreq
          rw [totalEnergyOf_cons_some _ rfl, totalEnergyOf_cons_some _ rfl]
          have hrecle := ih _ _ _ _ _ g1' g2' hrec1 hrec2
            (((((append_concat_perm _ _ current).trans hperm).map
              Process.pid).symm).nodup hnd)
            (by
              intro p hp'
              have hp'' := (append_concat_perm _ _ current).subset hp'
              rcases List.mem_cons.mp hp'' with rfl | hpmem
              · rw [Function.update_same]
                omega
              · rw [Function.update_noteq (hnotin p hpmem)]
                exact h4 p (hsub p hpmem))
          exact add_le_add hstep hrecle
        · rw [if_neg hreq] at hsome1 hsome2
          obtain ⟨g1', hrec1, hg1⟩ := Option.map_eq_some'.mp hsome1
          obtain ⟨g2', hrec2, hg2⟩ := Option.map_eq_some'.mp hsome2
          subst hg1
          subst hg2
          rw [totalEnergyOf_cons_some _ rfl, totalEnergyOf_cons_some _ rfl]
          have hrecle := ih _ _ _ _ _ g1' g2' hrec1 hrec2 hnd'
            (by
              intro p hp'
              rw [Function.update_noteq (hnotin p hp')]
              exact h4 p (hsub p hp'))
          exact add_le_add hstep hrecle
    · rw [if_neg hc] at hsome1 hsome2
      have hg1 : ([] : List GanttEntry) = g1 := by injection hsome1
      have hg2 : ([] : List GanttEntry) = g2 := by injection hsome2
      subst hg1
      subst hg2
      exact le_refl _

/-- Claim C8: for the same process set and quantum (positive bursts,
distinct pids, quantum ≥ 1), the total energy reported by
`simulate_energy_efficient` is at most that of `simulate_rr` with the
always-high baseline, in particular on any instance where the ready-queue
length drops to 5 or fewer at some dispatch (where the load-aware strategy
picks a sub-high level while the baseline runs high). -/
theorem claim_C8 (processes : List Process) (quantum : Int)
    (hq : 1 ≤ quantum) (hb : ∀ p ∈ processes, 1 ≤ p.burst_time)
    (hnd : (processes.map Process.pid).Nodup)
    (r1 r2 : SimulationResult)
    (h1 : simulate_rr processes quantum always_high_strategy "Round Robin" = some r1)
    (h2 : simulate_energy_efficient processes quantum = some r2)
    (_hcond : ∃ e ∈ r2.gantt, e.pid.isSome ∧
      (e.freq_level = "low" ∨ e.freq_level = "med")) :
    r2.total_energy ≤ r1.total_energy := by
  simp only [simulate_rr] at h1
  simp only [simulate_energy_efficient, simulate_rr] at h2
  obtain ⟨g1, hG1, hr1⟩ := Option.map_eq_some'.mp h1
  obtain ⟨g2, hG2, hr2⟩ := Option.map_eq_some'.mp h2
  have hpermA := sortK_perm (fun p => p.arrival_time) processes
  have hndA : (((sortK (fun p => p.arrival_time) processes) ++ []).map
      Process.pid).Nodup := by
    rw [List.append_nil]
    exact ((hpermA.map Process.pid).symm).nodup hnd
  have h4 : ∀ p ∈ (sortK (fun p => p.arrival_time) processes) ++ [],
      1 ≤ initRemaining processes p.pid := by
    intro p hp
    rw [List.append_nil] at hp
    rw [initRemaining_eq hnd (hpermA.subset hp)]
    exact hb p (hpermA.subset hp)
  have hE := rrLoop_energy always_high_strategy energy_aware_strategy quantum
    "Round Robin" "Energy-Efficient RR" processes.length hq
    (fun k t => power_energy_aware_le k t "Round Robin" "Energy-Efficient RR")
    (rrFuel processes) (sortK (fun p => p.arrival_time) processes) []
    (initRemaining processes) []
    (match sortK (fun p => p.arrival_time) processes with
     | [] => 0
     | p :: _ => p.arrival_time)
    g1 g2 hG1 hG2 hndA h4
  rw [← hr1, ← hr2]
  exact hE

theorem claim_C8_witness :
    ((1 : Int) ≤ 2 ∧ (∀ p ∈ demoProcs, 1 ≤ p.burst_time) ∧
      (demoProcs.map Process.pid).Nodup ∧
      simulate_rr demoProcs 2 always_high_strategy "Round Robin" =
        some (compute_metrics demoProcs rrDemoGanttHigh "Round Robin") ∧
      simulate_energy_efficient demoProcs 2 =
        some (compute_metrics demoProcs rrDemoGanttEE "Energy-Efficient RR") ∧
      (∃ e ∈ (compute_metrics demoProcs rrDemoGanttEE "Energy-Efficient RR").gantt,
        e.pid.isSome ∧ (e.freq_level = "low" ∨ e.freq_level = "med"))) ∧
    (compute_metrics demoProcs rrDemoGanttEE "Energy-Efficient RR").total_energy ≤
      (compute_metrics demoProcs rrDemoGanttHigh "Round Robin").total_energy := by
  have hG1 : rrLoop always_high_strategy 2 "Round Robin" demoProcs.length
      (rrFuel demoProcs) (sortK (fun p => p.arrival_time) demoProcs) []
      (initRemaining demoProcs) []
      (match sortK (fun p => p.arrival_time) demoProcs with
       | [] => 0
       | p :: _ => p.arrival_time) = some rrDemoGanttHigh := by decide
  have hG2 : rrLoop energy_aware_strategy 2 "Energy-Efficient RR" demoProcs.length
      (rrFuel demoProcs) (sortK (fun p => p.arrival_time) demoProcs) []
      (initRemaining demoProcs) []
      (match sortK (fun p => p.arrival_time) demoProcs with
       | [] => 0
       | p :: _ => p.arrival_time) = some rrDemoGanttEE := by decide
  have h1 : simulate_rr demoProcs 2 always_high_strategy "Round Robin" =
      some (compute_metrics demoProcs rrDemoGanttHigh "Round Robin") := by
    show (rrLoop always_high_strategy 2 "Round Robin" demoProcs.length
        (rrFuel demoProcs) (sortK (fun p => p.arrival_time) demoProcs) []
        (initRemaining demoProcs) []
        (match sortK (fun p => p.arrival_time) demoProcs with
         | [] => 0
         | p :: _ => p.arrival_time)).map
      (fun g => compute_metrics demoProcs g "Round Robin") =
      some (compute_metrics demoProcs rrDemoGanttHigh "Round Robin")
    rw [hG1]
    rfl
  have h2 : simulate_energy_efficient demoProcs 2 =
      some (compute_metrics demoProcs rrDemoGanttEE "Energy-Efficient RR") := by
    show (rrLoop energy_aware_strategy 2 "Energy-Efficient RR" demoProcs.length
        (rrFuel demoProcs) (sortK (fun p => p.arrival_time) demoProcs) []
        (initRemaining demoProcs) []
        (match sortK (fun p => p.arrival_time) demoProcs with
         | [] => 0
         | p :: _ => p.arrival_time)).map
      (fun g => compute_metrics demoProcs g "Energy-Efficient RR") =
      some (compute_metrics demoProcs rrDemoGanttEE "Energy-Efficient RR")
    rw [hG2]
    rfl
  have hcond : ∃ e ∈ (compute_metrics demoProcs rrDemoGanttEE
        "Energy-Efficient RR").gantt,
      e.pid.isSome ∧ (e.freq_level = "low" ∨ e.freq_level = "med") := by
    refine ⟨⟨some "P1", 0, 2, "low"⟩, ?_, by decide, Or.inl rfl⟩
    show GanttEntry.mk (some "P1") 0 2 "low" ∈ rrDemoGanttEE
    decide
  exact ⟨⟨by decide, by decide, by decide, h1, h2, hcond⟩,
    claim_C8 demoProcs 2 (by decide) (by decide) (by decide) _ _ h1 h2 hcond⟩

/-! ### Claim C3: the metrics engine -/

theorem specFirstStart_eq {g : List GanttEntry} {pid : String} {e : GanttEntry}
    {es : List GanttEntry} (h : entriesOf g pid = e :: es) :
    specFirstStart g pid = e.start := by
  unfold specFirstStart
  rw [h]

theorem specLastEnd_eq {g : List GanttEntry} {pid : String} {e : GanttEntry}
    {es : List GanttEntry} (h : entriesOf g pid = e :: es) :
    specLastEnd g pid = ((e :: es).getLast (List.cons_ne_nil e es)).stop := by
  unfold specLastEnd
  rw [h, List.getLast?_eq_getLast (e :: es) (List.cons_ne_nil e es)]

theorem applyEntry_ne (st0 : String → PState) (a : GanttEntry) (pid : String)
    (ha : a.pid ≠ some pid) : applyEntry st0 a pid = st0 pid := by
  cases hp : a.pid with
  | none => simp [applyEntry, hp]
  | some q =>
    have hq : pid ≠ q := by
      intro h
      exact ha (by rw [hp, h])
    simp only [applyEntry, hp]
    exact Function.update_noteq hq _ _

theorem applyEntry_eq (st0 : String → PState) (a : GanttEntry) (pid : String)
    (ha : a.pid = some pid) :
    applyEntry st0 a pid =
      ⟨if (st0 pid).start = none then some a.start else (st0 pid).start,
       some a.stop,
       if (st0 pid).response = none then some a.start else (st0 pid).response⟩ := by
  simp only [applyEntry, ha]
  exact Function.update_same _ _ _

/-- Scan of `compute_metrics` over entries missing `pid`: the per-process
record is untouched. -/
theorem foldl_applyEntry_nil (g : List GanttEntry) :
    ∀ (st0 : String → PState) (pid : String), entriesOf g pid = [] →
      (g.foldl applyEntry st0) pid = st0 pid := by
  induction g with
  | nil => intro st0 pid _; rfl
  | cons a g ih =>
    intro st0 pid h
    by_cases ha : a.pid = some pid
    · rw [entriesOf_cons_match g ha] at h
      exact absurd h (List.cons_ne_nil _ _)
    · rw [entriesOf_cons_nomatch g ha] at h
      rw [List.foldl_cons, ih _ pid h, applyEntry_ne st0 a pid ha]

/-- Scan of `compute_metrics` for an occupied pid: start and response are
the first occupying entry's start (unless already set), completion is the
last occupying entry's end. -/
theorem foldl_applyEntry_char (g : List GanttEntry) :
    ∀ (st0 : String → PState) (pid : String) (e : GanttEntry)
      (es : List GanttEntry), entriesOf g pid = e :: es →
      (g.foldl applyEntry st0) pid =
        ⟨if (st0 pid).start = none then some e.start else (st0 pid).start,
         some (((e :: es).getLast (List.cons_ne_nil e es)).stop),
         if (st0 pid).response = none then some e.start else (st0 pid).response⟩ := by
  induction g with
  | nil =>
    intro st0 pid e es h
    exact absurd h (by simp [entriesOf])
  | cons a g ih =>
    intro st0 pid e es h
    rw [List.foldl_cons]
    by_cases ha : a.pid = some pid
    · rw [entriesOf_cons_match g ha] at h
      have hae : a = e := by injection h
      have hes : entriesOf g pid = es := by injection h
      subst hae
      cases es with
      | nil =>
        rw [foldl_applyEntry_nil g _ pid hes, applyEntry_eq st0 a pid ha]
        rfl
      | cons f es' =>
        have hrec := ih (applyEntry st0 a) pid f es' hes
        rw [applyEntry_eq st0 a pid ha] at hrec
        rw [hrec]
        have h1 : (if (if (st0 pid).start = none then some a.start
              else (st0 pid).start) = none then some f.start
            else (if (st0 pid).start = none then some a.start
              else (st0 pid).start)) =
            (if (st0 pid).start = none then some a.start
              else (st0 pid).start) := by
          by_cases hs : (st0 pid).start = none <;> simp [hs]
        have h2 : (if (if (st0 pid).response = none then some a.start
              else (st0 pid).response) = none then some f.start
            else (if (st0 pid).response = none then some a.start
              else (st0 pid).response)) =
            (if (st0 pid).response = none then some a.start
              else (st0 pid).response) := by
          by_cases hs : (st0 pid).response = none <;> simp [hs]
        have h3 : (f :: es').getLast (List.cons_ne_nil f es') =
            (a :: f :: es').getLast (List.cons_ne_nil a (f :: es')) :=
          (List.getLast_cons (List.cons_ne_nil f es')).symm
        rw [h1, h2, h3]
    · rw [entriesOf_cons_nomatch g ha] at h
      have hrec := ih (applyEntry st0 a) pid e es h
      rw [hrec, applyEntry_ne st0 a pid ha]

/-- State record of an occupied pid after the full Gantt scan. -/
theorem ganttState_char {g : List GanttEntry} {pid : String} {e : GanttEntry}
    {es : List GanttEntry} (h : entriesOf g pid = e :: es) :
    ganttState g pid = ⟨some e.start, some (specLastEnd g pid), some e.start⟩ := by
  rw [ganttState, foldl_applyEntry_char g _ pid e es h, specLastEnd_eq h]
  rfl

/-- One step of the totals loop for an occupied process: waiting,
turnaround and response accumulate the spec formulas. -/
theorem addTotals_occupied {g : List GanttEntry} (acc : ℚ × ℚ × ℚ)
    {p : Process} {e : GanttEntry} {es : List GanttEntry}
    (h : entriesOf g p.pid = e :: es) :
    addTotals (ganttState g) acc p =
      (acc.1 + (specWaiting g p : ℚ), acc.2.1 + (specTurnaround g p : ℚ),
       acc.2.2 + (specResponse g p : ℚ)) := by
  rw [addTotals, ganttState_char h]
  simp only [specWaiting, specTurnaround, specResponse, specFirstStart_eq h]

/-- The totals loop of `compute_metrics` computes the sums of the spec
formulas when every process occupies at least one entry. -/
theorem foldl_addTotals (g : List GanttEntry) :
    ∀ (l : List Process) (acc : ℚ × ℚ × ℚ),
      (∀ p ∈ l, entriesOf g p.pid ≠ []) →
      l.foldl (addTotals (ganttState g)) acc =
        (acc.1 + (l.map (fun p => (specWaiting g p : ℚ))).sum,
         acc.2.1 + (l.map (fun p => (specTurnaround g p : ℚ))).sum,
         acc.2.2 + (l.map (fun p => (specResponse g p : ℚ))).sum) := by
  intro l
  induction l with
  | nil =>
    intro acc _
    simp
  | cons p l ih =>
    intro acc hocc
    rw [List.foldl_cons]
    cases he : entriesOf g p.pid with
    | nil => exact absurd he (hocc p (by simp))
    | cons e es =>
      rw [addTotals_occupied acc he,
        ih _ (fun q hq => hocc q (List.mem_cons_of_mem p hq))]
      simp only [List.map_cons, List.sum_cons, Prod.mk.injEq]
      refine ⟨by ring, by ring, by ring⟩

/-- Claim C3: when every process occupies at least one timeline entry,
`compute_metrics` reports averages of the spec's per-process formulas
(turnaround = last end − arrival, waiting = turnaround − burst, response =
first start − arrival; 0 on an empty process list), CPU utilization
busy/makespan·100 (0 on a non-positive makespan), and energy as the
power-weighted sum of non-idle durations. -/
theorem claim_C3 (processes : List Process) (g : List GanttEntry) (a : String)
    (hocc : ∀ p ∈ processes, entriesOf g p.pid ≠ []) :
    (compute_metrics processes g a).avg_waiting_time =
      (if processes.length = 0 then 0
       else ((processes.map (fun p => (specWaiting g p : ℚ))).sum) /
         (processes.length : ℚ)) ∧
    (compute_metrics processes g a).avg_turnaround_time =
      (if processes.length = 0 then 0
       else ((processes.map (fun p => (specTurnaround g p : ℚ))).sum) /
         (processes.length : ℚ)) ∧
    (compute_metrics processes g a).avg_response_time =
      (if processes.length = 0 then 0
       else ((processes.map (fun p => (specResponse g p : ℚ))).sum) /
         (processes.length : ℚ)) ∧
    (compute_metrics processes g a).cpu_utilization =
      (if 0 < endTimeOf g - startTimeOf g then
        (busyTimeOf g : ℚ) / ((endTimeOf g - startTimeOf g : Int) : ℚ) * 100
       else 0) ∧
    (compute_metrics processes g a).total_energy = totalEnergyOf g := by
  have htot := foldl_addTotals g processes (0, 0, 0) hocc
  simp only [compute_metrics]
  rw [htot]
  refine ⟨by simp, by simp, by simp, ?_, trivial⟩
  by_cases hc : startTimeOf g < endTimeOf g
  · rw [if_pos hc, if_pos (by omega)]
  · rw [if_neg hc, if_neg (by omega)]

theorem claim_C3_witness :
    (∀ p ∈ [Process.mk "A" 0 2 0],
      entriesOf [GanttEntry.mk (some "A") 0 2 "high"] p.pid ≠ []) ∧
    ((compute_metrics [Process.mk "A" 0 2 0]
        [GanttEntry.mk (some "A") 0 2 "high"] "FCFS").avg_waiting_time =
      (if ([Process.mk "A" 0 2 0]).length = 0 then 0
       else ((([Process.mk "A" 0 2 0]).map
           (fun p => (specWaiting [GanttEntry.mk (some "A") 0 2 "high"] p : ℚ))).sum) /
         (([Process.mk "A" 0 2 0]).length : ℚ)) ∧
     (compute_metrics [Process.mk "A" 0 2 0]
        [GanttEntry.mk (some "A") 0 2 "high"] "FCFS").avg_turnaround_time =
      (if ([Process.mk "A" 0 2 0]).length = 0 then 0
       else ((([Process.mk "A" 0 2 0]).map
           (fun p => (specTurnaround [GanttEntry.mk (some "A") 0 2 "high"] p : ℚ))).sum) /
         (([Process.mk "A" 0 2 0]).length : ℚ)) ∧
     (compute_metrics [Process.mk "A" 0 2 0]
        [GanttEntry.mk (some "A") 0 2 "high"] "FCFS").avg_response_time =
      (if ([Process.mk "A" 0 2 0]).length = 0 then 0
       else ((([Process.mk "A" 0 2 0]).map
           (fun p => (specResponse [GanttEntry.mk (some "A") 0 2 "high"] p : ℚ))).sum) /
         (([Process.mk "A" 0 2 0]).length : ℚ)) ∧
     (compute_metrics [Process.mk "A" 0 2 0]
        [GanttEntry.mk (some "A") 0 2 "high"] "FCFS").cpu_utilization =
      (if 0 < endTimeOf [GanttEntry.mk (some "A") 0 2 "high"] -
          startTimeOf [GanttEntry.mk (some "A") 0 2 "high"] then
        (busyTimeOf [GanttEntry.mk (some "A") 0 2 "high"] : ℚ) /
          ((endTimeOf [GanttEntry.mk (some "A") 0 2 "high"] -
            startTimeOf [GanttEntry.mk (some "A") 0 2 "high"] : Int) : ℚ) * 100
       else 0) ∧
     (compute_metrics [Process.mk "A" 0 2 0]
        [GanttEntry.mk (some "A") 0 2 "high"] "FCFS").total_energy =
      totalEnergyOf [GanttEntry.mk (some "A") 0 2 "high"]) :=
  ⟨by decide, claim_C3 [Process.mk "A" 0 2 0]
    [GanttEntry.mk (some "A") 0 2 "high"] "FCFS" (by decide)⟩

/-! ### Claim C4: round-robin slice mechanics -/

theorem execOf_nonneg {g : List GanttEntry}
    (h : ∀ e ∈ g, e.start ≤ e.stop) (pid : String) : 0 ≤ execOf g pid := by
  refine List.sum_nonneg ?_
  intro x hx
  obtain ⟨e, he, hex⟩ := List.mem_map.mp hx
  have heg : e ∈ g := List.mem_of_mem_filter he
  have := h e heg
  omega

theorem execBefore_nonneg {g : List GanttEntry}
    (h : ∀ e ∈ g, e.start ≤ e.stop) (j : Nat) (pid : String) :
    0 ≤ execBefore g j pid :=
  execOf_nonneg (fun e he => h e ((List.take_sublist j g).subset he)) pid

/-- In an arrival-sorted list, everything the `dropWhile` keeps has not
yet arrived. -/
theorem dropWhile_arrival_gt {pending : List Process} (t : Int)
    (hs : List.Pairwise (fun p r => p.arrival_time ≤ r.arrival_time) pending) :
    ∀ p ∈ pending.dropWhile (fun p => p.arrival_time ≤ t),
      ¬ (p.arrival_time ≤ t) := by
  induction pending with
  | nil => intro p hp; simp [List.dropWhile] at hp
  | cons a l ih =>
    intro p hp
    rw [List.dropWhile_cons] at hp
    by_cases ha : a.arrival_time ≤ t
    · rw [if_pos (by simpa using ha)] at hp
      exact ih (List.Pairwise.of_cons hs) p hp
    · rw [if_neg (by simpa using ha)] at hp
      rcases List.mem_cons.mp hp with rfl | hpl
      · exact ha
      · have := (List.pairwise_cons.mp hs).1 p hpl
        omega

theorem mem_takeWhile_arrival {l : List Process} {t : Int} {p : Process}
    (h : p ∈ l.takeWhile (fun p => p.arrival_time ≤ t)) : p.arrival_time ≤ t := by
  have := List.mem_takeWhile_imp h
  simpa using this

set_option maxHeartbeats 1600000 in
/-- Per-slice facts of the round-robin loop, by induction over the run:
(F) entries live in the future of the clock and have nonnegative duration;
(S) the first entry starts at the clock; (H) consecutive entries are
contiguous; and for every position `j`: a dispatched slice lasts exactly
`min quantum remaining` (computed from the executed prefix), its frequency
is the strategy applied to the number of arrived-and-unfinished processes
at the slice start, and an idle entry is low-frequency, nonempty, and
spans exactly to the earliest arrival among unfinished processes (all of
which are still in the future). -/
theorem rrLoop_perEntry (s : Nat → Int → String → String) (q : Int) (a : String)
    (n : Nat) (hq : 1 ≤ q) :
    ∀ (fuel : Nat) pending ready (rem : String → Int) completed time g,
      rrLoop s q a n fuel pending ready rem completed time = some g →
      ((pending ++ ready).map Process.pid).Nodup →
      (∀ p ∈ pending ++ ready, 1 ≤ rem p.pid) →
      List.Pairwise (fun p r => p.arrival_time ≤ r.arrival_time) pending →
      (∀ p ∈ ready, p.arrival_time ≤ time) →
      (∀ e ∈ g, time ≤ e.start ∧ e.start ≤ e.stop) ∧
      (∀ h0 : 0 < g.length, (g.get ⟨0, h0⟩).start = time) ∧
      (∀ (j : Nat) (hj1 : j + 1 < g.length),
        (g.get ⟨j + 1, hj1⟩).start = (g.get ⟨j, Nat.lt_of_succ_lt hj1⟩).stop) ∧
      ∀ (j : Nat) (hj : j < g.length),
        (∀ pid, (g.get ⟨j, hj⟩).pid = some pid →
          (g.get ⟨j, hj⟩).stop - (g.get ⟨j, hj⟩).start =
            min q (rem pid - execBefore g j pid)) ∧
        ((g.get ⟨j, hj⟩).pid.isSome →
          (g.get ⟨j, hj⟩).freq_level =
            s ((pending ++ ready).countP (fun p =>
                decide (p.arrival_time ≤ (g.get ⟨j, hj⟩).start) &&
                decide (execBefore g j p.pid < rem p.pid)))
              (g.get ⟨j, hj⟩).start a) ∧
        ((g.get ⟨j, hj⟩).pid = none →
          (g.get ⟨j, hj⟩).freq_level = "low" ∧
          (g.get ⟨j, hj⟩).start < (g.get ⟨j, hj⟩).stop ∧
          (∀ p ∈ pending ++ ready, execBefore g j p.pid < rem p.pid →
            (g.get ⟨j, hj⟩).stop ≤ p.arrival_time) ∧
          (∃ p ∈ pending ++ ready, execBefore g j p.pid < rem p.pid ∧
            p.arrival_time = (g.get ⟨j, hj⟩).stop)) := by
  intro fuel
  induction fuel with
  | zero =>
    intro pending ready rem completed time g hsome
    simp [rrLoop] at hsome
  | succ fuel ih =>
    intro pending ready rem completed time g hsome hnd h4 hsort h2
    rw [rrLoop] at hsome
    by_cases hc : completed.length < n
    · rw [if_pos hc] at hsome
      cases hq1 : ready ++ pending.takeWhile (fun p => p.arrival_time ≤ time) with
      | nil =>
        rw [hq1] at hsome
        rcases List.append_eq_nil.mp hq1 with ⟨hready, htw⟩
        have hdw : pending.dropWhile (fun p => p.arrival_time ≤ time) = pending :=
          dropWhile_of_takeWhile_nil _ _ htw
        cases hp1 : pending.dropWhile (fun p => p.arrival_time ≤ time) with
        | nil =>
          rw [hdw] at hp1
          subst hp1
          subst hready
          have hg : ([] : List GanttEntry) = g := by injection hsome
          subst hg
          exact ⟨fun e he => absurd he (by simp), fun h0 => absurd h0 (by simp),
            fun j hj1 => absurd hj1 (by simp), fun j hj => absurd hj (by simp)⟩
        | cons qq qs =>
          rw [hp1] at hsome
          rw [hdw] at hp1
          subst hp1
          subst hready
          obtain ⟨g', hrec, hg⟩ := Option.map_eq_some'.mp hsome
          subst hg
          have hfail : ¬ (qq.arrival_time ≤ time) := by
            have := takeWhile_nil_head _ _ _ htw
            simpa using this
          obtain ⟨hF, hS, hH, hJ⟩ := ih (qq :: qs) [] rem completed
            qq.arrival_time g' hrec hnd h4 hsort (fun p hp => absurd hp (by simp))
          have hshift : ∀ (j : Nat) (pid : String),
              execBefore (GanttEntry.mk none time qq.arrival_time "low" :: g')
                (j + 1) pid = execBefore g' j pid := by
            intro j pid
            rw [execBefore_cons]
            simp
          refine ⟨?_, ?_, ?_, ?_⟩
          · intro e he
            rcases List.mem_cons.mp he with rfl | he'
            · exact ⟨le_refl _, by show time ≤ qq.arrival_time; omega⟩
            · have h1 := (hF e he').1
              exact ⟨by omega, (hF e he').2⟩
          · intro h0
            rfl
          · intro j hj1
            cases j with
            | zero =>
              show (g'.get ⟨0, Nat.lt_of_succ_lt_succ hj1⟩).start = qq.arrival_time
              exact hS _
            | succ j =>
              simp only [List.get_cons_succ]
              exact hH j (Nat.lt_of_succ_lt_succ hj1)
          · intro j hj
            cases j with
            | zero =>
              refine ⟨fun pid hpid => absurd hpid (by simp), fun hpid => by simp at hpid,
                fun _ => ⟨rfl, ?_, ?_, ?_⟩⟩
              · show time < qq.arrival_time
                omega
              · intro p hp _
                show qq.arrival_time ≤ p.arrival_time
                rw [List.append_nil] at hp
                rcases List.mem_cons.mp hp with rfl | hpq
                · exact le_refl _
                · exact (List.pairwise_cons.mp hsort).1 p hpq
              · refine ⟨qq, by simp, ?_, rfl⟩
                rw [execBefore_zero]
                have := h4 qq (by simp)
                omega
            | succ j =>
              have hj' : j < g'.length := by
                simp only [List.length_cons] at hj
                omega
              obtain ⟨hD', hE', hI'⟩ := hJ j hj'
              simp only [List.get_cons_succ]
              refine ⟨?_, ?_, ?_⟩
              · intro pid hpid
                rw [hshift j pid]
                exact hD' pid hpid
              · intro hpid
                have hcnt : ((qq :: qs) ++ []).countP (fun (p : Process) =>
                      decide (p.arrival_time ≤
                        (g'.get ⟨j, Nat.lt_of_succ_lt_succ hj⟩).start) &&
                      decide (execBefore
                        (GanttEntry.mk none time qq.arrival_time "low" :: g')
                        (j + 1) p.pid < rem p.pid)) =
                    ((qq :: qs) ++ []).countP (fun (p : Process) =>
                      decide (p.arrival_time ≤
                        (g'.get ⟨j, Nat.lt_of_succ_lt_succ hj⟩).start) &&
                      decide (execBefore g' j p.pid < rem p.pid)) :=
                  List.countP_congr (fun p _ => by simp [hshift])
                rw [hcnt]
                exact hE' hpid
              · intro hpid
                obtain ⟨hlow, hlt, hall, hex⟩ := hI' hpid
                refine ⟨hlow, hlt, ?_, ?_⟩
                · intro p hp hunf
                  rw [hshift j p.pid] at hunf
                  exact hall p hp hunf
                · obtain ⟨p, hpmem, hunf, harr⟩ := hex
                  exact ⟨p, hpmem, by rw [hshift j p.pid]; exact hunf, harr⟩
      | cons current rest =>
        rw [hq1] at hsome
        simp only [] at hsome
        have hsplit1 : pending.takeWhile (fun p => p.arrival_time ≤ time) ++
            pending.dropWhile (fun p => p.arrival_time ≤ time) = pending :=
          List.takeWhile_append_dropWhile _ _
        have hsplit2 : (pending.dropWhile (fun p => p.arrival_time ≤ time)).takeWhile
              (fun p => p.arrival_time ≤ time + min q (rem current.pid)) ++
            (pending.dropWhile (fun p => p.arrival_time ≤ time)).dropWhile
              (fun p => p.arrival_time ≤ time + min q (rem current.pid)) =
            pending.dropWhile (fun p => p.arrival_time ≤ time) :=
          List.takeWhile_append_dropWhile _ _
        have hpend : pending =
            pending.takeWhile (fun p => p.arrival_time ≤ time) ++
            ((pending.dropWhile (fun p => p.arrival_time ≤ time)).takeWhile
              (fun p => p.arrival_time ≤ time + min q (rem current.pid)) ++
             (pending.dropWhile (fun p => p.arrival_time ≤ time)).dropWhile
              (fun p => p.arrival_time ≤ time + min q (rem current.pid))) := by
          conv_lhs => rw [← hsplit1, ← hsplit2]
        have hperm : (current ::
            ((pending.dropWhile (fun p => p.arrival_time ≤ time)).dropWhile
                (fun p => p.arrival_time ≤ time + min q (rem current.pid)) ++
              (rest ++ (pending.dropWhile (fun p => p.arrival_time ≤ time)).takeWhile
                (fun p => p.arrival_time ≤ time + min q (rem current.pid))))).Perm
            (pending ++ ready) := by
          have h0 := @live_perm_step
            (pending.takeWhile (fun p => p.arrival_time ≤ time))
            ((pending.dropWhile (fun p => p.arrival_time ≤ time)).takeWhile
              (fun p => p.arrival_time ≤ time + min q (rem current.pid)))
            ((pending.dropWhile (fun p => p.arrival_time ≤ time)).dropWhile
              (fun p => p.arrival_time ≤ time + min q (rem current.pid)))
            ready rest current hq1
          rw [← hpend] at h0
          exact h0
        have hcur : 1 ≤ rem current.pid :=
          h4 current (hperm.subset (by simp))
        have hexec1 : 1 ≤ min q (rem current.pid) := le_min hq hcur
        have hexec2 : min q (rem current.pid) ≤ rem current.pid := min_le_right _ _
        have hnd0 := ((hperm.map Process.pid).symm).nodup hnd
        rw [List.map_cons, List.nodup_cons] at hnd0
        obtain ⟨hcurnot, hnd'⟩ := hnd0
        have hnotin : ∀ p ∈ (pending.dropWhile (fun p => p.arrival_time ≤ time)).dropWhile
              (fun p => p.arrival_time ≤ time + min q (rem current.pid)) ++
            (rest ++ (pending.dropWhile (fun p => p.arrival_time ≤ time)).takeWhile
              (fun p => p.arrival_time ≤ time + min q (rem current.pid))),
            p.pid ≠ current.pid := by
          intro p hp hpe
          apply hcurnot
          have hmem := List.mem_map_of_mem Process.pid hp
          rwa [hpe] at hmem
        have hsub : ∀ p ∈ (pending.dropWhile (fun p => p.arrival_time ≤ time)).dropWhile
              (fun p => p.arrival_time ≤ time + min q (rem current.pid)) ++
            (rest ++ (pending.dropWhile (fun p => p.arrival_time ≤ time)).takeWhile
              (fun p => p.arrival_time ≤ time + min q (rem current.pid))),
            p ∈ pending ++ ready :=
          fun p hp => hperm.subset (List.mem_cons_of_mem current hp)
        have harr2 : ∀ p ∈ (current :: rest), p.arrival_time ≤ time := by
          rw [← hq1]
          intro p hp
          rcases List.mem_append.mp hp with hpr | hpt
          · exact h2 p hpr
          · exact mem_takeWhile_arrival hpt
        have hsortP2 : List.Pairwise (fun p r => p.arrival_time ≤ r.arrival_time)
            ((pending.dropWhile (fun p => p.arrival_time ≤ time)).dropWhile
              (fun p => p.arrival_time ≤ time + min q (rem current.pid))) :=
          hsort.sublist ((List.dropWhile_sublist _).trans (List.dropWhile_sublist _))
        have h2' : ∀ p ∈ rest ++ (pending.dropWhile (fun p => p.arrival_time ≤ time)).takeWhile
              (fun p => p.arrival_time ≤ time + min q (rem current.pid)),
            p.arrival_time ≤ time + min q (rem current.pid) := by
          intro p hp
          rcases List.mem_append.mp hp with hpr | hpt
          · have := harr2 p (List.mem_cons_of_mem current hpr)
            omega
          · exact mem_takeWhile_arrival hpt
        have hcnt0 : (pending ++ ready).countP (fun p =>
              decide (p.arrival_time ≤ time) &&
              decide (0 < rem p.pid)) = rest.length + 1 := by
          have hcg : (pending ++ ready).countP (fun p =>
              decide (p.arrival_time ≤ time) && decide (0 < rem p.pid)) =
              (pending ++ ready).countP (fun p => decide (p.arrival_time ≤ time)) := by
            refine List.countP_congr (fun p hp => ?_)
            have := h4 p hp
            have h0p : 0 < rem p.pid := by omega
            simp [h0p]
          rw [hcg, List.countP_append]
          have hpc : pending.countP (fun p => decide (p.arrival_time ≤ time)) =
              (pending.takeWhile (fun p => p.arrival_time ≤ time)).length := by
            conv_lhs => rw [← hsplit1]
            rw [List.countP_append]
            have ht : (pending.takeWhile (fun p => p.arrival_time ≤ time)).countP
                (fun p => decide (p.arrival_time ≤ time)) =
                (pending.takeWhile (fun p => p.arrival_time ≤ time)).length :=
              List.countP_eq_length.mpr (fun p hp => by
                simpa using mem_takeWhile_arrival hp)
            have hd : (pending.dropWhile (fun p => p.arrival_time ≤ time)).countP
                (fun p => decide (p.arrival_time ≤ time)) = 0 :=
              List.countP_eq_zero.mpr (fun p hp => by
                simpa using dropWhile_arrival_gt time hsort p hp)
            rw [ht, hd]
            omega
          have hrc : ready.countP (fun p => decide (p.arrival_time ≤ time)) =
              ready.length :=
            List.countP_eq_length.mpr (fun p hp => by simpa using h2 p hp)
          rw [hpc, hrc]
          have hlq := congrArg List.length hq1
          simp only [List.length_append, List.length_cons] at hlq
          omega
        by_cases hreq : Function.update rem current.pid
            (rem current.pid - min q (rem current.pid)) current.pid > 0
        · rw [if_pos hreq] at hsome
          obtain ⟨g', hrec, hg⟩ := Option.map_eq_some'.mp hsome
          subst hg
          rw [Function.update_same] at hreq
          obtain ⟨hF', hS', hH', hJ'⟩ := ih _ _ _ _ _ g' hrec
            (((((append_concat_perm _ _ current).trans hperm).map
              Process.pid).symm).nodup hnd)
            (by
              intro p hp'
              have hp'' := (append_concat_perm _ _ current).subset hp'
              rcases List.mem_cons.mp hp'' with rfl | hpmem
              · rw [Function.update_same]
                omega
              · rw [Function.update_noteq (hnotin p hpmem)]
                exact h4 p (hsub p hpmem))
            hsortP2
            (by
              intro p hp'
              rcases List.mem_append.mp hp' with hpr | hpcur
              · exact h2' p hpr
              · have : p = current := by simpa using hpcur
                subst this
                have := harr2 p (by simp)
                omega)
          have hpermL := (append_concat_perm
            ((pending.dropWhile (fun p => p.arrival_time ≤ time)).dropWhile
              (fun p => p.arrival_time ≤ time + min q (rem current.pid)))
            (rest ++ (pending.dropWhile (fun p => p.arrival_time ≤ time)).takeWhile
              (fun p => p.arrival_time ≤ time + min q (rem current.pid)))
            current).trans hperm
          have hshift : ∀ (j : Nat) (pid : String),
              execBefore (GanttEntry.mk (some current.pid) time
                  (time + min q (rem current.pid))
                  (s (rest.length + 1) time a) :: g') (j + 1) pid =
                (if current.pid = pid then min q (rem current.pid) else 0) +
                  execBefore g' j pid := by
            intro j pid
            rw [execBefore_cons]
            by_cases hpc : current.pid = pid
            · rw [if_pos (by rw [hpc]), if_pos hpc]
              show time + min q (rem current.pid) - time + execBefore g' j pid = _
              omega
            · rw [if_neg (by simpa using hpc), if_neg hpc]
          have hDtrans : ∀ (j : Nat) (pid : String),
              rem pid - execBefore (GanttEntry.mk (some current.pid) time
                  (time + min q (rem current.pid))
                  (s (rest.length + 1) time a) :: g') (j + 1) pid =
                Function.update rem current.pid
                  (rem current.pid - min q (rem current.pid)) pid -
                  execBefore g' j pid := by
            intro j pid
            rw [hshift j pid]
            by_cases hpc : current.pid = pid
            · subst hpc
              rw [Function.update_same, if_pos rfl]
              ring
            · rw [Function.update_noteq (Ne.symm hpc), if_neg hpc]
              ring
          have hPtrans : ∀ (j : Nat) (pid : String),
              (execBefore (GanttEntry.mk (some current.pid) time
                  (time + min q (rem current.pid))
                  (s (rest.length + 1) time a) :: g') (j + 1) pid < rem pid) ↔
              (execBefore g' j pid <
                Function.update rem current.pid
                  (rem current.pid - min q (rem current.pid)) pid) := by
            intro j pid
            have := hDtrans j pid
            omega
          refine ⟨?_, ?_, ?_, ?_⟩
          · intro e he
            rcases List.mem_cons.mp he with rfl | he'
            · exact ⟨le_refl _, by show time ≤ time + min q (rem current.pid); omega⟩
            · have h1 := (hF' e he').1
              exact ⟨by omega, (hF' e he').2⟩
          · intro h0
            rfl
          · intro j hj1
            cases j with
            | zero =>
              show (g'.get ⟨0, Nat.lt_of_succ_lt_succ hj1⟩).start =
                time + min q (rem current.pid)
              exact hS' _
            | succ j =>
              simp only [List.get_cons_succ]
              exact hH' j (Nat.lt_of_succ_lt_succ hj1)
          · intro j hj
            cases j with
            | zero =>
              refine ⟨?_, ?_, fun hpid => by simp at hpid⟩
              · intro pid hpid
                have hpe : current.pid = pid := by injection hpid
                subst hpe
                rw [execBefore_zero]
                show time + min q (rem current.pid) - time =
                  min q (rem current.pid - 0)
                omega
              · intro _
                show s (rest.length + 1) time a =
                  s ((pending ++ ready).countP (fun p =>
                    decide (p.arrival_time ≤ time) &&
                    decide (0 < rem p.pid))) time a
                rw [hcnt0]
            | succ j =>
              have hj' : j < g'.length := by
                simp only [List.length_cons] at hj
                omega
              obtain ⟨hD', hE', hI'⟩ := hJ' j hj'
              simp only [List.get_cons_succ]
              refine ⟨?_, ?_, ?_⟩
              · intro pid hpid
                rw [hDtrans j pid]
                exact hD' pid hpid
              · intro hpid
                have hcnt : (pending ++ ready).countP (fun (p : Process) =>
                      decide (p.arrival_time ≤
                        (g'.get ⟨j, Nat.lt_of_succ_lt_succ hj⟩).start) &&
                      decide (execBefore (GanttEntry.mk (some current.pid) time
                        (time + min q (rem current.pid))
                        (s (rest.length + 1) time a) :: g') (j + 1) p.pid <
                        rem p.pid)) =
                    ((pending.dropWhile (fun p => p.arrival_time ≤ time)).dropWhile
                        (fun p => p.arrival_time ≤ time + min q (rem current.pid)) ++
                      ((rest ++ (pending.dropWhile (fun p => p.arrival_time ≤ time)).takeWhile
                        (fun p => p.arrival_time ≤ time + min q (rem current.pid))) ++
                       [current])).countP (fun (p : Process) =>
                      decide (p.arrival_time ≤
                        (g'.get ⟨j, Nat.lt_of_succ_lt_succ hj⟩).start) &&
                      decide (execBefore g' j p.pid <
                        Function.update rem current.pid
                          (rem current.pid - min q (rem current.pid)) p.pid)) := by
                  rw [← hpermL.countP_eq]
                  refine List.countP_congr (fun p _ => ?_)
                  simp only [decide_eq_decide.mpr (hPtrans j p.pid)]
                rw [hcnt]
                exact hE' hpid
              · intro hpid
                obtain ⟨hlow, hlt, hall, hex⟩ := hI' hpid
                refine ⟨hlow, hlt, ?_, ?_⟩
                · intro p hp hunf
                  exact hall p (hpermL.symm.subset hp) ((hPtrans j p.pid).mp hunf)
                · obtain ⟨p, hpmem, hunf, harr⟩ := hex
                  exact ⟨p, hpermL.subset hpmem, (hPtrans j p.pid).mpr hunf, harr⟩
        · rw [if_neg hreq] at hsome
          obtain ⟨g', hrec, hg⟩ := Option.map_eq_some'.mp hsome
          subst hg
          rw [Function.update_same] at hreq
          have hfin : rem current.pid ≤ min q (rem current.pid) := by omega
          obtain ⟨hF', hS', hH', hJ'⟩ := ih _ _ _ _ _ g' hrec hnd'
            (by
              intro p hp'
              rw [Function.update_noteq (hnotin p hp')]
              exact h4 p (hsub p hp'))
            hsortP2 h2'
          have hshift : ∀ (j : Nat) (pid : String),
              execBefore (GanttEntry.mk (some current.pid) time
                  (time + min q (rem current.pid))
                  (s (rest.length + 1) time a) :: g') (j + 1) pid =
                (if current.pid = pid then min q (rem current.pid) else 0) +
                  execBefore g' j pid := by
            intro j pid
            rw [execBefore_cons]
            by_cases hpc : current.pid = pid
            · rw [if_pos (by rw [hpc]), if_pos hpc]
              show time + min q (rem current.pid) - time + execBefore g' j pid = _
              omega
            · rw [if_neg (by simpa using hpc), if_neg hpc]
          have hDtrans : ∀ (j : Nat) (pid : String),
              rem pid - execBefore (GanttEntry.mk (some current.pid) time
                  (time + min q (rem current.pid))
                  (s (rest.length + 1) time a) :: g') (j + 1) pid =
                Function.update rem current.pid
                  (rem current.pid - min q (rem current.pid)) pid -
                  execBefore g' j pid := by
            intro j pid
            rw [hshift j pid]
            by_cases hpc : current.pid = pid
            · subst hpc
              rw [Function.update_same, if_pos rfl]
              ring
            · rw [Function.update_noteq (Ne.symm hpc), if_neg hpc]
              ring
          have hPtrans : ∀ (j : Nat) (pid : String),
              (execBefore (GanttEntry.mk (some current.pid) time
                  (time + min q (rem current.pid))
                  (s (rest.length + 1) time a) :: g') (j + 1) pid < rem pid) ↔
              (execBefore g' j pid <
                Function.update rem current.pid
                  (rem current.pid - min q (rem current.pid)) pid) := by
            intro j pid
            have := hDtrans j pid
            omega
          have hcurN : ∀ (j : Nat),
              ¬ (execBefore (GanttEntry.mk (some current.pid) time
                  (time + min q (rem current.pid))
                  (s (rest.length + 1) time a) :: g') (j + 1) current.pid <
                rem current.pid) := by
            intro j
            rw [hshift j current.pid, if_pos rfl]
            have hnn := execBefore_nonneg (fun e he => (hF' e he).2) j current.pid
            omega
          have hcntC : ∀ (j : Nat) (st : Int),
              (pending ++ ready).countP (fun (p : Process) =>
                decide (p.arrival_time ≤ st) &&
                decide (execBefore (GanttEntry.mk (some current.pid) time
                  (time + min q (rem current.pid))
                  (s (rest.length + 1) time a) :: g') (j + 1) p.pid <
                  rem p.pid)) =
              ((pending.dropWhile (fun p => p.arrival_time ≤ time)).dropWhile
                  (fun p => p.arrival_time ≤ time + min q (rem current.pid)) ++
                (rest ++ (pending.dropWhile (fun p => p.arrival_time ≤ time)).takeWhile
                  (fun p => p.arrival_time ≤ time + min q (rem current.pid)))).countP
                (fun (p : Process) =>
                decide (p.arrival_time ≤ st) &&
                decide (execBefore g' j p.pid <
                  Function.update rem current.pid
                    (rem current.pid - min q (rem current.pid)) p.pid)) := by
            intro j st
            have hfalse : (decide (current.arrival_time ≤ st) &&
                decide (execBefore (GanttEntry.mk (some current.pid) time
                  (time + min q (rem current.pid))
                  (s (rest.length + 1) time a) :: g') (j + 1) current.pid <
                  rem current.pid)) = false := by
              have := hcurN j
              simp [this]
            calc (pending ++ ready).countP (fun (p : Process) =>
                decide (p.arrival_time ≤ st) &&
                decide (execBefore (GanttEntry.mk (some current.pid) time
                  (time + min q (rem current.pid))
                  (s (rest.length + 1) time a) :: g') (j + 1) p.pid <
                  rem p.pid)) =
                (current :: ((pending.dropWhile (fun p => p.arrival_time ≤ time)).dropWhile
                    (fun p => p.arrival_time ≤ time + min q (rem current.pid)) ++
                  (rest ++ (pending.dropWhile (fun p => p.arrival_time ≤ time)).takeWhile
                    (fun p => p.arrival_time ≤ time + min q (rem current.pid))))).countP
                  (fun (p : Process) =>
                  decide (p.arrival_time ≤ st) &&
                  decide (execBefore (GanttEntry.mk (some current.pid) time
                    (time + min q (rem current.pid))
                    (s (rest.length + 1) time a) :: g') (j + 1) p.pid <
                    rem p.pid)) := (hperm.countP_eq _).symm
              _ = ((pending.dropWhile (fun p => p.arrival_time ≤ time)).dropWhile
                    (fun p => p.arrival_time ≤ time + min q (rem current.pid)) ++
                  (rest ++ (pending.dropWhile (fun p => p.arrival_time ≤ time)).takeWhile
                    (fun p => p.arrival_time ≤ time + min q (rem current.pid)))).countP
                  (fun (p : Process) =>
                  decide (p.arrival_time ≤ st) &&
                  decide (execBefore (GanttEntry.mk (some current.pid) time
                    (time + min q (rem current.pid))
                    (s (rest.length + 1) time a) :: g') (j + 1) p.pid <
                    rem p.pid)) := by
                  rw [List.countP_cons, hfalse]
                  simp
              _ = _ := by
                refine List.countP_congr (fun p _ => ?_)
                simp only [decide_eq_decide.mpr (hPtrans j p.pid)]
          refine ⟨?_, ?_, ?_, ?_⟩
          · intro e he
            rcases List.mem_cons.mp he with rfl | he'
            · exact ⟨le_refl _, by show time ≤ time + min q (rem current.pid); omega⟩
            · have h1 := (hF' e he').1
              exact ⟨by omega, (hF' e he').2⟩
          · intro h0
            rfl
          · intro j hj1
            cases j with
            | zero =>
              show (g'.get ⟨0, Nat.lt_of_succ_lt_succ hj1⟩).start =
                time + min q (rem current.pid)
              exact hS' _
            | succ j =>
              simp only [List.get_cons_succ]
              exact hH' j (Nat.lt_of_succ_lt_succ hj1)
          · intro j hj
            cases j with
            | zero =>
              refine ⟨?_, ?_, fun hpid => by simp at hpid⟩
              · intro pid hpid
                have hpe : current.pid = pid := by injection hpid
                subst hpe
                rw [execBefore_zero]
                show time + min q (rem current.pid) - time =
                  min q (rem current.pid - 0)
                omega
              · intro _
                show s (rest.length + 1) time a =
                  s ((pending ++ ready).countP (fun p =>
                    decide (p.arrival_time ≤ time) &&
                    decide (0 < rem p.pid))) time a
                rw [hcnt0]
            | succ j =>
              have hj' : j < g'.length := by
                simp only [List.length_cons] at hj
                omega
              obtain ⟨hD', hE', hI'⟩ := hJ' j hj'
              simp only [List.get_cons_succ]
              refine ⟨?_, ?_, ?_⟩
              · intro pid hpid
                rw [hDtrans j pid]
                exact hD' pid hpid
              · intro hpid
                rw [hcntC j (g'.get ⟨j, Nat.lt_of_succ_lt_succ hj⟩).start]
                exact hE' hpid
              · intro hpid
                obtain ⟨hlow, hlt, hall, hex⟩ := hI' hpid
                refine ⟨hlow, hlt, ?_, ?_⟩
                · intro p hp hunf
                  rcases List.mem_cons.mp (hperm.symm.subset hp) with rfl | hpm
                  · exact absurd hunf (hcurN j)
                  · exact hall p hpm ((hPtrans j p.pid).mp hunf)
                · obtain ⟨p, hpmem, hunf, harr⟩ := hex
                  exact ⟨p, hperm.subset (List.mem_cons_of_mem current hpmem),
                    (hPtrans j p.pid).mpr hunf, harr⟩
    · rw [if_neg hc] at hsome
      have hg : ([] : List GanttEntry) = g := by injection hsome
      subst hg
      exact ⟨fun e he => absurd he (by simp), fun h0 => absurd h0 (by simp),
        fun j hj1 => absurd hj1 (by simp), fun j hj => absurd hj (by simp)⟩

/-- Claim C4: round-robin slice mechanics.  In `simulate_rr(processes,
quantum, freq_strategy, algo_name)` = some r: (1) every dispatched slice
lasts exactly min(quantum, remaining time of its process at that dispatch);
(2) slices start at the current clock — the first entry starts at the
initial clock and every entry starts where the previous one stopped;
(3) the frequency of a dispatched slice is the strategy applied to the
number of arrived, not-yet-finished processes (the ready queue including
the process about to run) at the moment the slice begins; (4) one loop
step from any dispatch state emits the head of the ready queue for
min(quantum, remaining), admits the arrivals that fell during the slice in
arrival order, and then re-appends the just-run process at the back when
its remaining time is positive, otherwise marks it completed. -/
theorem claim_C4 (processes : List Process) (quantum : Int)
    (s : Nat → Int → String → String) (a : String) (r : SimulationResult)
    (hq : 1 ≤ quantum) (hb : ∀ p ∈ processes, 1 ≤ p.burst_time)
    (hnd : (processes.map Process.pid).Nodup)
    (h : simulate_rr processes quantum s a = some r) :
    (∀ (j : Nat) (hj : j < r.gantt.length) (pid : String),
      (r.gantt.get ⟨j, hj⟩).pid = some pid →
      (r.gantt.get ⟨j, hj⟩).stop - (r.gantt.get ⟨j, hj⟩).start =
        min quantum (initRemaining processes pid - execBefore r.gantt j pid)) ∧
    (∀ h0 : 0 < r.gantt.length, (r.gantt.get ⟨0, h0⟩).start =
      (match sortK (fun p => p.arrival_time) processes with
       | [] => 0
       | p :: _ => p.arrival_time)) ∧
    (∀ (j : Nat) (hj1 : j + 1 < r.gantt.length),
      (r.gantt.get ⟨j + 1, hj1⟩).start =
        (r.gantt.get ⟨j, Nat.lt_of_succ_lt hj1⟩).stop) ∧
    (∀ (j : Nat) (hj : j < r.gantt.length), (r.gantt.get ⟨j, hj⟩).pid.isSome →
      (r.gantt.get ⟨j, hj⟩).freq_level =
        s (processes.countP (fun (p : Process) =>
            decide (p.arrival_time ≤ (r.gantt.get ⟨j, hj⟩).start) &&
            decide (execBefore r.gantt j p.pid < p.burst_time)))
          (r.gantt.get ⟨j, hj⟩).start a) ∧
    (∀ (fuel : Nat) (pending ready : List Process) (rem : String → Int)
       (completed : List String) (time : Int) (current : Process)
       (rest : List Process),
      completed.length < processes.length →
      ready ++ pending.takeWhile (fun p => p.arrival_time ≤ time) =
        current :: rest →
      rrLoop s quantum a processes.length (fuel + 1) pending ready rem
          completed time =
        (if rem current.pid - min quantum (rem current.pid) > 0 then
          rrLoop s quantum a processes.length fuel
            ((pending.dropWhile (fun p => p.arrival_time ≤ time)).dropWhile
              (fun p => p.arrival_time ≤ time + min quantum (rem current.pid)))
            ((rest ++ (pending.dropWhile (fun p => p.arrival_time ≤ time)).takeWhile
              (fun p => p.arrival_time ≤ time + min quantum (rem current.pid))) ++
              [current])
            (Function.update rem current.pid
              (rem current.pid - min quantum (rem current.pid)))
            completed (time + min quantum (rem current.pid))
        else
          rrLoop s quantum a processes.length fuel
            ((pending.dropWhile (fun p => p.arrival_time ≤ time)).dropWhile
              (fun p => p.arrival_time ≤ time + min quantum (rem current.pid)))
            (rest ++ (pending.dropWhile (fun p => p.arrival_time ≤ time)).takeWhile
              (fun p => p.arrival_time ≤ time + min quantum (rem current.pid)))
            (Function.update rem current.pid
              (rem current.pid - min quantum (rem current.pid)))
            (completed.insert current.pid)
            (time + min quantum (rem current.pid))).map
        (fun g => GanttEntry.mk (some current.pid) time
          (time + min quantum (rem current.pid)) (s (rest.length + 1) time a)
          :: g)) := by
  simp only [simulate_rr] at h
  obtain ⟨g, hG, hr⟩ := Option.map_eq_some'.mp h
  have hrg : r.gantt = g := by
    rw [← hr]
    rfl
  have hpermA := sortK_perm (fun p => p.arrival_time) processes
  have hndA : (((sortK (fun p => p.arrival_time) processes) ++ []).map
      Process.pid).Nodup := by
    rw [List.append_nil]
    exact ((hpermA.map Process.pid).symm).nodup hnd
  have h4A : ∀ p ∈ (sortK (fun p => p.arrival_time) processes) ++ [],
      1 ≤ initRemaining processes p.pid := by
    intro p hp
    rw [List.append_nil] at hp
    rw [initRemaining_eq hnd (hpermA.subset hp)]
    exact hb p (hpermA.subset hp)
  have hsortA : List.Pairwise (fun p r => p.arrival_time ≤ r.arrival_time)
      (sortK (fun p => p.arrival_time) processes) :=
    sortK_pairwise (fun p => p.arrival_time) processes
  obtain ⟨hF, hS, hH, hJ⟩ := rrLoop_perEntry s quantum a processes.length hq
    (rrFuel processes) (sortK (fun p => p.arrival_time) processes) []
    (initRemaining processes) []
    (match sortK (fun p => p.arrival_time) processes with
     | [] => 0
     | p :: _ => p.arrival_time)
    g hG hndA h4A hsortA (fun p hp => absurd hp (by simp))
  have hcnt : ∀ (jj : Nat) (st : Int),
      ((sortK (fun p => p.arrival_time) processes) ++ []).countP
        (fun (p : Process) => decide (p.arrival_time ≤ st) &&
          decide (execBefore g jj p.pid < initRemaining processes p.pid)) =
      processes.countP (fun (p : Process) => decide (p.arrival_time ≤ st) &&
        decide (execBefore g jj p.pid < p.burst_time)) := by
    intro jj st
    rw [List.append_nil, hpermA.countP_eq]
    refine List.countP_congr (fun p hp => ?_)
    rw [initRemaining_eq hnd hp]
  subst hrg
  refine ⟨?_, hS, hH, ?_, ?_⟩
  · intro j hj pid hpid
    exact (hJ j hj).1 pid hpid
  · intro j hj hpid
    have hfreq := (hJ j hj).2.1 hpid
    rw [hcnt j ((r.gantt.get ⟨j, hj⟩).start)] at hfreq
    exact hfreq
  · intro fuel pending ready rem completed time current rest hc hq1
    rw [rrLoop, if_pos hc, hq1]
    simp only []
    rw [Function.update_same]

theorem claim_C4_witness :
    ((1 : Int) ≤ 2 ∧ (∀ p ∈ demoProcs, 1 ≤ p.burst_time) ∧
      (demoProcs.map Process.pid).Nodup ∧
      simulate_rr demoProcs 2 always_high_strategy "Round Robin" =
        some (compute_metrics demoProcs rrDemoGanttHigh "Round Robin")) ∧
    (∀ (j : Nat) (hj : j < (compute_metrics demoProcs rrDemoGanttHigh
          "Round Robin").gantt.length) (pid : String),
      ((compute_metrics demoProcs rrDemoGanttHigh "Round Robin").gantt.get
        ⟨j, hj⟩).pid = some pid →
      ((compute_metrics demoProcs rrDemoGanttHigh "Round Robin").gantt.get
          ⟨j, hj⟩).stop -
        ((compute_metrics demoProcs rrDemoGanttHigh "Round Robin").gantt.get
          ⟨j, hj⟩).start =
        min 2 (initRemaining demoProcs pid -
          execBefore (compute_metrics demoProcs rrDemoGanttHigh
            "Round Robin").gantt j pid)) := by
  have h1 : simulate_rr demoProcs 2 always_high_strategy "Round Robin" =
      some (compute_metrics demoProcs rrDemoGanttHigh "Round Robin") := by
    have hG : rrLoop always_high_strategy 2 "Round Robin" demoProcs.length
        (rrFuel demoProcs) (sortK (fun p => p.arrival_time) demoProcs) []
        (initRemaining demoProcs) []
        (match sortK (fun p => p.arrival_time) demoProcs with
         | [] => 0
         | p :: _ => p.arrival_time) = some rrDemoGanttHigh := by decide
    show (rrLoop always_high_strategy 2 "Round Robin" demoProcs.length
        (rrFuel demoProcs) (sortK (fun p => p.arrival_time) demoProcs) []
        (initRemaining demoProcs) []
        (match sortK (fun p => p.arrival_time) demoProcs with
         | [] => 0
         | p :: _ => p.arrival_time)).map
      (fun g => compute_metrics demoProcs g "Round Robin") =
      some (compute_metrics demoProcs rrDemoGanttHigh "Round Robin")
    rw [hG]
    rfl
  exact ⟨⟨by decide, by decide, by decide, h1⟩,
    (claim_C4 demoProcs 2 always_high_strategy "Round Robin"
      (compute_metrics demoProcs rrDemoGanttHigh "Round Robin")
      (by decide) (by decide) (by decide) h1).1⟩

/-! ### Claim C6: idle handling -/

/-- Idle-entry facts of the shared non-preemptive loop: an idle entry is
low-frequency, has positive length, and spans exactly to the earliest
arrival among the processes not yet dispatched — all of which are still
in the future at that moment. -/
theorem npLoop_idle (pick : List Process → List Process)
    (hpick : ∀ l, (pick l).Perm l) (s : Nat → Int → String → String)
    (a : String) :
    ∀ (fuel : Nat) pending ready time g,
      npLoop pick s a fuel pending ready time = some g →
      ((pending ++ ready).map Process.pid).Nodup →
      List.Pairwise (fun p r => p.arrival_time ≤ r.arrival_time) pending →
      (∀ p ∈ ready, p.arrival_time ≤ time) →
      (∀ p ∈ pending ++ ready, 1 ≤ p.burst_time) →
      (∀ e ∈ g, time ≤ e.start ∧ e.start ≤ e.stop) ∧
      ∀ (j : Nat) (hj : j < g.length), (g.get ⟨j, hj⟩).pid = none →
        (g.get ⟨j, hj⟩).freq_level = "low" ∧
        (g.get ⟨j, hj⟩).start < (g.get ⟨j, hj⟩).stop ∧
        (∀ p ∈ pending ++ ready, entriesOf (g.take j) p.pid = [] →
          (g.get ⟨j, hj⟩).stop ≤ p.arrival_time) ∧
        (∃ p ∈ pending ++ ready, entriesOf (g.take j) p.pid = [] ∧
          p.arrival_time = (g.get ⟨j, hj⟩).stop) := by
  intro fuel
  induction fuel with
  | zero =>
    intro pending ready time g hsome
    simp [npLoop] at hsome
  | succ fuel ih =>
    intro pending ready time g hsome hnd hsort h2 h5
    rw [npLoop] at hsome
    by_cases hemp : (pending.isEmpty && ready.isEmpty) = true
    · rw [if_pos hemp] at hsome
      have hg : ([] : List GanttEntry) = g := by injection hsome
      subst hg
      exact ⟨fun e he => absurd he (by simp), fun j hj => absurd hj (by simp)⟩
    · rw [if_neg hemp] at hsome
      cases hq1 : ready ++ pending.takeWhile (fun p => p.arrival_time ≤ time) with
      | nil =>
        rw [hq1] at hsome
        rcases List.append_eq_nil.mp hq1 with ⟨hready, htw⟩
        have hdw : pending.dropWhile (fun p => p.arrival_time ≤ time) = pending :=
          dropWhile_of_takeWhile_nil _ _ htw
        cases hp1 : pending.dropWhile (fun p => p.arrival_time ≤ time) with
        | nil =>
          rw [hdw] at hp1
          subst hp1
          subst hready
          simp at hemp
        | cons qq qs =>
          rw [hp1] at hsome
          rw [hdw] at hp1
          subst hp1
          subst hready
          obtain ⟨g', hrec, hg⟩ := Option.map_eq_some'.mp hsome
          subst hg
          have hfail : ¬ (qq.arrival_time ≤ time) := by
            have := takeWhile_nil_head _ _ _ htw
            simpa using this
          obtain ⟨hF, hJ⟩ := ih (qq :: qs) [] qq.arrival_time g' hrec hnd hsort
            (fun p hp => absurd hp (by simp)) h5
          refine ⟨?_, ?_⟩
          · intro e he
            rcases List.mem_cons.mp he with rfl | he'
            · exact ⟨le_refl _, by show time ≤ qq.arrival_time; omega⟩
            · have h1 := (hF e he').1
              exact ⟨by omega, (hF e he').2⟩
          · intro j hj
            cases j with
            | zero =>
              intro _
              refine ⟨rfl, by show time < qq.arrival_time; omega, ?_, ?_⟩
              · intro p hp _
                show qq.arrival_time ≤ p.arrival_time
                rw [List.append_nil] at hp
                rcases List.mem_cons.mp hp with rfl | hpq
                · exact le_refl _
                · exact (List.pairwise_cons.mp hsort).1 p hpq
              · exact ⟨qq, by simp, rfl, rfl⟩
            | succ j =>
              have hj' : j < g'.length := by
                simp only [List.length_cons] at hj
                omega
              intro hpid
              simp only [List.get_cons_succ] at hpid ⊢
              obtain ⟨hlow, hlt, hall, hex⟩ := hJ j hj' hpid
              have hno : ∀ pid : String, (none : Option String) ≠ some pid := by
                simp
              refine ⟨hlow, hlt, ?_, ?_⟩
              · intro p hp hpred
                rw [List.take_succ_cons, entriesOf_cons_nomatch _ (hno p.pid)]
                  at hpred
                exact hall p hp hpred
              · obtain ⟨p, hpmem, hpred, harr⟩ := hex
                refine ⟨p, hpmem, ?_, harr⟩
                rw [List.take_succ_cons, entriesOf_cons_nomatch _ (hno p.pid)]
                exact hpred
      | cons r rs =>
        rw [hq1] at hsome
        cases hsel : pick (r :: rs) with
        | nil =>
          have hlen := (hpick (r :: rs)).length_eq
          rw [hsel] at hlen
          simp at hlen
        | cons current rest =>
          simp only [hsel] at hsome
          obtain ⟨g', hrec, hg⟩ := Option.map_eq_some'.mp hsome
          subst hg
          rw [← hq1] at hsel
          have hperm := np_live_perm pick hpick hsel
          have hnd0 : ((current ::
              (pending.dropWhile (fun p => p.arrival_time ≤ time) ++ rest)).map
              Process.pid).Nodup := ((hperm.map Process.pid).symm).nodup hnd
          rw [List.map_cons, List.nodup_cons] at hnd0
          obtain ⟨hcurnot, hnd'⟩ := hnd0
          have hcur5 : 1 ≤ current.burst_time :=
            h5 current (hperm.subset (by simp))
          have hcurarr : current.arrival_time ≤ time := by
            have hcm : current ∈ ready ++ pending.takeWhile
                (fun p => p.arrival_time ≤ time) :=
              (hpick _).subset (by rw [hsel]; simp)
            rcases List.mem_append.mp hcm with hpr | hpt
            · exact h2 current hpr
            · exact mem_takeWhile_arrival hpt
          have h2' : ∀ p ∈ rest,
              p.arrival_time ≤ max time current.arrival_time +
                current.burst_time := by
            intro p hp
            have hcm : p ∈ ready ++ pending.takeWhile
                (fun p => p.arrival_time ≤ time) :=
              (hpick _).subset (by rw [hsel]; exact List.mem_cons_of_mem _ hp)
            have harr : p.arrival_time ≤ time := by
              rcases List.mem_append.mp hcm with hpr | hpt
              · exact h2 p hpr
              · exact mem_takeWhile_arrival hpt
            have hmx : time ≤ max time current.arrival_time := le_max_left _ _
            omega
          have hsort' : List.Pairwise (fun p r => p.arrival_time ≤ r.arrival_time)
              (pending.dropWhile (fun p => p.arrival_time ≤ time)) :=
            hsort.sublist (List.dropWhile_sublist _)
          have h5' : ∀ p ∈ pending.dropWhile (fun p => p.arrival_time ≤ time) ++
              rest, 1 ≤ p.burst_time :=
            fun p hp => h5 p (hperm.subset (List.mem_cons_of_mem current hp))
          obtain ⟨hF, hJ⟩ := ih
            (pending.dropWhile (fun p => p.arrival_time ≤ time)) rest
            (max time current.arrival_time + current.burst_time) g' hrec hnd'
            hsort' h2' h5'
          have hnotin : ∀ p ∈ pending.dropWhile (fun p => p.arrival_time ≤ time)
              ++ rest, (some current.pid : Option String) ≠ some p.pid := by
            intro p hp hpe
            apply hcurnot
            have hmem := List.mem_map_of_mem Process.pid hp
            have : current.pid = p.pid := by injection hpe
            rwa [this]
          have hmx : time ≤ max time current.arrival_time := le_max_left _ _
          refine ⟨?_, ?_⟩
          · intro e he
            rcases List.mem_cons.mp he with rfl | he'
            · refine ⟨hmx, ?_⟩
              show max time current.arrival_time ≤
                max time current.arrival_time + current.burst_time
              omega
            · have h1 := (hF e he').1
              exact ⟨by omega, (hF e he').2⟩
          · intro j hj
            cases j with
            | zero =>
              intro hpid
              exact absurd hpid (by simp)
            | succ j =>
              have hj' : j < g'.length := by
                simp only [List.length_cons] at hj
                omega
              intro hpid
              simp only [List.get_cons_succ] at hpid ⊢
              obtain ⟨hlow, hlt, hall, hex⟩ := hJ j hj' hpid
              refine ⟨hlow, hlt, ?_, ?_⟩
              · intro p hp hpred
                have hp' : p ∈ current ::
                    (pending.dropWhile (fun p => p.arrival_time ≤ time) ++ rest) :=
                  hperm.symm.subset hp
                rcases List.mem_cons.mp hp' with rfl | hpm
                · rw [List.take_succ_cons, entriesOf_cons_match _ rfl] at hpred
                  exact absurd hpred (List.cons_ne_nil _ _)
                · rw [List.take_succ_cons,
                    entriesOf_cons_nomatch _ (hnotin p hpm)] at hpred
                  exact hall p hpm hpred
              · obtain ⟨p, hpmem, hpred, harr⟩ := hex
                refine ⟨p, hperm.subset (List.mem_cons_of_mem current hpmem),
                  ?_, harr⟩
                rw [List.take_succ_cons,
                  entriesOf_cons_nomatch _ (hnotin p hpmem)]
                exact hpred

/-- Idle facts of a full non-preemptive run, phrased over the original
process list. -/
theorem np_idle_top (pick : List Process → List Process)
    (hperm : ∀ l, (pick l).Perm l) (s : Nat → Int → String → String)
    (a : String) (processes : List Process)
    (hnd : (processes.map Process.pid).Nodup)
    (hb : ∀ p ∈ processes, 1 ≤ p.burst_time) (g : List GanttEntry)
    (hg : npLoop pick s a (npFuel processes)
      (sortK (fun p => p.arrival_time) processes) []
      (match sortK (fun p => p.arrival_time) processes with
       | [] => 0
       | p :: _ => p.arrival_time) = some g) :
    ∀ (j : Nat) (hj : j < g.length), (g.get ⟨j, hj⟩).pid = none →
      (g.get ⟨j, hj⟩).freq_level = "low" ∧
      (g.get ⟨j, hj⟩).start < (g.get ⟨j, hj⟩).stop ∧
      (∀ p ∈ processes, entriesOf (g.take j) p.pid = [] →
        (g.get ⟨j, hj⟩).stop ≤ p.arrival_time) ∧
      (∃ p ∈ processes, entriesOf (g.take j) p.pid = [] ∧
        p.arrival_time = (g.get ⟨j, hj⟩).stop) := by
  have hpermA := sortK_perm (fun p => p.arrival_time) processes
  have hndA : (((sortK (fun p => p.arrival_time) processes) ++ []).map
      Process.pid).Nodup := by
    rw [List.append_nil]
    exact ((hpermA.map Process.pid).symm).nodup hnd
  have hsortA : List.Pairwise (fun p r => p.arrival_time ≤ r.arrival_time)
      (sortK (fun p => p.arrival_time) processes) :=
    sortK_pairwise (fun p => p.arrival_time) processes
  have h5A : ∀ p ∈ (sortK (fun p => p.arrival_time) processes) ++ [],
      1 ≤ p.burst_time := by
    intro p hp
    rw [List.append_nil] at hp
    exact hb p (hpermA.subset hp)
  obtain ⟨_, hJ⟩ := npLoop_idle pick hperm s a (npFuel processes)
    (sortK (fun p => p.arrival_time) processes) []
    (match sortK (fun p => p.arrival_time) processes with
     | [] => 0
     | p :: _ => p.arrival_time) g hg hndA hsortA
    (fun p hp => absurd hp (by simp)) h5A
  intro j hj hpid
  obtain ⟨hlow, hlt, hall, hex⟩ := hJ j hj hpid
  refine ⟨hlow, hlt, ?_, ?_⟩
  · intro p hp hpred
    refine hall p ?_ hpred
    rw [List.append_nil]
    exact hpermA.symm.subset hp
  · obtain ⟨p, hpmem, hpred, harr⟩ := hex
    rw [List.append_nil] at hpmem
    exact ⟨p, hpermA.subset hpmem, hpred, harr⟩

/-- Claim C6: idle handling.  In every policy an idle entry is tagged
low frequency regardless of the injected strategy, spans a positive
interval from the clock exactly to the earliest arrival among processes
not yet dispatched (non-preemptive policies) resp. not yet finished (RR),
and at its start no undispatched/unfinished process has arrived — hence
idle never occurs with a non-empty ready set, nor once no process remains. -/
theorem claim_C6 (processes : List Process) (quantum : Int)
    (s : Nat → Int → String → String) (r : SimulationResult) (a : String)
    (hq : 1 ≤ quantum) (hb : ∀ p ∈ processes, 1 ≤ p.burst_time)
    (hnd : (processes.map Process.pid).Nodup)
    (h : simulate_rr processes quantum s a = some r) :
    (∀ g ∈ [(simulate_fcfs processes s).gantt, (simulate_sjf processes s).gantt,
        (simulate_priority processes s).gantt],
      ∀ (j : Nat) (hj : j < g.length), (g.get ⟨j, hj⟩).pid = none →
        (g.get ⟨j, hj⟩).freq_level = "low" ∧
        (g.get ⟨j, hj⟩).start < (g.get ⟨j, hj⟩).stop ∧
        (∀ p ∈ processes, entriesOf (g.take j) p.pid = [] →
          (g.get ⟨j, hj⟩).stop ≤ p.arrival_time) ∧
        (∃ p ∈ processes, entriesOf (g.take j) p.pid = [] ∧
          p.arrival_time = (g.get ⟨j, hj⟩).stop)) ∧
    (∀ (j : Nat) (hj : j < r.gantt.length), (r.gantt.get ⟨j, hj⟩).pid = none →
      (r.gantt.get ⟨j, hj⟩).freq_level = "low" ∧
      (r.gantt.get ⟨j, hj⟩).start < (r.gantt.get ⟨j, hj⟩).stop ∧
      (∀ p ∈ processes, execBefore r.gantt j p.pid < p.burst_time →
        (r.gantt.get ⟨j, hj⟩).stop ≤ p.arrival_time) ∧
      (∃ p ∈ processes, execBefore r.gantt j p.pid < p.burst_time ∧
        p.arrival_time = (r.gantt.get ⟨j, hj⟩).stop)) := by
  constructor
  · intro g hg
    simp only [List.mem_cons] at hg
    rcases hg with hg | hg | hg | hg
    · obtain ⟨g0, hg0, -, -⟩ := npLoop_top (fun l => l) (fun l => rfl)
        (fun l => List.Perm.refl l) s "FCFS" processes hnd
      have hkey := np_idle_top (fun l => l) (fun l => List.Perm.refl l) s
        "FCFS" processes hnd hb g0 hg0
      have hgg : (simulate_fcfs processes s).gantt = g0 := by
        show (npLoop (fun l => l) s "FCFS" (npFuel processes)
          (sortK (fun p => p.arrival_time) processes) []
          (match sortK (fun p => p.arrival_time) processes with
           | [] => 0
           | p :: _ => p.arrival_time)).getD [] = g0
        rw [hg0]
        rfl
      subst hg
      rw [hgg]
      exact hkey
    · obtain ⟨g0, hg0, -, -⟩ := npLoop_top (sortK (fun p => p.burst_time))
        (fun l => length_sortK _ l) (fun l => sortK_perm _ l) s
        "SJF (Non-preemptive)" processes hnd
      have hkey := np_idle_top (sortK (fun p => p.burst_time))
        (fun l => sortK_perm _ l) s "SJF (Non-preemptive)" processes hnd hb g0 hg0
      have hgg : (simulate_sjf processes s).gantt = g0 := by
        show (npLoop (sortK (fun p => p.burst_time)) s "SJF (Non-preemptive)"
          (npFuel processes) (sortK (fun p => p.arrival_time) processes) []
          (match sortK (fun p => p.arrival_time) processes with
           | [] => 0
           | p :: _ => p.arrival_time)).getD [] = g0
        rw [hg0]
        rfl
      subst hg
      rw [hgg]
      exact hkey
    · obtain ⟨g0, hg0, -, -⟩ := npLoop_top (sortK (fun p => p.priority))
        (fun l => length_sortK _ l) (fun l => sortK_perm _ l) s
        "Priority (Non-preemptive)" processes hnd
      have hkey := np_idle_top (sortK (fun p => p.priority))
        (fun l => sortK_perm _ l) s "Priority (Non-preemptive)" processes hnd
        hb g0 hg0
      have hgg : (simulate_priority processes s).gantt = g0 := by
        show (npLoop (sortK (fun p => p.priority)) s "Priority (Non-preemptive)"
          (npFuel processes) (sortK (fun p => p.arrival_time) processes) []
          (match sortK (fun p => p.arrival_time) processes with
           | [] => 0
           | p :: _ => p.arrival_time)).getD [] = g0
        rw [hg0]
        rfl
      subst hg
      rw [hgg]
      exact hkey
    · exact absurd hg (List.not_mem_nil g)
  · simp only [simulate_rr] at h
    obtain ⟨g, hG, hr⟩ := Option.map_eq_some'.mp h
    have hrg : r.gantt = g := by
      rw [← hr]
      rfl
    have hpermA := sortK_perm (fun p => p.arrival_time) processes
    have hndA : (((sortK (fun p => p.arrival_time) processes) ++ []).map
        Process.pid).Nodup := by
      rw [List.append_nil]
      exact ((hpermA.map Process.pid).symm).nodup hnd
    have h4A : ∀ p ∈ (sortK (fun p => p.arrival_time) processes) ++ [],
        1 ≤ initRemaining processes p.pid := by
      intro p hp
      rw [List.append_nil] at hp
      rw [initRemaining_eq hnd (hpermA.subset hp)]
      exact hb p (hpermA.subset hp)
    have hsortA : List.Pairwise (fun p r => p.arrival_time ≤ r.arrival_time)
        (sortK (fun p => p.arrival_time) processes) :=
      sortK_pairwise (fun p => p.arrival_time) processes
    obtain ⟨-, -, -, hJ⟩ := rrLoop_perEntry s quantum a processes.length hq
      (rrFuel processes) (sortK (fun p => p.arrival_time) processes) []
      (initRemaining processes) []
      (match sortK (fun p => p.arrival_time) processes with
       | [] => 0
       | p :: _ => p.arrival_time)
      g hG hndA h4A hsortA (fun p hp => absurd hp (by simp))
    subst hrg
    intro j hj hpid
    obtain ⟨hlow, hlt, hall, hex⟩ := (hJ j hj).2.2 hpid
    refine ⟨hlow, hlt, ?_, ?_⟩
    · intro p hp hunf
      refine hall p ?_ ?_
      · rw [List.append_nil]
        exact hpermA.symm.subset hp
      · rw [initRemaining_eq hnd hp]
        exact hunf
    · obtain ⟨p, hpmem, hunf, harr⟩ := hex
      rw [List.append_nil] at hpmem
      have hpm : p ∈ processes := hpermA.subset hpmem
      refine ⟨p, hpm, ?_, harr⟩
      rw [initRemaining_eq hnd hpm] at hunf
      exact hunf

theorem claim_C6_witness :
    ((1 : Int) ≤ 2 ∧ (∀ p ∈ gapProcs, 1 ≤ p.burst_time) ∧
      (gapProcs.map Process.pid).Nodup ∧
      simulate_rr gapProcs 2 always_high_strategy "Round Robin" =
        some (compute_metrics gapProcs gapGantt "Round Robin")) ∧
    (∀ (j : Nat) (hj : j < (compute_metrics gapProcs gapGantt
          "Round Robin").gantt.length),
      ((compute_metrics gapProcs gapGantt "Round Robin").gantt.get
        ⟨j, hj⟩).pid = none →
      ((compute_metrics gapProcs gapGantt "Round Robin").gantt.get
        ⟨j, hj⟩).freq_level = "low" ∧
      ((compute_metrics gapProcs gapGantt "Round Robin").gantt.get
          ⟨j, hj⟩).start <
        ((compute_metrics gapProcs gapGantt "Round Robin").gantt.get
          ⟨j, hj⟩).stop ∧
      (∀ p ∈ gapProcs,
        execBefore (compute_metrics gapProcs gapGantt "Round Robin").gantt
          j p.pid < p.burst_time →
        ((compute_metrics gapProcs gapGantt "Round Robin").gantt.get
          ⟨j, hj⟩).stop ≤ p.arrival_time) ∧
      (∃ p ∈ gapProcs,
        execBefore (compute_metrics gapProcs gapGantt "Round Robin").gantt
          j p.pid < p.burst_time ∧
        p.arrival_time =
          ((compute_metrics gapProcs gapGantt "Round Robin").gantt.get
            ⟨j, hj⟩).stop)) := by
  have h : simulate_rr gapProcs 2 always_high_strategy "Round Robin" =
      some (compute_metrics gapProcs gapGantt "Round Robin") := by
    have hG : rrLoop always_high_strategy 2 "Round Robin" gapProcs.length
        (rrFuel gapProcs) (sortK (fun p => p.arrival_time) gapProcs) []
        (initRemaining gapProcs) []
        (match sortK (fun p => p.arrival_time) gapProcs with
         | [] => 0
         | p :: _ => p.arrival_time) = some gapGantt := by decide
    show (rrLoop always_high_strategy 2 "Round Robin" gapProcs.length
        (rrFuel gapProcs) (sortK (fun p => p.arrival_time) gapProcs) []
        (initRemaining gapProcs) []
        (match sortK (fun p => p.arrival_time) gapProcs with
         | [] => 0
         | p :: _ => p.arrival_time)).map
      (fun g => compute_metrics gapProcs g "Round Robin") =
      some (compute_metrics gapProcs gapGantt "Round Robin")
    rw [hG]
    rfl
  exact ⟨⟨by decide, by decide, by decide, h⟩,
    (claim_C6 gapProcs 2 always_high_strategy
      (compute_metrics gapProcs gapGantt "Round Robin") "Round Robin"
      (by decide) (by decide) (by decide) h).2⟩

/-! ### Claim C5: selection rule of SJF and Priority -/

theorem pair_sublist_append {l1 l2 : List α} {x y : α}
    (h : [x, y].Sublist (l1 ++ l2)) :
    [x, y].Sublist l1 ∨ [x, y].Sublist l2 ∨ (x ∈ l1 ∧ y ∈ l2) := by
  induction l1 with
  | nil => exact Or.inr (Or.inl h)
  | cons a t ih =>
    rcases List.sublist_cons_iff.mp h with h' | ⟨r, hr, hrs⟩
    · rcases ih h' with h1 | h2 | h3
      · exact Or.inl (h1.trans (List.sublist_cons_self a t))
      · exact Or.inr (Or.inl h2)
      · exact Or.inr (Or.inr ⟨List.mem_cons_of_mem a h3.1, h3.2⟩)
    · injection hr with ha hr
      subst ha
      subst hr
      have hy : y ∈ t ++ l2 := hrs.subset (by simp)
      rcases List.mem_append.mp hy with hyt | hyl2
      · exact Or.inl (List.cons_sublist_cons.mpr (List.singleton_sublist.mpr hyt))
      · exact Or.inr (Or.inr ⟨by simp, hyl2⟩)

theorem pair_sublist_parts {l1 l2 : List α} {x y : α} (hx : x ∈ l1)
    (hy : y ∈ l2) : [x, y].Sublist (l1 ++ l2) :=
  List.Sublist.append (List.singleton_sublist.mpr hx)
    (List.singleton_sublist.mpr hy)

theorem pid_inj_of_nodup {l : List Process}
    (hnd : (l.map Process.pid).Nodup) {c d : Process} (hc : c ∈ l)
    (hd : d ∈ l) (h : c.pid = d.pid) : c = d :=
  List.inj_on_of_nodup_map hnd hc hd h

set_option maxHeartbeats 1600000 in
/-- Selection rule of the key-sorting non-preemptive loop: whenever entry
`j` dispatches process `c`, every process `p` that is a candidate at that
moment (arrived by the slice start and not yet dispatched) has a key at
least `k c`; on a key tie the dispatched process precedes `p` in the
stable arrival order `A`.  `A` is the arrival-sorted process list, of
which `pending` is always a suffix while `ready` draws from the
complementary prefix. -/
theorem npLoop_sel (k : Process → Int) (s : Nat → Int → String → String)
    (a : String) (A : List Process)
    (hAsort : List.Pairwise (fun p r => p.arrival_time ≤ r.arrival_time) A) :
    ∀ (fuel : Nat) pending ready time g,
      npLoop (sortK k) s a fuel pending ready time = some g →
      ((pending ++ ready).map Process.pid).Nodup →
      (∀ p ∈ ready, p.arrival_time ≤ time) →
      (∀ p ∈ pending ++ ready, 1 ≤ p.burst_time) →
      (∃ kd : Nat, pending = A.drop kd ∧ ∀ p ∈ ready, p ∈ A.take kd) →
      (∀ x y : Process, [x, y].Sublist ready → k x = k y →
        [x.pid, y.pid].Sublist (A.map Process.pid)) →
      ∀ (j : Nat) (hj : j < g.length) (c : Process), c ∈ pending ++ ready →
        (g.get ⟨j, hj⟩).pid = some c.pid →
        ∀ p ∈ pending ++ ready, entriesOf (g.take j) p.pid = [] →
          p.arrival_time ≤ (g.get ⟨j, hj⟩).start →
          k c ≤ k p ∧ (k c = k p → p.pid = c.pid ∨
            [c.pid, p.pid].Sublist (A.map Process.pid)) := by
  intro fuel
  induction fuel with
  | zero =>
    intro pending ready time g hsome
    simp [npLoop] at hsome
  | succ fuel ih =>
    intro pending ready time g hsome hnd h2 h5 hI1 hORD
    rw [npLoop] at hsome
    by_cases hemp : (pending.isEmpty && ready.isEmpty) = true
    · rw [if_pos hemp] at hsome
      have hg : ([] : List GanttEntry) = g := by injection hsome
      subst hg
      intro j hj
      exact absurd hj (by simp)
    · rw [if_neg hemp] at hsome
      cases hq1 : ready ++ pending.takeWhile (fun p => p.arrival_time ≤ time) with
      | nil =>
        rw [hq1] at hsome
        rcases List.append_eq_nil.mp hq1 with ⟨hready, htw⟩
        have hdw : pending.dropWhile (fun p => p.arrival_time ≤ time) = pending :=
          dropWhile_of_takeWhile_nil _ _ htw
        cases hp1 : pending.dropWhile (fun p => p.arrival_time ≤ time) with
        | nil =>
          rw [hdw] at hp1
          subst hp1
          subst hready
          simp at hemp
        | cons qq qs =>
          rw [hp1] at hsome
          rw [hdw] at hp1
          subst hp1
          subst hready
          obtain ⟨g', hrec, hg⟩ := Option.map_eq_some'.mp hsome
          subst hg
          obtain ⟨kd, hpd, -⟩ := hI1
          have hJ := ih (qq :: qs) [] qq.arrival_time g' hrec hnd
            (fun p hp => absurd hp (by simp)) h5
            ⟨kd, hpd, fun p hp => absurd hp (by simp)⟩
            (fun x y hxy _ => absurd (List.sublist_nil.mp hxy) (by simp))
          intro j hj c hc hpid p hp hpred harrp
          cases j with
          | zero => exact absurd hpid (by simp)
          | succ j =>
            have hj' : j < g'.length := by
              simp only [List.length_cons] at hj
              omega
            simp only [List.get_cons_succ] at hpid harrp
            have hno : ∀ pid : String, (none : Option String) ≠ some pid := by
              simp
            rw [List.take_succ_cons, entriesOf_cons_nomatch _ (hno p.pid)]
              at hpred
            exact hJ j hj' c hc hpid p hp hpred harrp
      | cons r rs =>
        rw [hq1] at hsome
        cases hsel : sortK k (r :: rs) with
        | nil =>
          have hlen := (sortK_perm k (r :: rs)).length_eq
          rw [hsel] at hlen
          simp at hlen
        | cons current rest =>
          simp only [hsel] at hsome
          obtain ⟨g', hrec, hg⟩ := Option.map_eq_some'.mp hsome
          subst hg
          rw [← hq1] at hsel
          have hperm := np_live_perm (sortK k) (fun l => sortK_perm k l) hsel
          have hnd0 : ((current ::
              (pending.dropWhile (fun p => p.arrival_time ≤ time) ++ rest)).map
              Process.pid).Nodup := ((hperm.map Process.pid).symm).nodup hnd
          rw [List.map_cons, List.nodup_cons] at hnd0
          obtain ⟨hcurnot, hnd'⟩ := hnd0
          obtain ⟨kd, hpd, hrtake⟩ := hI1
          have hsortP : List.Pairwise (fun p r => p.arrival_time ≤ r.arrival_time)
              pending := by
            rw [hpd]
            exact hAsort.sublist (List.drop_sublist _ _)
          have htwdw : pending.takeWhile (fun p => p.arrival_time ≤ time) ++
              pending.dropWhile (fun p => p.arrival_time ≤ time) = pending :=
            List.takeWhile_append_dropWhile _ _
          have hdw' : pending.dropWhile (fun p => p.arrival_time ≤ time) =
              A.drop (kd +
                (pending.takeWhile (fun p => p.arrival_time ≤ time)).length) := by
            have h1 : (pending.takeWhile (fun p => p.arrival_time ≤ time) ++
                pending.dropWhile (fun p => p.arrival_time ≤ time)).drop
                  (pending.takeWhile (fun p => p.arrival_time ≤ time)).length =
                pending.dropWhile (fun p => p.arrival_time ≤ time) :=
              List.drop_left _ _
            rw [htwdw] at h1
            rw [← h1, hpd, List.drop_drop]
          have htake' : A.take (kd +
              (pending.takeWhile (fun p => p.arrival_time ≤ time)).length) =
              A.take kd ++ pending.takeWhile (fun p => p.arrival_time ≤ time) := by
            have h1 : (pending.takeWhile (fun p => p.arrival_time ≤ time) ++
                pending.dropWhile (fun p => p.arrival_time ≤ time)).take
                  (pending.takeWhile (fun p => p.arrival_time ≤ time)).length =
                pending.takeWhile (fun p => p.arrival_time ≤ time) :=
              List.take_left _ _
            rw [htwdw] at h1
            rw [List.take_add, ← hpd, h1]
          have hndRT : (ready ++
              pending.takeWhile (fun p => p.arrival_time ≤ time)).Nodup := by
            have hsub : (ready ++
                pending.takeWhile (fun p => p.arrival_time ≤ time)).Sublist
                (ready ++ pending) :=
              List.Sublist.append_left (List.takeWhile_sublist _) ready
            have hndRP : ((ready ++ pending).map Process.pid).Nodup :=
              ((List.perm_append_comm.map Process.pid).nodup hnd)
            exact List.Nodup.of_map Process.pid ((hsub.map Process.pid).nodup hndRP)
          have hpairA : ∀ x y : Process, [x, y].Sublist
              (ready ++ pending.takeWhile (fun p => p.arrival_time ≤ time)) →
              k x = k y → [x.pid, y.pid].Sublist (A.map Process.pid) := by
            intro x y hxy hk
            rcases pair_sublist_append hxy with hrr | htt | ⟨hxr, hyt⟩
            · exact hORD x y hrr hk
            · have hA : [x, y].Sublist A := by
                refine (htt.trans (List.takeWhile_sublist _)).trans ?_
                rw [hpd]
                exact List.drop_sublist _ _
              exact hA.map Process.pid
            · have hxA : x ∈ A.take kd := hrtake x hxr
              have hyA : y ∈ A.drop kd := by
                rw [← hpd]
                exact (List.takeWhile_sublist _).subset hyt
              have hA : [x, y].Sublist (A.take kd ++ A.drop kd) :=
                pair_sublist_parts hxA hyA
              rw [List.take_append_drop] at hA
              exact hA.map Process.pid
          have hsorted' : List.Pairwise (fun x y => k x ≤ k y)
              (current :: rest) := by
            rw [← hsel]
            exact sortK_pairwise k _
          have hstab : ∀ p ∈ rest, k current = k p →
              [current.pid, p.pid].Sublist (A.map Process.pid) := by
            intro p hp hk
            have h1 : [current, p].Sublist (current :: rest) :=
              List.cons_sublist_cons.mpr (List.singleton_sublist.mpr hp)
            rw [← hsel] at h1
            exact hpairA current p (sortK_pair_rev k hndRT h1 hk) hk
          have hcand : ∀ p ∈ pending ++ ready, p.arrival_time ≤ time →
              p ∈ ready ++ pending.takeWhile (fun p => p.arrival_time ≤ time) := by
            intro p hp harr
            rcases List.mem_append.mp hp with hpp | hpr
            · rw [← htwdw] at hpp
              rcases List.mem_append.mp hpp with hptw | hpdw
              · exact List.mem_append_right ready hptw
              · exact absurd harr (dropWhile_arrival_gt time hsortP p hpdw)
            · exact List.mem_append_left _ hpr
          have harrRT : ∀ p ∈ ready ++
              pending.takeWhile (fun p => p.arrival_time ≤ time),
              p.arrival_time ≤ time := by
            intro p hp
            rcases List.mem_append.mp hp with hpr | hpt
            · exact h2 p hpr
            · exact mem_takeWhile_arrival hpt
          have hcurmem : current ∈ ready ++
              pending.takeWhile (fun p => p.arrival_time ≤ time) :=
            (sortK_perm k _).subset (by rw [hsel]; simp)
          have hcurarr : current.arrival_time ≤ time := harrRT current hcurmem
          have hstart : max time current.arrival_time = time :=
            max_eq_left hcurarr
          have hnotin : ∀ p ∈ pending.dropWhile (fun p => p.arrival_time ≤ time)
              ++ rest, (some current.pid : Option String) ≠ some p.pid := by
            intro p hp hpe
            apply hcurnot
            have hmem := List.mem_map_of_mem Process.pid hp
            have : current.pid = p.pid := by injection hpe
            rwa [this]
          have hcur5 : 1 ≤ current.burst_time :=
            h5 current (hperm.subset (by simp))
          have h2'' : ∀ p ∈ rest, p.arrival_time ≤
              max time current.arrival_time + current.burst_time := by
            intro p hp
            have hpm : p ∈ ready ++
                pending.takeWhile (fun p => p.arrival_time ≤ time) :=
              (sortK_perm k _).subset (by
                rw [hsel]
                exact List.mem_cons_of_mem current hp)
            have h1 := harrRT p hpm
            have h3 : time ≤ max time current.arrival_time := le_max_left _ _
            omega
          have hrest' : ∀ p ∈ rest, p ∈ A.take (kd +
              (pending.takeWhile (fun p => p.arrival_time ≤ time)).length) := by
            intro p hp
            have hpm : p ∈ ready ++
                pending.takeWhile (fun p => p.arrival_time ≤ time) :=
              (sortK_perm k _).subset (by
                rw [hsel]
                exact List.mem_cons_of_mem current hp)
            rw [htake']
            rcases List.mem_append.mp hpm with hpr | hpt
            · exact List.mem_append_left _ (hrtake p hpr)
            · exact List.mem_append_right _ hpt
          have hORD' : ∀ x y : Process, [x, y].Sublist rest → k x = k y →
              [x.pid, y.pid].Sublist (A.map Process.pid) := by
            intro x y hxy hk
            have h1 : [x, y].Sublist (current :: rest) :=
              hxy.trans (List.sublist_cons_self current rest)
            rw [← hsel] at h1
            exact hpairA x y (sortK_pair_rev k hndRT h1 hk) hk
          have h5' : ∀ p ∈ pending.dropWhile (fun p => p.arrival_time ≤ time)
              ++ rest, 1 ≤ p.burst_time :=
            fun p hp => h5 p (hperm.subset (List.mem_cons_of_mem current hp))
          have hJ := ih (pending.dropWhile (fun p => p.arrival_time ≤ time))
            rest (max time current.arrival_time + current.burst_time) g' hrec
            hnd' h2'' h5'
            ⟨kd + (pending.takeWhile (fun p => p.arrival_time ≤ time)).length,
              hdw', hrest'⟩
            hORD'
          obtain ⟨-, hBrec⟩ := npLoop_conservation (sortK k)
            (fun l => sortK_perm k l) s a fuel
            (pending.dropWhile (fun p => p.arrival_time ≤ time)) rest
            (max time current.arrival_time + current.burst_time) g' hrec hnd'
          intro j hj c hc hpid p hp hpred harrp
          cases j with
          | zero =>
            have hceq : current.pid = c.pid := by injection hpid
            have hcc : c = current :=
              pid_inj_of_nodup hnd hc (hperm.subset (by simp)) hceq.symm
            have harrp' : p.arrival_time ≤ time :=
              le_trans harrp (le_of_eq hstart)
            have hpRT := hcand p hp harrp'
            have hpS : p ∈ current :: rest := by
              rw [← hsel]
              exact ((sortK_perm k _).symm).subset hpRT
            rw [hcc]
            rcases List.mem_cons.mp hpS with hpc | hprest
            · rw [hpc]
              exact ⟨le_refl _, fun _ => Or.inl rfl⟩
            · refine ⟨(List.pairwise_cons.mp hsorted').1 p hprest, ?_⟩
              intro hk
              exact Or.inr (hstab p hprest hk)
          | succ j =>
            have hj' : j < g'.length := by
              simp only [List.length_cons] at hj
              omega
            simp only [List.get_cons_succ] at hpid harrp
            rcases List.mem_cons.mp (hperm.symm.subset hc) with hcc | hcm
            · have hz : entriesOf g' current.pid = [] :=
                hBrec current.pid hcurnot
              have hin : g'.get ⟨j, hj'⟩ ∈ entriesOf g' current.pid :=
                List.mem_filter.mpr ⟨List.get_mem g' j hj',
                  by rw [hpid, ← hcc]; simp⟩
              rw [hz] at hin
              exact absurd hin (List.not_mem_nil _)
            · rcases List.mem_cons.mp (hperm.symm.subset hp) with hpc | hpm
              · rw [List.take_succ_cons, hpc,
                  entriesOf_cons_match _ rfl] at hpred
                exact absurd hpred (List.cons_ne_nil _ _)
              · rw [List.take_succ_cons,
                  entriesOf_cons_nomatch _ (hnotin p hpm)] at hpred
                exact hJ j hj' c hcm hpid p hpm hpred harrp

/-- Claim C5: at every dispatch, SJF picks a ready process with minimal
burst time and Priority one with minimal priority value; a key tie is
broken by the stable arrival order (the dispatched process precedes every
tied candidate in the arrival-sorted list); and the dispatched process
runs to completion in one uninterrupted entry of its full burst length —
no later arrival preempts it. -/
theorem claim_C5 (processes : List Process)
    (s : Nat → Int → String → String)
    (hnd : (processes.map Process.pid).Nodup)
    (hb : ∀ p ∈ processes, 1 ≤ p.burst_time) :
    ((∀ (j : Nat) (hj : j < (simulate_sjf processes s).gantt.length)
        (c : Process), c ∈ processes →
        ((simulate_sjf processes s).gantt.get ⟨j, hj⟩).pid = some c.pid →
        ∀ p ∈ processes,
          entriesOf ((simulate_sjf processes s).gantt.take j) p.pid = [] →
          p.arrival_time ≤
            ((simulate_sjf processes s).gantt.get ⟨j, hj⟩).start →
          c.burst_time ≤ p.burst_time ∧
          (c.burst_time = p.burst_time → p.pid = c.pid ∨
            [c.pid, p.pid].Sublist
              ((sortK (fun q => q.arrival_time) processes).map Process.pid))) ∧
      (∀ p ∈ processes,
        execOf (simulate_sjf processes s).gantt p.pid = p.burst_time ∧
        (entriesOf (simulate_sjf processes s).gantt p.pid).length = 1)) ∧
    ((∀ (j : Nat) (hj : j < (simulate_priority processes s).gantt.length)
        (c : Process), c ∈ processes →
        ((simulate_priority processes s).gantt.get ⟨j, hj⟩).pid = some c.pid →
        ∀ p ∈ processes,
          entriesOf ((simulate_priority processes s).gantt.take j) p.pid = [] →
          p.arrival_time ≤
            ((simulate_priority processes s).gantt.get ⟨j, hj⟩).start →
          c.priority ≤ p.priority ∧
          (c.priority = p.priority → p.pid = c.pid ∨
            [c.pid, p.pid].Sublist
              ((sortK (fun q => q.arrival_time) processes).map Process.pid))) ∧
      (∀ p ∈ processes,
        execOf (simulate_priority processes s).gantt p.pid = p.burst_time ∧
        (entriesOf (simulate_priority processes s).gantt p.pid).length = 1)) := by
  have hpermA := sortK_perm (fun q => q.arrival_time) processes
  have hndA : (((sortK (fun q => q.arrival_time) processes) ++ []).map
      Process.pid).Nodup := by
    rw [List.append_nil]
    exact ((hpermA.map Process.pid).symm).nodup hnd
  have h5A : ∀ p ∈ (sortK (fun q => q.arrival_time) processes) ++ [],
      1 ≤ p.burst_time := by
    intro p hp
    rw [List.append_nil] at hp
    exact hb p (hpermA.subset hp)
  have hAsort : List.Pairwise (fun p r => p.arrival_time ≤ r.arrival_time)
      (sortK (fun q => q.arrival_time) processes) :=
    sortK_pairwise (fun q => q.arrival_time) processes
  constructor
  · obtain ⟨g0, hg0, hcons, -⟩ := npLoop_top (sortK (fun p => p.burst_time))
      (fun l => length_sortK _ l) (fun l => sortK_perm _ l) s
      "SJF (Non-preemptive)" processes hnd
    have hgg : (simulate_sjf processes s).gantt = g0 := by
      show (npLoop (sortK (fun p => p.burst_time)) s "SJF (Non-preemptive)"
        (npFuel processes) (sortK (fun p => p.arrival_time) processes) []
        (match sortK (fun p => p.arrival_time) processes with
         | [] => 0
         | p :: _ => p.arrival_time)).getD [] = g0
      rw [hg0]
      rfl
    rw [hgg]
    have hS := npLoop_sel (fun p => p.burst_time) s "SJF (Non-preemptive)"
      (sortK (fun q => q.arrival_time) processes) hAsort
      (npFuel processes) (sortK (fun q => q.arrival_time) processes) []
      (match sortK (fun q => q.arrival_time) processes with
       | [] => 0
       | p :: _ => p.arrival_time) g0 hg0 hndA
      (fun p hp => absurd hp (by simp)) h5A
      ⟨0, (List.drop_zero _).symm, fun p hp => absurd hp (by simp)⟩
      (fun x y hxy _ => absurd (List.sublist_nil.mp hxy) (by simp))
    refine ⟨?_, hcons⟩
    intro j hj c hc hpid p hp hpred harrp
    have hc' : c ∈ (sortK (fun q => q.arrival_time) processes) ++ [] := by
      rw [List.append_nil]
      exact hpermA.symm.subset hc
    have hp' : p ∈ (sortK (fun q => q.arrival_time) processes) ++ [] := by
      rw [List.append_nil]
      exact hpermA.symm.subset hp
    exact hS j hj c hc' hpid p hp' hpred harrp
  · obtain ⟨g0, hg0, hcons, -⟩ := npLoop_top (sortK (fun p => p.priority))
      (fun l => length_sortK _ l) (fun l => sortK_perm _ l) s
      "Priority (Non-preemptive)" processes hnd
    have hgg : (simulate_priority processes s).gantt = g0 := by
      show (npLoop (sortK (fun p => p.priority)) s "Priority (Non-preemptive)"
        (npFuel processes) (sortK (fun p => p.arrival_time) processes) []
        (match sortK (fun p => p.arrival_time) processes with
         | [] => 0
         | p :: _ => p.arrival_time)).getD [] = g0
      rw [hg0]
      rfl
    rw [hgg]
    have hS := npLoop_sel (fun p => p.priority) s "Priority (Non-preemptive)"
      (sortK (fun q => q.arrival_time) processes) hAsort
      (npFuel processes) (sortK (fun q => q.arrival_time) processes) []
      (match sortK (fun q => q.arrival_time) processes with
       | [] => 0
       | p :: _ => p.arrival_time) g0 hg0 hndA
      (fun p hp => absurd hp (by simp)) h5A
      ⟨0, (List.drop_zero _).symm, fun p hp => absurd hp (by simp)⟩
      (fun x y hxy _ => absurd (List.sublist_nil.mp hxy) (by simp))
    refine ⟨?_, hcons⟩
    intro j hj c hc hpid p hp hpred harrp
    have hc' : c ∈ (sortK (fun q => q.arrival_time) processes) ++ [] := by
      rw [List.append_nil]
      exact hpermA.symm.subset hc
    have hp' : p ∈ (sortK (fun q => q.arrival_time) processes) ++ [] := by
      rw [List.append_nil]
      exact hpermA.symm.subset hp
    exact hS j hj c hc' hpid p hp' hpred harrp

theorem claim_C5_witness :
    ((demoProcs.map Process.pid).Nodup ∧
      (∀ p ∈ demoProcs, 1 ≤ p.burst_time)) ∧
    (∀ (j : Nat) (hj : j <
        (simulate_sjf demoProcs always_high_strategy).gantt.length)
        (c : Process), c ∈ demoProcs →
      ((simulate_sjf demoProcs always_high_strategy).gantt.get
        ⟨j, hj⟩).pid = some c.pid →
      ∀ p ∈ demoProcs,
        entriesOf ((simulate_sjf demoProcs always_high_strategy).gantt.take j)
          p.pid = [] →
        p.arrival_time ≤
          ((simulate_sjf demoProcs always_high_strategy).gantt.get
            ⟨j, hj⟩).start →
        c.burst_time ≤ p.burst_time ∧
        (c.burst_time = p.burst_time → p.pid = c.pid ∨
          [c.pid, p.pid].Sublist
            ((sortK (fun q => q.arrival_time) demoProcs).map Process.pid))) :=
  ⟨⟨by decide, by decide⟩,
    (claim_C5 demoProcs always_high_strategy (by decide) (by decide)).1.1⟩
